import Mathlib

/-!
# kubeapply: diff-to-cluster resolution (`pkg/pullreq/diffs.go`) and header
stamping (`pkg/util/headers.go`)

A shallow embedding of `lowestParent`, `getExpandedConfigFiles`,
`GetCoveredClusters` and `AddHeaders`, together with the parts of the Go
standard library they call (`path/filepath`, `strings`, `sort`), and theorems
about them.

Conventions of the embedding:

* a Go `string` is a `List Char` (`Str`); every operation the code performs on
  strings (splitting at `/`, suffix and substring tests, comparison) acts the
  same way on code points as on the UTF-8 bytes;
* a Go `error` value is the `Str` of its message; a function returning
  `(T, error)` returns `Except Fault T`, where `Fault` also has the two
  run-time panics the code could raise (nil dereference, index out of range);
* a Go `map[string]V` is a key-unique association list (`GoMap V`); the order in
  which `range` visits a map is a parameter (`MapOrder`), as is the permutation
  chosen by the unstable `sort.Slice` (`SliceSorter`);
* the file system is a record of the three observations the code makes of it
  (`FS`): the visits of `filepath.Walk`, `ioutil.ReadFile`, and
  `config.LoadClusterConfig`; for `AddHeaders`, which writes, it is a record
  (`Disk`) that the call transforms, in which several paths can lead to one
  file (links).
-/

namespace Kubeapply

/-! ## Strings -/

/-- A Go string. -/
abbrev Str := List Char

/-- The path separator of `path/filepath` on Unix. -/
def Separator : Char := '/'

/-- The path element `.`. -/
def dot : Str := ['.']

/-- The path element `..`. -/
def dotdot : Str := ['.', '.']

/-- Model of `strings.Split(s, sep)` for a one-character separator: the pieces
of `s` between occurrences of `c`; never empty (`Split("", "/")` is `[""]`). -/
def Split (s : Str) (c : Char) : List Str :=
  match s with
  | [] => [[]]
  | x :: xs =>
    if x = c then [] :: Split xs c
    else
      match Split xs c with
      | [] => [[x]]
      | h :: t => (x :: h) :: t

/-- Model of `strings.Join(elems, sep)` for a one-character separator. -/
def JoinStrings (elems : List Str) (c : Char) : Str :=
  match elems with
  | [] => []
  | [s] => s
  | s :: t :: rest => s ++ c :: JoinStrings (t :: rest) c

/-- Model of `strings.HasSuffix`. -/
def HasSuffix (s suffix : Str) : Bool := suffix.isSuffixOf s

/-- Model of `strings.HasPrefix` / `bytes.HasPrefix`. -/
def HasPrefix (s pre : Str) : Bool := pre.isPrefixOf s

/-- Model of `strings.Contains`: `substr` occurs in `s` at some offset. -/
def Contains (s substr : Str) : Bool :=
  match s with
  | [] => substr.isEmpty
  | x :: xs => substr.isPrefixOf (x :: xs) || Contains xs substr

/-! ## Faults -/

deriving instance DecidableEq for Except

/-- Ways a call can fail: a returned Go `error`, or one of the two run-time
panics the code under study could raise. -/
inductive Fault where
  | error (msg : Str)
  | nilDeref
  | indexOutOfRange
  deriving DecidableEq, Repr

/-- Slice indexing `xs[i]`, which panics when `i` is out of range. -/
def index {α : Type} (xs : List α) (i : Nat) : Except Fault α :=
  match xs[i]? with
  | some x => .ok x
  | none => .error .indexOutOfRange

/-! ## `path/filepath` (Unix) -/

/-- Whether a path starts with the separator. -/
def isRooted (path : Str) : Bool :=
  match path with
  | c :: _ => c == Separator
  | [] => false

/-- One step of the scan of `filepath.Clean` over the `/`-separated elements of
a path. `out` is the output buffer as a stack of elements, top first.
An empty element and `.` are dropped; `..` removes the element on top of the
stack when there is one that is not itself `..` (Go: `out.w > dotdot`),
otherwise it is kept if the path is not rooted and dropped if it is; any other
element is pushed. -/
def cleanStep (rooted : Bool) (out : List Str) (el : Str) : List Str :=
  if el = [] ∨ el = dot then out
  else if el = dotdot then
    match out with
    | top :: rest => if top = dotdot then dotdot :: out else rest
    | [] => if rooted then [] else [dotdot]
  else el :: out

/-- The elements of the cleaned path, in order, without the leading separator
of a rooted path. -/
def cleanElems (path : Str) : List Str :=
  ((Split path Separator).foldl (cleanStep (isRooted path)) []).reverse

/-- Model of `filepath.Clean`: the shortest path equivalent to `path` by
lexical processing; `.` for the empty relative path, `/` for the root. -/
def Clean (path : Str) : Str :=
  let body := JoinStrings (cleanElems path) Separator
  if isRooted path then Separator :: body
  else if body = [] then dot
  else body

/-- The part of `path` up to and including its last separator (`path[:i+1]` in
`filepath.Dir`). -/
def upToLastSeparator (path : Str) : Str :=
  (path.reverse.dropWhile (fun c => c != Separator)).reverse

/-- Model of `filepath.Dir`: all but the last element of `path`, cleaned. -/
def Dir (path : Str) : Str := Clean (upToLastSeparator path)

/-- Model of `filepath.Join(a, b)`: the first non-empty argument onwards,
joined by the separator and cleaned; the empty string if both are empty. -/
def Join (a b : Str) : Str :=
  if a ≠ [] then Clean (a ++ Separator :: b)
  else if b ≠ [] then Clean b
  else []

/-- The elements the comparison loop of `filepath.Rel` sees in a cleaned path:
the pieces between separators, where the empty string has no element and a
final separator (only the root `/` has one) does not start a further one. -/
def relElems (s : Str) : List Str :=
  if s = [] then []
  else if s.getLast? = some Separator then (Split s Separator).dropLast
  else Split s Separator

/-- The loop of `filepath.Rel` that positions both paths at their first
differing elements: returns whether it stopped at a difference, and the
elements of base and target not yet consumed. -/
def stripCommon : List Str → List Str → Bool × List Str × List Str
  | b :: bs, t :: ts => if b = t then stripCommon bs ts else (true, b :: bs, t :: ts)
  | bs, ts => (false, bs, ts)

/-- The error of `filepath.Rel`. -/
def relError (basepath targpath : Str) : Fault :=
  .error ("Rel: can't make ".toList ++ targpath ++ " relative to ".toList ++ basepath)

/-- Model of `filepath.Rel(basepath, targpath)`: a relative path that is
lexically equivalent to `targpath` when joined to `basepath`. Both paths are
cleaned, and a cleaned path `.` has no elements. The call fails when one path
is rooted and the other is not, and when an element `..` is left in the base
once the elements shared with the target are taken off (no name is known for
the way back down): `Rel("..", "a")`, `Rel("..", ".")` and `Rel("../..", "..")`
fail. Otherwise the result is one `..` for every element left in the base,
followed by the elements left in the target: `Rel("a", ".")` is `..`. -/
def Rel (basepath targpath : Str) : Except Fault Str :=
  let base := Clean basepath
  let targ := Clean targpath
  if targ = base then .ok dot
  else
    let base := if base = dot then [] else base
    let targ := if targ = dot then [] else targ
    if isRooted base ≠ isRooted targ then .error (relError basepath targpath)
    else
      match stripCommon (relElems base) (relElems targ) with
      | (_, b, t) =>
        if b.head? = some dotdot then .error (relError basepath targpath)
        else if b ≠ [] then
          .ok (JoinStrings (List.replicate b.length dotdot ++ t) Separator)
        else .ok (JoinStrings t Separator)

/-! ## `lowestParent` -/

/-- First loop of `lowestParent` (`for p, path := range paths`): the split
relative directory of every path, and the length of the shortest of them. -/
def relDirsLoop (root : Str) :
    List Str → Nat → List (List Str) × Nat → Except Fault (List (List Str) × Nat)
  | [], _, acc => .ok acc
  | path :: rest, p, (pathDirs, minLen) =>
    match Rel root path with
    | .error e => .error e
    | .ok relPath =>
      let relDir := Dir relPath
      let relDirs := Split relDir Separator
      let minLen := if p = 0 ∨ relDirs.length < minLen then relDirs.length else minLen
      relDirsLoop root rest (p + 1) (pathDirs ++ [relDirs], minLen)

/-- Inner loop of `lowestParent` (`for r, relDirs := range pathDirs`) at segment
index `i`: `true` when it runs to its end, `false` when it leaves through
`break outer`. -/
def sameAt (i : Nat) : List (List Str) → Nat → Str → Except Fault Bool
  | [], _, _ => .ok true
  | relDirs :: rest, r, currDir =>
    match index relDirs i with
    | .error e => .error e
    | .ok dir =>
      if r = 0 then sameAt i rest (r + 1) dir
      else if dir ≠ currDir then .ok false
      else sameAt i rest (r + 1) currDir

/-- Outer loop of `lowestParent` (`for i := 0; i < minLen; i++`), over the
indices still to visit; returns `lowestIndex`. -/
def commonIndex (pathDirs : List (List Str)) : List Nat → Int → Except Fault Int
  | [], lowestIndex => .ok lowestIndex
  | i :: rest, lowestIndex =>
    match sameAt i pathDirs 0 [] with
    | .error e => .error e
    | .ok false => .ok lowestIndex
    | .ok true => commonIndex pathDirs rest (i : Int)

/-- Last loop of `lowestParent` (`for i := 0; i <= lowestIndex; i++`), over the
indices still to visit: joins `pathDirs[0][i]` to the path built so far. -/
def joinLoop (pathDirs : List (List Str)) : List Nat → Str → Except Fault Str
  | [], lowestParentPath => .ok lowestParentPath
  | i :: rest, lowestParentPath =>
    match index pathDirs 0 with
    | .error e => .error e
    | .ok first =>
      match index first i with
      | .error e => .error e
      | .ok seg => joinLoop pathDirs rest (Join lowestParentPath seg)

/-- Embedding of `lowestParent(root, paths)`. -/
def lowestParent (root : Str) (paths : List Str) : Except Fault Str :=
  if paths.length = 0 then .ok dot
  else
    match relDirsLoop root paths 0 ([], 0) with
    | .error e => .error e
    | .ok (pathDirs, minLen) =>
      match commonIndex pathDirs (List.range minLen) (-1) with
      | .error e => .error e
      | .ok lowestIndex =>
        joinLoop pathDirs (List.range (lowestIndex + 1).toNat) dot

/-! ## Go maps, `range` order and `sort.Slice` -/

/-- A Go `map[string]V`: an association list whose keys are pairwise distinct
(`set` keeps them so). -/
structure GoMap (V : Type) where
  entries : List (Str × V)

namespace GoMap

/-- The value stored under `k` in a list of entries, if any. -/
def lookup {V : Type} (k : Str) : List (Str × V) → Option V
  | [] => none
  | e :: rest => if e.1 = k then some e.2 else lookup k rest

/-- The entries whose key is not `k`. -/
def remove {V : Type} (k : Str) : List (Str × V) → List (Str × V)
  | [] => []
  | e :: rest => if e.1 = k then remove k rest else e :: remove k rest

/-- The empty map `map[string]V{}`. -/
def empty {V : Type} : GoMap V := ⟨[]⟩

/-- Lookup `m[k]` with the `ok` flag: `none` when the key is absent. -/
def get? {V : Type} (m : GoMap V) (k : Str) : Option V := lookup k m.entries

/-- Assignment `m[k] = v`. -/
def set {V : Type} (m : GoMap V) (k : Str) (v : V) : GoMap V :=
  ⟨(k, v) :: remove k m.entries⟩

/-- Number of keys, `len(m)`. -/
def len {V : Type} (m : GoMap V) : Nat := m.entries.length

/-- The keys of a map are pairwise distinct. -/
def NodupKeys {V : Type} (m : GoMap V) : Prop := (m.entries.map Prod.fst).Nodup

end GoMap

/-- The order in which a `for ... range m` statement visits the entries of a
map: Go leaves it unspecified, so it is any rearrangement of the entries. -/
structure MapOrder (V : Type) where
  range : List (Str × V) → List (Str × V)
  perm : ∀ l, (range l).Perm l

/-- The repository-relative location and settings of one cluster, as exposed by
`config.ClusterConfig`: the methods `DescriptiveName()` and `RelPath()` and the
fields `GithubIgnore`, `Env`, `ExpandedPath` and `Subpath`. -/
structure ClusterConfig where
  DescriptiveName : Str
  GithubIgnore : Bool
  Env : Str
  ExpandedPath : Str
  Subpath : Str
  RelPath : Str
  deriving DecidableEq, Repr

/-- The outcome of `sort.Slice` with the comparison
`changedClusters[a].RelPath() < changedClusters[b].RelPath()`: the sort is not
stable, so it is any rearrangement in which no element is followed by one with
a smaller `RelPath()`. -/
structure SliceSorter where
  sort : List ClusterConfig → List ClusterConfig
  perm : ∀ l, (sort l).Perm l
  sorted : ∀ l, (sort l).Pairwise (fun a b => ¬ b.RelPath < a.RelPath)

/-! ## The file system and the GitHub diff -/

/-- The part of `os.FileInfo` the code reads. -/
structure FileInfo where
  IsDir : Bool
  Mode : Nat
  deriving DecidableEq, Repr

/-- One invocation of a `filepath.WalkFunc`: the path, the file info (`none`
is the nil interface `Walk` passes when `Lstat` failed) and the error `Walk`
reports for this entry (`none` is nil). -/
structure Visit where
  path : Str
  info : Option FileInfo
  err : Option Str
  deriving DecidableEq, Repr

/-- What the code observes of the file system.
`Walk root` is the sequence of callback invocations `filepath.Walk(root, fn)`
makes as long as `fn` returns nil (the callbacks here never return `SkipDir`,
so the sequence does not depend on them); `ReadFile` is `ioutil.ReadFile`;
`LoadClusterConfig path repoRoot` is `config.LoadClusterConfig`. -/
structure FS where
  Walk : Str → List Visit
  ReadFile : Str → Except Str Str
  LoadClusterConfig : Str → Str → Except Str ClusterConfig

/-- Driver of `filepath.Walk`: calls `fn` on the visits in order and stops at
the first one for which `fn` does not return nil. -/
def walkVisits {σ : Type} (fn : σ → Visit → Except Fault σ) :
    List Visit → σ → Except Fault σ
  | [], st => .ok st
  | v :: rest, st =>
    match fn st v with
    | .error e => .error e
    | .ok st' => walkVisits fn rest st'

/-- A `*github.CommitFile`; a nil pointer behaves as one without filename. -/
structure CommitFile where
  Filename : Option Str
  deriving DecidableEq, Repr

/-- Accessor `GetFilename()`: the filename, or the empty string if unset. -/
def CommitFile.GetFilename (c : CommitFile) : Str := c.Filename.getD []

/-- What is left unspecified by the Go language in one run of
`GetCoveredClusters`: the file system it reads, the orders of its two `range`
loops over maps, and the permutation picked by `sort.Slice`. -/
structure World where
  fs : FS
  rangeConfigFiles : MapOrder (List Str)
  rangeChanged : MapOrder (List Str)
  sortSlice : SliceSorter

/-! ## `getExpandedConfigFiles` and `GetCoveredClusters` -/

/-- The file-name suffix of candidate files. -/
def yamlSuffix : Str := ".yaml".toList

/-- The marker of the textual pre-check. -/
def clusterMarker : Str := "cluster:".toList

/-- Callback of the walk in `getExpandedConfigFiles`. The `err` argument is not
read; `info.IsDir()` is called first, on whatever `info` is. -/
def expandedWalkFn (repoRoot : Str) (configFiles : List Str) (v : Visit) :
    Except Fault (List Str) :=
  match v.info with
  | none => .error .nilDeref
  | some info =>
    if info.IsDir then .ok configFiles
    else
      match Rel repoRoot v.path with
      | .error e => .error e
      | .ok relPath => .ok (configFiles ++ [relPath])

/-- Embedding of `getExpandedConfigFiles(repoRoot, configObj)`. -/
def getExpandedConfigFiles (fs : FS) (repoRoot : Str) (configObj : ClusterConfig) :
    Except Fault (List Str) :=
  walkVisits (expandedWalkFn repoRoot) (fs.Walk configObj.ExpandedPath) []

/-- The three maps the repository walk of `GetCoveredClusters` fills. -/
structure Discovery where
  configsMap : GoMap ClusterConfig
  configFilesMap : GoMap (List Str)
  changedClusterPaths : GoMap (List Str)

/-- The map `selectedClusterIDsMap` built at the start of `GetCoveredClusters`. -/
def selectedMap (selectedClusterIDs : List Str) : GoMap Unit :=
  selectedClusterIDs.foldl (fun m id => m.set id ()) GoMap.empty

/-- Callback of the repository walk in `GetCoveredClusters`. The `err`
argument is not read; `info.IsDir()` is called first, on whatever `info` is. -/
def walkFn (fs : FS) (repoRoot env : Str) (selectedClusterIDsMap : GoMap Unit)
    (st : Discovery) (v : Visit) : Except Fault Discovery :=
  match v.info with
  | none => .error .nilDeref
  | some info =>
    if info.IsDir then .ok st
    else if HasSuffix v.path yamlSuffix then
      match fs.ReadFile v.path with
      | .error e => .error (.error e)
      | .ok stringContents =>
        if Contains stringContents clusterMarker then
          match fs.LoadClusterConfig v.path repoRoot with
          | .error _ => .ok st
          | .ok configObj =>
            if selectedClusterIDsMap.len > 0 ∧
                selectedClusterIDsMap.get? configObj.DescriptiveName = none then .ok st
            else if configObj.GithubIgnore then .ok st
            else if env ≠ [] ∧ configObj.Env ≠ env then .ok st
            else
              match Rel repoRoot v.path with
              | .error e => .error e
              | .ok relPath =>
                let configsMap := st.configsMap.set relPath configObj
                match getExpandedConfigFiles fs repoRoot configObj with
                | .error e => .error e
                | .ok configFiles =>
                  let changedClusterPaths :=
                    if selectedClusterIDsMap.len > 0 then st.changedClusterPaths.set relPath []
                    else st.changedClusterPaths
                  .ok ⟨configsMap, st.configFilesMap.set relPath configFiles,
                    changedClusterPaths⟩
        else .ok st
    else .ok st

/-- The repository walk of `GetCoveredClusters` over a given sequence of
visits, from empty maps. -/
def discoverVisits (fs : FS) (repoRoot env : Str) (selectedClusterIDs : List Str)
    (visits : List Visit) : Except Fault Discovery :=
  walkVisits (walkFn fs repoRoot env (selectedMap selectedClusterIDs)) visits
    ⟨GoMap.empty, GoMap.empty, GoMap.empty⟩

/-- The repository walk of `GetCoveredClusters`: `filepath.Walk(repoRoot, ...)`. -/
def discover (fs : FS) (repoRoot env : Str) (selectedClusterIDs : List Str) :
    Except Fault Discovery :=
  discoverVisits fs repoRoot env selectedClusterIDs (fs.Walk repoRoot)

/-- Body of the loop `for _, configFile := range configFiles`: appends
`configPath` to the entry of `configFile`, created empty when absent. -/
def addConfigFile (configPath : Str) (configsPerFile : GoMap (List Str))
    (configFile : Str) : GoMap (List Str) :=
  let configsPerFile :=
    match configsPerFile.get? configFile with
    | none => configsPerFile.set configFile []
    | some _ => configsPerFile
  configsPerFile.set configFile ((configsPerFile.get? configFile).getD [] ++ [configPath])

/-- The loop `for configPath, configFiles := range configFilesMap`, building
`configsPerFile` from the entries in the order they are visited. -/
def invertFiles (visited : List (Str × List Str)) : GoMap (List Str) :=
  visited.foldl (fun acc e => e.2.foldl (addConfigFile e.1) acc) GoMap.empty

/-- Body of the loop `for _, diff := range diffs` for one filename: appends it
to the entry of every config path listed for it (a missing entry reads as the
nil slice). -/
def addDiff (configsPerFile : GoMap (List Str)) (changedClusterPaths : GoMap (List Str))
    (diffFile : Str) : GoMap (List Str) :=
  match configsPerFile.get? diffFile with
  | some configPaths =>
    configPaths.foldl
      (fun ch configPath => ch.set configPath ((ch.get? configPath).getD [] ++ [diffFile]))
      changedClusterPaths
  | none => changedClusterPaths

/-- Body of the loop `for clusterPath, changedFiles := range changedClusterPaths`:
the config of the cluster with its `Subpath` set. A key missing from
`configsMap` reads as the nil pointer, which the assignment dereferences. -/
def setSubpath (repoRoot subpathOverride : Str) (configsMap : GoMap ClusterConfig)
    (entry : Str × List Str) : Except Fault ClusterConfig :=
  match configsMap.get? entry.1 with
  | none => .error .nilDeref
  | some config =>
    if subpathOverride ≠ [] then .ok { config with Subpath := subpathOverride }
    else
      match Rel repoRoot config.ExpandedPath with
      | .error e => .error e
      | .ok relExpandedPath =>
        match lowestParent relExpandedPath entry.2 with
        | .error e => .error e
        | .ok subpath => .ok { config with Subpath := subpath }

/-- The loop `for clusterPath, changedFiles := range changedClusterPaths` over
the entries still to visit, appending to `changedClusters`; it returns at the
first error. -/
def collectClusters (repoRoot subpathOverride : Str) (configsMap : GoMap ClusterConfig) :
    List (Str × List Str) → List ClusterConfig → Except Fault (List ClusterConfig)
  | [], changedClusters => .ok changedClusters
  | entry :: rest, changedClusters =>
    match setSubpath repoRoot subpathOverride configsMap entry with
    | .error e => .error e
    | .ok config =>
      collectClusters repoRoot subpathOverride configsMap rest (changedClusters ++ [config])

/-- Everything `GetCoveredClusters` does after the repository walk. -/
def resolve (w : World) (repoRoot : Str) (diffs : List CommitFile) (subpathOverride : Str)
    (d : Discovery) : Except Fault (List ClusterConfig) :=
  let configsPerFile := invertFiles (w.rangeConfigFiles.range d.configFilesMap.entries)
  let changedClusterPaths :=
    (diffs.map CommitFile.GetFilename).foldl (addDiff configsPerFile) d.changedClusterPaths
  match collectClusters repoRoot subpathOverride d.configsMap
      (w.rangeChanged.range changedClusterPaths.entries) [] with
  | .error e => .error e
  | .ok changedClusters => .ok (w.sortSlice.sort changedClusters)

/-- `GetCoveredClusters` with the visits of the repository walk given
explicitly. -/
def coveredFromVisits (w : World) (visits : List Visit) (repoRoot : Str)
    (diffs : List CommitFile) (env : Str) (selectedClusterIDs : List Str)
    (subpathOverride : Str) : Except Fault (List ClusterConfig) :=
  match discoverVisits w.fs repoRoot env selectedClusterIDs visits with
  | .error e => .error e
  | .ok d => resolve w repoRoot diffs subpathOverride d

/-- Embedding of `GetCoveredClusters(repoRoot, diffs, env, selectedClusterIDs,
subpathOverride)`. -/
def GetCoveredClusters (w : World) (repoRoot : Str) (diffs : List CommitFile) (env : Str)
    (selectedClusterIDs : List Str) (subpathOverride : Str) :
    Except Fault (List ClusterConfig) :=
  coveredFromVisits w (w.fs.Walk repoRoot) repoRoot diffs env selectedClusterIDs
    subpathOverride

/-! ## `AddHeaders` (`pkg/util/headers.go`) -/

/-- The comment `headerComment` stamped on generated files. -/
def headerComment : Str := "# Generated by \"kubeapply expand\". DO NOT EDIT.\n".toList

/-- What `AddHeaders` observes of the file system and changes in it.
`Walk` gives the visits of `filepath.Walk`, which does not follow links.
`file path` is the file that opening `path` reaches, links followed: two paths
with the same `file` are names of one file (a symbolic link and its target, two
hard links, two spellings of one path). `readError path` is the error of
`ioutil.ReadFile(path)` (`none`: the read succeeds), `content` holds the bytes
of every file, and `WriteFile path data perm` is the error of
`ioutil.WriteFile(path, data, perm)` (`none`: the write succeeds). -/
structure Disk where
  Walk : Str → List Visit
  file : Str → Nat
  readError : Str → Option Str
  content : Nat → Str
  WriteFile : Str → Str → Nat → Option Str

/-- Model of `ioutil.ReadFile(path)`: its error, or the bytes of the file that
`path` leads to. -/
def Disk.ReadFile (disk : Disk) (path : Str) : Except Str Str :=
  match disk.readError path with
  | some e => .error e
  | none => .ok (disk.content (disk.file path))

/-- The permission bits `info.Mode().Perm()` of a file mode. -/
def Perm (mode : Nat) : Nat := mode % 512

/-- Model of `ioutil.WriteFile(path, data, perm)` on a path that exists: it
fails with its error, or it succeeds and the file that `path` leads to holds
`data`, so every path that leads to this file then reads as `data`. The tree,
the links and the other files stay as they are; `perm` is used only when the
call creates the file. -/
def writeFile (disk : Disk) (path data : Str) (perm : Nat) : Except Fault Disk :=
  match disk.WriteFile path data perm with
  | some e => .error (.error e)
  | none =>
    .ok { disk with content := fun f => if f = disk.file path then data else disk.content f }

/-- Callback of the walk in `AddHeaders`. -/
def addHeadersFn (disk : Disk) (v : Visit) : Except Fault Disk :=
  match v.err with
  | some e => .error (.error e)
  | none =>
    match v.info with
    | none => .error .nilDeref
    | some info =>
      if info.IsDir ∨ ¬ HasSuffix v.path yamlSuffix then .ok disk
      else
        match disk.ReadFile v.path with
        | .error e => .error (.error e)
        | .ok fileBytes =>
          if HasPrefix fileBytes headerComment then .ok disk
          else writeFile disk v.path (headerComment ++ fileBytes) (Perm info.Mode)

/-- Embedding of `AddHeaders(root)`: the file system after the call, or its
error. -/
def AddHeaders (disk : Disk) (root : Str) : Except Fault Disk :=
  walkVisits addHeadersFn (disk.Walk root) disk

/-- Header stamping of one file content: the header is put in front unless
the content already starts with it. -/
def stamp (b : Str) : Str :=
  if HasPrefix b headerComment then b else headerComment ++ b

/-! ## Notions used to state the properties -/

/-- The value of a map entry after appending the elements `xs` to it one by one
with `m[k] = append(m[k], x)`: untouched when there is nothing to append. -/
def grow (o : Option (List Str)) (xs : List Str) : Option (List Str) :=
  if xs = [] then o else some (o.getD [] ++ xs)

/-- The changed files attributed to a cluster whose expanded tree enumerates
`files`: every diff filename, in diff order, once for each time it occurs in
`files`. -/
def attributed (files diffNames : List Str) : List Str :=
  diffNames.flatMap (fun d => List.replicate (files.count d) d)

/-- How often `f` is enumerated under key `k` in a list of map entries. -/
def ownedCount (entries : List (Str × List Str)) (k f : Str) : Nat :=
  (entries.map (fun e => if e.1 = k then e.2.count f else 0)).sum

/-- The three filters of the repository walk: the ignore flag is not set, the
environment equals a non-empty `env`, and the identity is in a non-empty
selection list. -/
def Survives (env : Str) (selectedClusterIDs : List Str) (c : ClusterConfig) : Prop :=
  c.GithubIgnore = false ∧ (env ≠ [] → c.Env = env) ∧
    (selectedClusterIDs ≠ [] → c.DescriptiveName ∈ selectedClusterIDs)

instance (env : Str) (selectedClusterIDs : List Str) (c : ClusterConfig) :
    Decidable (Survives env selectedClusterIDs c) :=
  inferInstanceAs (Decidable (c.GithubIgnore = false ∧ (env ≠ [] → c.Env = env) ∧
    (selectedClusterIDs ≠ [] → c.DescriptiveName ∈ selectedClusterIDs)))

/-- Contract of the config loader: the `RelPath()` of a loaded config is the
path of its declaration relative to the repository root. -/
def LoaderContract (fs : FS) (repoRoot : Str) : Prop :=
  ∀ path cfg, fs.LoadClusterConfig path repoRoot = .ok cfg →
    Rel repoRoot path = .ok cfg.RelPath

/-- What the repository walk maintains of its three maps: every discovered
config passed the three filters; the configs and the file lists have the same
keys; the accumulator holds an empty list for every discovered config when a
selection is given and nothing otherwise; keys are distinct. -/
structure DiscoveryInv (env : Str) (selectedClusterIDs : List Str) (d : Discovery) :
    Prop where
  survives : ∀ k cfg, d.configsMap.get? k = some cfg → Survives env selectedClusterIDs cfg
  files : ∀ k, (d.configFilesMap.get? k).isSome = (d.configsMap.get? k).isSome
  seeded : ∀ k, d.changedClusterPaths.get? k =
    if selectedClusterIDs ≠ [] ∧ (d.configsMap.get? k).isSome = true then some [] else none
  nodupFiles : d.configFilesMap.NodupKeys
  nodupChanged : d.changedClusterPaths.NodupKeys

/-- The entry of a config path in the accumulator when the subpath loop
starts. -/
def changedEntry (d : Discovery) (diffs : List CommitFile) (k : Str) : Option (List Str) :=
  grow (d.changedClusterPaths.get? k)
    (attributed ((d.configFilesMap.get? k).getD []) (diffs.map CommitFile.GetFilename))

/-- An ordinary path element: not empty, without separator, neither `.` nor
`..`. -/
def IsName (s : Str) : Prop := s ≠ [] ∧ Separator ∉ s ∧ s ≠ dot ∧ s ≠ dotdot

instance (s : Str) : Decidable (IsName s) :=
  inferInstanceAs (Decidable (s ≠ [] ∧ Separator ∉ s ∧ s ≠ dot ∧ s ≠ dotdot))

/-- The path `path` lies under the directory `root`: both are rooted or both
are not, and the cleaned `path` is the cleaned `root` followed by at least one
ordinary element. -/
def Under (root path : Str) : Prop :=
  isRooted root = isRooted path ∧
    ∃ q, q ≠ [] ∧ (∀ s ∈ q, IsName s) ∧ cleanElems path = cleanElems root ++ q

/-- The segments of a directory given relative to a root, where `.` is the
root itself and has none. -/
def dirSegments (dir : Str) : List Str :=
  if dir = dot then [] else Split dir Separator

/-- The elements `filepath.Clean` can leave in a path: not empty, without
separator, and not `.`. -/
def CleanEl (e : Str) : Prop := e ≠ [] ∧ Separator ∉ e ∧ e ≠ dot

/-- The path `filepath.Rel` compares, for the base and for the target: the
cleaned path, with the empty string in the place of `.`. -/
def relBase (basepath : Str) : Str :=
  if Clean basepath = dot then [] else Clean basepath

/-- The first element `filepath.Rel` sees in a cleaned path: an empty one
when the path is rooted, none otherwise. -/
def rootMark (path : Str) : List Str := if isRooted path then [[]] else []

/-- What `strings.Split` gives for the cleaned relative directory with the
segments `ds`: the segments, or the single piece `.` when there is none. -/
def encDirs (ds : List Str) : List Str := if ds = [] then [dot] else ds

/-- Lengths recorded by the first loop: `minLen` bounds the length of every
list from below and is the length of one of them. -/
def MinOf (pathDirs : List (List Str)) (minLen : Nat) : Prop :=
  (∀ l ∈ pathDirs, minLen ≤ l.length) ∧ ∃ l ∈ pathDirs, l.length = minLen

/-- The directory of `path` relative to `root` has the ordinary segments `ds`:
`filepath.Rel` succeeds, and `filepath.Dir` of its result is `.` when `ds` is
empty and the join of `ds` otherwise. -/
def HasRelDir (root path : Str) (ds : List Str) : Prop :=
  (∀ s ∈ ds, IsName s) ∧
    ∃ rel, Rel root path = .ok rel ∧
      Dir rel = if ds = [] then dot else JoinStrings ds Separator

/-- The visit `v` is a cluster declaration that loads to `cfg`: a regular file
named `*.yaml` that can be read, holds the marker of the pre-check, and for
which `config.LoadClusterConfig` returns `cfg`. -/
def Declares (fs : FS) (repoRoot : Str) (v : Visit) (cfg : ClusterConfig) : Prop :=
  (∃ info, v.info = some info ∧ info.IsDir = false) ∧
  HasSuffix v.path yamlSuffix = true ∧
  (∃ contents, fs.ReadFile v.path = .ok contents ∧ Contains contents clusterMarker = true) ∧
  fs.LoadClusterConfig v.path repoRoot = .ok cfg

/-- A discovered cluster that survives the filters: the repository walk visits
a declaration of `cfg`, `cfg` passes the three filters, the enumeration of its
expanded tree gives `files`, and no other visit of the walk has the same path
relative to the repository root. -/
def Discovered (fs : FS) (repoRoot env : Str) (selectedClusterIDs : List Str)
    (cfg : ClusterConfig) (files : List Str) : Prop :=
  ∃ v ∈ fs.Walk repoRoot, Declares fs repoRoot v cfg ∧
    Survives env selectedClusterIDs cfg ∧
    getExpandedConfigFiles fs repoRoot cfg = .ok files ∧
    ∀ x ∈ fs.Walk repoRoot, Rel repoRoot x.path = Rel repoRoot v.path → x.path = v.path

/-- The split relative directory the first loop of `lowestParent` records for
`path`; the empty list stands in when `filepath.Rel` fails. -/
def splitRelDir (root path : Str) : List Str :=
  match Rel root path with
  | .ok rel => Split (Dir rel) Separator
  | .error _ => []

/-- The file `path` has, relative to `root`, the containing directory with the
ordinary segments `ds` (none when the file lies in `root` itself): the cleaned
`path` is the cleaned `root`, then `ds`, then one ordinary element. -/
def InDir (root : Str) (ds : List Str) (path : Str) : Prop :=
  isRooted root = isRooted path ∧ (∀ s ∈ ds, IsName s) ∧
    ∃ name, IsName name ∧ cleanElems path = cleanElems root ++ ds ++ [name]

/-- The accumulator `changedClusterPaths` when the subpath loop starts: the map
left by the repository walk, after the loop over the diffs. -/
def changedAfter (w : World) (diffs : List CommitFile) (d : Discovery) : GoMap (List Str) :=
  (diffs.map CommitFile.GetFilename).foldl
    (addDiff (invertFiles (w.rangeConfigFiles.range d.configFilesMap.entries)))
    d.changedClusterPaths

/-- The config the subpath loop appends for an accumulator entry, when it
appends one. -/
def subpathResult (repoRoot subpathOverride : Str) (configsMap : GoMap ClusterConfig)
    (entry : Str × List Str) : ClusterConfig :=
  match setSubpath repoRoot subpathOverride configsMap entry with
  | .ok c => c
  | .error _ => ⟨[], false, [], [], [], []⟩

/-- The file `f` is stamped in `cur` with respect to `disk`: in `cur` it holds
the stamped content of what it holds in `disk`. -/
def Stamped (disk cur : Disk) (f : Nat) : Prop :=
  cur.content f = stamp (disk.content f)

/-- What the walk of `AddHeaders` maintains of the file system `cur` it has
reached from `disk`: the tree, the links, the read errors and the write
outcomes are those of `disk`, and every file holds what it holds in `disk` or
is stamped. -/
structure StampInv (disk cur : Disk) : Prop where
  walk : cur.Walk = disk.Walk
  file : cur.file = disk.file
  readError : cur.readError = disk.readError
  write : cur.WriteFile = disk.WriteFile
  content : ∀ f, cur.content f = disk.content f ∨ Stamped disk cur f

/-- The visit `v` is of an entry that is not a directory (a regular file, or a
link, which the walk does not follow) and whose path ends in `.yaml`. -/
def IsYamlFile (v : Visit) : Prop :=
  (∃ info, v.info = some info ∧ info.IsDir = false) ∧ HasSuffix v.path yamlSuffix = true

/-! ## An example repository

Two clusters under `/repo`: `clusters/a` with expanded files `x/y.yaml` and
`x/z.yaml`, and `clusters/b` with expanded file `w.yaml`. -/

namespace Example

/-- A directory visit. -/
def dirVisit (path : String) : Visit := ⟨path.toList, some ⟨true, 493⟩, none⟩

/-- A regular-file visit. -/
def fileVisit (path : String) : Visit := ⟨path.toList, some ⟨false, 420⟩, none⟩

/-- The visits of a walk of cluster A's expanded tree. -/
def walkExpandedA : List Visit :=
  [dirVisit "/repo/clusters/a/expanded", dirVisit "/repo/clusters/a/expanded/x",
   fileVisit "/repo/clusters/a/expanded/x/y.yaml",
   fileVisit "/repo/clusters/a/expanded/x/z.yaml"]

/-- The visits of a walk of cluster B's expanded tree. -/
def walkExpandedB : List Visit :=
  [dirVisit "/repo/clusters/b/expanded", fileVisit "/repo/clusters/b/expanded/w.yaml"]

/-- The visits of a walk of the repository, in lexical order. -/
def walkRepo : List Visit :=
  [dirVisit "/repo", dirVisit "/repo/clusters", dirVisit "/repo/clusters/a",
   fileVisit "/repo/clusters/a/cluster.yaml"] ++ walkExpandedA ++
  [dirVisit "/repo/clusters/b", fileVisit "/repo/clusters/b/cluster.yaml"] ++ walkExpandedB

/-- The config declared at `clusters/a/cluster.yaml`. -/
def clusterA : ClusterConfig :=
  { DescriptiveName := "stage:us-west-2:a".toList, GithubIgnore := false,
    Env := "stage".toList, ExpandedPath := "/repo/clusters/a/expanded".toList,
    Subpath := dot, RelPath := "clusters/a/cluster.yaml".toList }

/-- The config declared at `clusters/b/cluster.yaml`. -/
def clusterB : ClusterConfig :=
  { DescriptiveName := "stage:us-west-2:b".toList, GithubIgnore := false,
    Env := "stage".toList, ExpandedPath := "/repo/clusters/b/expanded".toList,
    Subpath := dot, RelPath := "clusters/b/cluster.yaml".toList }

/-- The example file system. -/
def fs : FS where
  Walk := fun root =>
    if root = "/repo".toList then walkRepo
    else if root = "/repo/clusters/a/expanded".toList then walkExpandedA
    else if root = "/repo/clusters/b/expanded".toList then walkExpandedB
    else [⟨root, none, some "no such file or directory".toList⟩]
  ReadFile := fun path =>
    if path = "/repo/clusters/a/cluster.yaml".toList then .ok "cluster: a\n".toList
    else if path = "/repo/clusters/b/cluster.yaml".toList then .ok "cluster: b\n".toList
    else .ok "kind: ConfigMap\n".toList
  LoadClusterConfig := fun path _ =>
    if path = "/repo/clusters/a/cluster.yaml".toList then .ok clusterA
    else if path = "/repo/clusters/b/cluster.yaml".toList then .ok clusterB
    else .error "not a cluster config".toList

/-- Visiting map entries in the order they are stored. -/
def storedOrder : MapOrder (List Str) := ⟨id, fun _ => List.Perm.refl _⟩

/-- The comparison of `sort.Slice` in `GetCoveredClusters`, as a total preorder. -/
def byRelPath (a b : ClusterConfig) : Prop := a.RelPath ≤ b.RelPath

instance : DecidableRel byRelPath :=
  fun a b => inferInstanceAs (Decidable (a.RelPath ≤ b.RelPath))

instance : IsTotal ClusterConfig byRelPath := ⟨fun a b => le_total a.RelPath b.RelPath⟩

instance : IsTrans ClusterConfig byRelPath := ⟨fun _ _ _ h₁ h₂ => le_trans h₁ h₂⟩

/-- Insertion sort by `RelPath()`, one admissible outcome of `sort.Slice`. -/
def insertionSorter : SliceSorter where
  sort := List.insertionSort byRelPath
  perm := List.perm_insertionSort byRelPath
  sorted := fun l =>
    (List.sorted_insertionSort byRelPath l).imp (fun h => not_lt.mpr h)

/-- The example world: stored map order, insertion sort. -/
def world : World := ⟨fs, storedOrder, storedOrder, insertionSorter⟩

/-- Visiting map entries in the reverse of the order they are stored. -/
def reversedOrder : MapOrder (List Str) := ⟨List.reverse, fun l => List.reverse_perm l⟩

/-- A visit of a symbolic link: `Lstat` reports the link itself, which is not a
directory (mode `ModeSymlink | 0777`). -/
def linkVisit (path : String) : Visit := ⟨path.toList, some ⟨false, 134218239⟩, none⟩

/-- The expanded tree of cluster A as a file system for `AddHeaders`: the file
`x/y.yaml` already carries the header, `x/z.yaml` does not, and there is a file
`x/notes.txt`; every path is a file of its own and every write succeeds. -/
def disk : Disk where
  Walk := fun root =>
    if root = "/repo/clusters/a/expanded".toList then
      [dirVisit "/repo/clusters/a/expanded", dirVisit "/repo/clusters/a/expanded/x",
       fileVisit "/repo/clusters/a/expanded/x/notes.txt",
       fileVisit "/repo/clusters/a/expanded/x/y.yaml",
       fileVisit "/repo/clusters/a/expanded/x/z.yaml"]
    else [⟨root, none, some "no such file or directory".toList⟩]
  file := fun path =>
    if path = "/repo/clusters/a/expanded/x/notes.txt".toList then 1
    else if path = "/repo/clusters/a/expanded/x/y.yaml".toList then 2
    else if path = "/repo/clusters/a/expanded/x/z.yaml".toList then 3
    else 0
  readError := fun path =>
    if path = "/repo/clusters/a/expanded/x/notes.txt".toList ∨
        path = "/repo/clusters/a/expanded/x/y.yaml".toList ∨
        path = "/repo/clusters/a/expanded/x/z.yaml".toList then none
    else some "no such file or directory".toList
  content := fun f =>
    if f = 1 then "notes\n".toList
    else if f = 2 then headerComment ++ "kind: ConfigMap\n".toList
    else if f = 3 then "kind: Service\n".toList
    else []
  WriteFile := fun _ _ _ => none

/-- The file system `disk` after `AddHeaders` on cluster A's expanded tree. -/
def diskStamped : Disk :=
  match AddHeaders disk "/repo/clusters/a/expanded".toList with
  | .ok d => d
  | .error _ => disk

/-- The tree of `disk` with two more entries: `x/link.yaml`, a symbolic link
to `x/notes.txt`, so both paths lead to the file of `x/notes.txt`, and a file
`x/plain.txt`. The walk visits the entries of `x` in lexical order. -/
def diskLinked : Disk where
  Walk := fun root =>
    if root = "/repo/clusters/a/expanded".toList then
      [dirVisit "/repo/clusters/a/expanded", dirVisit "/repo/clusters/a/expanded/x",
       linkVisit "/repo/clusters/a/expanded/x/link.yaml",
       fileVisit "/repo/clusters/a/expanded/x/notes.txt",
       fileVisit "/repo/clusters/a/expanded/x/plain.txt",
       fileVisit "/repo/clusters/a/expanded/x/y.yaml",
       fileVisit "/repo/clusters/a/expanded/x/z.yaml"]
    else [⟨root, none, some "no such file or directory".toList⟩]
  file := fun path =>
    if path = "/repo/clusters/a/expanded/x/link.yaml".toList then 1
    else if path = "/repo/clusters/a/expanded/x/plain.txt".toList then 4
    else disk.file path
  readError := fun path =>
    if path = "/repo/clusters/a/expanded/x/link.yaml".toList ∨
        path = "/repo/clusters/a/expanded/x/plain.txt".toList then none
    else disk.readError path
  content := fun f => if f = 4 then "plain\n".toList else disk.content f
  WriteFile := fun _ _ _ => none

/-- The file system `diskLinked` after `AddHeaders` on cluster A's expanded
tree. -/
def diskLinkedStamped : Disk :=
  match AddHeaders diskLinked "/repo/clusters/a/expanded".toList with
  | .ok d => d
  | .error _ => diskLinked

/-- The example world with both maps visited in reverse order. -/
def worldReversed : World := ⟨fs, reversedOrder, reversedOrder, insertionSorter⟩

/-- The maps the repository walk leaves, without filter and selection. -/
def discovery : Discovery :=
  match discover fs "/repo".toList [] [] with
  | .ok d => d
  | .error _ => ⟨GoMap.empty, GoMap.empty, GoMap.empty⟩

/-- The repository root. -/
def repo : Str := "/repo".toList

/-- Cluster A's expanded root, relative to the repository root. -/
def expandedA : Str := "clusters/a/expanded".toList

/-- Two files under cluster A's expanded root whose directories `x` and `q`
share no segment. -/
def filesDiverging : List Str :=
  ["clusters/a/expanded/x/y.yaml".toList, "clusters/a/expanded/q/r.yaml".toList]

/-- Two rooted paths, which cannot be made relative to cluster A's expanded
root. -/
def filesOutside : List Str := ["/x/f.yaml".toList, "/y/g.yaml".toList]

/-- Two files that lie in cluster A's expanded root itself. -/
def filesInRoot : List Str :=
  ["clusters/a/expanded/y.yaml".toList, "clusters/a/expanded/r.yaml".toList]

/-- The files enumerated under cluster A's expanded tree. -/
def filesA : List Str :=
  ["clusters/a/expanded/x/y.yaml".toList, "clusters/a/expanded/x/z.yaml".toList]

/-- The files enumerated under cluster B's expanded tree. -/
def filesB : List Str := ["clusters/b/expanded/w.yaml".toList]

/-- A diff entry for `clusters/a/expanded/x/y.yaml`. -/
def diffY : CommitFile := ⟨some "clusters/a/expanded/x/y.yaml".toList⟩

/-- A diff entry for `clusters/a/expanded/x/z.yaml`. -/
def diffZ : CommitFile := ⟨some "clusters/a/expanded/x/z.yaml".toList⟩

/-- A diff entry for `clusters/b/expanded/w.yaml`. -/
def diffW : CommitFile := ⟨some "clusters/b/expanded/w.yaml".toList⟩

/-- A third declaration, `clusters/c/cluster.yaml`, that passes the textual
pre-check but does not parse. -/
def brokenPath : Str := "/repo/clusters/c/cluster.yaml".toList

/-- The contents of the file at `brokenPath`. -/
def brokenContents : Str := "cluster: [c\n".toList

/-- The error of the loader on the file at `brokenPath`. -/
def brokenError : Str := "yaml: line 1: did not find expected ',' or ']'".toList

/-- The example file system with the unparsable declaration added. -/
def fsBroken : FS where
  Walk := fun root =>
    if root = repo then walkRepo ++ [dirVisit "/repo/clusters/c", ⟨brokenPath, some ⟨false, 420⟩, none⟩]
    else fs.Walk root
  ReadFile := fun path => if path = brokenPath then .ok brokenContents else fs.ReadFile path
  LoadClusterConfig := fun path root =>
    if path = brokenPath then .error brokenError else fs.LoadClusterConfig path root

/-- The example world over `fsBroken`. -/
def worldBroken : World := ⟨fsBroken, storedOrder, storedOrder, insertionSorter⟩

/-- The example file system when the directory `clusters/b` cannot be read:
`filepath.Walk` calls the callback a second time for it, with the error of
`readDirNames`, and does not descend. -/
def fsUnreadable : FS where
  Walk := fun root =>
    if root = repo then
      [dirVisit "/repo", dirVisit "/repo/clusters", dirVisit "/repo/clusters/a",
        fileVisit "/repo/clusters/a/cluster.yaml"] ++ walkExpandedA ++
      [dirVisit "/repo/clusters/b",
       ⟨"/repo/clusters/b".toList, some ⟨true, 0⟩,
        some "open /repo/clusters/b: permission denied".toList⟩]
    else fs.Walk root
  ReadFile := fs.ReadFile
  LoadClusterConfig := fs.LoadClusterConfig

/-- The example world over `fsUnreadable`. -/
def worldUnreadable : World := ⟨fsUnreadable, storedOrder, storedOrder, insertionSorter⟩

/-- The example file system when `Lstat` fails on `clusters/b/cluster.yaml`:
`filepath.Walk` calls the callback for it with a nil `FileInfo` and the
error. -/
def fsLstatFails : FS where
  Walk := fun root =>
    if root = repo then
      [dirVisit "/repo", dirVisit "/repo/clusters", dirVisit "/repo/clusters/a",
        fileVisit "/repo/clusters/a/cluster.yaml"] ++ walkExpandedA ++
      [dirVisit "/repo/clusters/b",
       ⟨"/repo/clusters/b/cluster.yaml".toList, none,
        some "lstat /repo/clusters/b/cluster.yaml: input/output error".toList⟩]
    else fs.Walk root
  ReadFile := fs.ReadFile
  LoadClusterConfig := fs.LoadClusterConfig

/-- The example world over `fsLstatFails`. -/
def worldLstatFails : World := ⟨fsLstatFails, storedOrder, storedOrder, insertionSorter⟩

/-- The example file system when the directory `x` of cluster A's expanded
tree cannot be read: the walk of the expanded tree calls the callback a second
time for `x`, with the error, and does not visit the files below. -/
def fsExpandedUnreadable : FS where
  Walk := fun root =>
    if root = "/repo/clusters/a/expanded".toList then
      [dirVisit "/repo/clusters/a/expanded", dirVisit "/repo/clusters/a/expanded/x",
       ⟨"/repo/clusters/a/expanded/x".toList, some ⟨true, 0⟩,
        some "open /repo/clusters/a/expanded/x: permission denied".toList⟩]
    else fs.Walk root
  ReadFile := fs.ReadFile
  LoadClusterConfig := fs.LoadClusterConfig

/-- The example world over `fsExpandedUnreadable`. -/
def worldExpandedUnreadable : World :=
  ⟨fsExpandedUnreadable, storedOrder, storedOrder, insertionSorter⟩

end Example

/-! ## Lemmas on maps -/

namespace GoMap

theorem get?_empty {V : Type} (k : Str) : (GoMap.empty : GoMap V).get? k = none := rfl

theorem lookup_remove {V : Type} (k k' : Str) (l : List (Str × V)) :
    lookup k' (remove k l) = if k = k' then none else lookup k' l := by
  induction l with
  | nil => simp [lookup, remove]
  | cons e rest ih =>
    by_cases he : e.1 = k
    · by_cases h : k = k'
      · rw [remove, if_pos he, ih, if_pos h, if_pos h]
      · have h2 : ¬ e.1 = k' := fun h' => h (he.symm.trans h')
        rw [remove, if_pos he, ih, if_neg h, if_neg h, lookup, if_neg h2]
    · by_cases hk : e.1 = k'
      · have h2 : ¬ k = k' := fun h' => he (hk.trans h'.symm)
        rw [remove, if_neg he, lookup, if_pos hk, if_neg h2, lookup, if_pos hk]
      · rw [remove, if_neg he, lookup, if_neg hk, ih, lookup, if_neg hk]

theorem get?_set {V : Type} (m : GoMap V) (k k' : Str) (v : V) :
    (m.set k v).get? k' = if k = k' then some v else m.get? k' := by
  unfold GoMap.get? GoMap.set
  by_cases h : k = k'
  · rw [lookup, if_pos h, if_pos h]
  · rw [lookup, if_neg h, if_neg h, lookup_remove, if_neg h]

theorem mem_remove {V : Type} {k : Str} {l : List (Str × V)} {e : Str × V}
    (h : e ∈ remove k l) : e ∈ l ∧ e.1 ≠ k := by
  induction l with
  | nil => simp [remove] at h
  | cons x rest ih =>
    by_cases hx : x.1 = k
    · rw [remove, if_pos hx] at h
      exact ⟨List.mem_cons_of_mem _ (ih h).1, (ih h).2⟩
    · rw [remove, if_neg hx, List.mem_cons] at h
      rcases h with h | h
      · exact ⟨by rw [h]; exact List.mem_cons_self _ _, by rw [h]; exact hx⟩
      · exact ⟨List.mem_cons_of_mem _ (ih h).1, (ih h).2⟩

theorem remove_sublist {V : Type} (k : Str) (l : List (Str × V)) :
    (remove k l).Sublist l := by
  induction l with
  | nil => exact List.Sublist.refl _
  | cons x rest ih =>
    by_cases hx : x.1 = k
    · rw [remove, if_pos hx]
      exact ih.cons _
    · rw [remove, if_neg hx]
      exact ih.cons₂ _

theorem nodupKeys_empty {V : Type} : (GoMap.empty : GoMap V).NodupKeys :=
  List.nodup_nil

theorem nodupKeys_set {V : Type} {m : GoMap V} (h : m.NodupKeys) (k : Str) (v : V) :
    (m.set k v).NodupKeys := by
  unfold GoMap.NodupKeys GoMap.set at *
  rw [List.map_cons, List.nodup_cons]
  constructor
  · intro hk
    obtain ⟨e, he, hek⟩ := List.mem_map.mp hk
    exact (mem_remove he).2 hek
  · exact h.sublist ((remove_sublist k _).map _)

theorem mem_iff_lookup {V : Type} (l : List (Str × V)) (h : (l.map Prod.fst).Nodup)
    (k : Str) (v : V) : (k, v) ∈ l ↔ lookup k l = some v := by
  induction l with
  | nil => simp [lookup]
  | cons e rest ih =>
    rw [List.map_cons, List.nodup_cons] at h
    by_cases he : e.1 = k
    · rw [lookup, if_pos he, List.mem_cons]
      constructor
      · rintro (h1 | h1)
        · rw [← h1]
        · exact absurd (List.mem_map_of_mem Prod.fst h1) (by rw [← he] at *; exact h.1)
      · intro h1
        left
        cases e
        simp only [Option.some.injEq] at h1
        simp only at he
        rw [he, h1]
    · rw [lookup, if_neg he, List.mem_cons, ← ih h.2]
      constructor
      · rintro (h1 | h1)
        · exact absurd (by rw [← h1]) he
        · exact h1
      · exact Or.inr

theorem mem_entries_iff {V : Type} {m : GoMap V} (h : m.NodupKeys) (k : Str) (v : V) :
    (k, v) ∈ m.entries ↔ m.get? k = some v :=
  mem_iff_lookup m.entries h k v

theorem get?_of_mem {V : Type} {m : GoMap V} (h : m.NodupKeys) {e : Str × V}
    (he : e ∈ m.entries) : m.get? e.1 = some e.2 :=
  (mem_entries_iff h e.1 e.2).mp he

end GoMap

/-! ## The repository walk -/

theorem walkVisits_append {σ : Type} (fn : σ → Visit → Except Fault σ)
    (a b : List Visit) (st : σ) :
    walkVisits fn (a ++ b) st =
      match walkVisits fn a st with
      | .error e => .error e
      | .ok st' => walkVisits fn b st' := by
  induction a generalizing st with
  | nil => rfl
  | cons v rest ih =>
    simp only [List.cons_append, walkVisits]
    cases fn st v with
    | error e => rfl
    | ok st' => exact ih st'

theorem walkVisits_inv {σ : Type} (fn : σ → Visit → Except Fault σ) (P : σ → Prop)
    (step : ∀ st v st', P st → fn st v = .ok st' → P st')
    (visits : List Visit) (st st' : σ) (h0 : P st)
    (h : walkVisits fn visits st = .ok st') : P st' := by
  induction visits generalizing st with
  | nil =>
    simp only [walkVisits, Except.ok.injEq] at h
    exact h ▸ h0
  | cons v rest ih =>
    simp only [walkVisits] at h
    cases hv : fn st v with
    | error e => simp [hv] at h
    | ok st1 =>
      rw [hv] at h
      exact ih st1 (step st v st1 h0 hv) h

theorem selectedMap_get? (selected : List Str) (m : GoMap Unit) (id : Str) :
    (selected.foldl (fun m id => m.set id ()) m).get? id =
      if id ∈ selected then some () else m.get? id := by
  induction selected generalizing m with
  | nil => simp
  | cons x rest ih =>
    rw [List.foldl_cons, ih, GoMap.get?_set]
    by_cases h1 : id ∈ rest
    · simp [h1]
    · by_cases h2 : x = id
      · simp [h2]
      · have h3 : ¬ id = x := fun h => h2 h.symm
        simp [h1, h2, h3]

theorem selectedMap_len (selected : List Str) (m : GoMap Unit) :
    0 < (selected.foldl (fun m id => m.set id ()) m).len ↔ selected ≠ [] ∨ 0 < m.len := by
  induction selected generalizing m with
  | nil => simp
  | cons x rest ih =>
    rw [List.foldl_cons, ih]
    simp [GoMap.set, GoMap.len]

theorem selectedMap_len_pos (selected : List Str) :
    0 < (selectedMap selected).len ↔ selected ≠ [] := by
  unfold selectedMap
  rw [selectedMap_len]
  simp [GoMap.empty, GoMap.len]

theorem selectedMap_get?_none (selected : List Str) (id : Str) :
    (selectedMap selected).get? id = none ↔ id ∉ selected := by
  unfold selectedMap
  rw [selectedMap_get?]
  by_cases h : id ∈ selected <;> simp [h, GoMap.get?_empty]

/-- What one call of the walk callback does when it returns nil: nothing, or
the registration of one config that passed the three filters. -/
theorem walkFn_ok (fs : FS) (repoRoot env : Str) (selected : List Str)
    (st st' : Discovery) (v : Visit)
    (h : walkFn fs repoRoot env (selectedMap selected) st v = .ok st') :
    st' = st ∨ ∃ cfg relPath files,
      fs.LoadClusterConfig v.path repoRoot = .ok cfg ∧ Survives env selected cfg ∧
      Rel repoRoot v.path = .ok relPath ∧
      getExpandedConfigFiles fs repoRoot cfg = .ok files ∧
      st' = ⟨st.configsMap.set relPath cfg, st.configFilesMap.set relPath files,
        if selected ≠ [] then st.changedClusterPaths.set relPath []
        else st.changedClusterPaths⟩ := by
  unfold walkFn at h
  split at h
  · simp at h
  · split at h
    · left; simpa using h.symm
    · split at h
      · split at h
        · simp at h
        · split at h
          · split at h
            · left; simpa using h.symm
            · rename_i cfg hload
              split at h
              · left; simpa using h.symm
              · rename_i hsel
                split at h
                · left; simpa using h.symm
                · rename_i hign
                  split at h
                  · left; simpa using h.symm
                  · rename_i henv
                    split at h
                    · simp at h
                    · rename_i relPath hrel
                      split at h
                      · simp at h
                      · rename_i files hfiles
                        right
                        refine ⟨cfg, relPath, files, hload, ?_, hrel, hfiles, ?_⟩
                        · refine ⟨by simpa using hign, ?_, ?_⟩
                          · intro he
                            by_contra hne
                            exact henv ⟨he, hne⟩
                          · intro hs
                            by_contra hne
                            exact hsel ⟨(selectedMap_len_pos selected).mpr hs,
                              (selectedMap_get?_none selected _).mpr hne⟩
                        · simp only [Except.ok.injEq] at h
                          rw [← h]
                          simp only [selectedMap_len_pos]
          · left; simpa using h.symm
      · left; simpa using h.symm

theorem discoveryInv_empty (env : Str) (selected : List Str) :
    DiscoveryInv env selected ⟨GoMap.empty, GoMap.empty, GoMap.empty⟩ where
  survives := fun k cfg h => by simp [GoMap.get?_empty] at h
  files := fun k => by simp [GoMap.get?_empty]
  seeded := fun k => by simp [GoMap.get?_empty]
  nodupFiles := GoMap.nodupKeys_empty
  nodupChanged := GoMap.nodupKeys_empty

theorem discoveryInv_step (fs : FS) (repoRoot env : Str) (selected : List Str)
    (st : Discovery) (v : Visit) (st' : Discovery)
    (inv : DiscoveryInv env selected st)
    (h : walkFn fs repoRoot env (selectedMap selected) st v = .ok st') :
    DiscoveryInv env selected st' := by
  rcases walkFn_ok fs repoRoot env selected st st' v h with h1 | ⟨cfg, rp, files, -, hs, -, -, h1⟩
  · rw [h1]; exact inv
  · subst h1
    refine ⟨?_, ?_, ?_, GoMap.nodupKeys_set inv.nodupFiles _ _, ?_⟩
    · intro k c hk
      rw [GoMap.get?_set] at hk
      by_cases hrk : rp = k
      · rw [if_pos hrk] at hk
        cases hk
        exact hs
      · rw [if_neg hrk] at hk
        exact inv.survives k c hk
    · intro k
      simp only [GoMap.get?_set]
      by_cases hrk : rp = k
      · simp [hrk]
      · simp [hrk, inv.files k]
    · intro k
      by_cases hsel : selected = []
      · simp only [hsel, ne_eq, not_true_eq_false, if_false, false_and]
        have := inv.seeded k
        simpa [hsel] using this
      · simp only [hsel, ne_eq, not_false_eq_true, if_true, true_and, GoMap.get?_set]
        by_cases hrk : rp = k
        · simp [hrk]
        · have := inv.seeded k
          simpa [hrk, hsel] using this
    · by_cases hsel : selected = []
      · simp only [hsel, ne_eq, not_true_eq_false, if_false]
        exact inv.nodupChanged
      · simp only [hsel, ne_eq, not_false_eq_true, if_true]
        exact GoMap.nodupKeys_set inv.nodupChanged _ _

theorem discoverVisits_inv (fs : FS) (repoRoot env : Str) (selected : List Str)
    (visits : List Visit) (d : Discovery)
    (h : discoverVisits fs repoRoot env selected visits = .ok d) :
    DiscoveryInv env selected d :=
  walkVisits_inv _ (DiscoveryInv env selected)
    (fun st v st' inv hst => discoveryInv_step fs repoRoot env selected st v st' inv hst)
    visits _ d (discoveryInv_empty env selected) h

/-- Under the loader contract, every discovered config is stored under its own
`RelPath()`. -/
theorem discoverVisits_relPath (fs : FS) (repoRoot env : Str) (selected : List Str)
    (hload : LoaderContract fs repoRoot) (visits : List Visit) (d : Discovery)
    (h : discoverVisits fs repoRoot env selected visits = .ok d) :
    ∀ k cfg, d.configsMap.get? k = some cfg → cfg.RelPath = k := by
  refine walkVisits_inv _ (fun d => ∀ k cfg, d.configsMap.get? k = some cfg → cfg.RelPath = k)
    ?_ visits _ d (fun k cfg hk => by simp [GoMap.get?_empty] at hk) h
  intro st v st' inv hst k c hk
  rcases walkFn_ok fs repoRoot env selected st st' v hst with
    h1 | ⟨cfg, rp, files, hl, -, hrel, -, h1⟩
  · rw [h1] at hk; exact inv k c hk
  · subst h1
    simp only [GoMap.get?_set] at hk
    by_cases hrk : rp = k
    · rw [if_pos hrk] at hk
      cases hk
      have := hload v.path c hl
      rw [hrel] at this
      cases this
      exact hrk
    · rw [if_neg hrk] at hk
      exact inv k c hk

/-! ## Inverting the file lists and attributing the diffs -/

theorem grow_nil (o : Option (List Str)) : grow o [] = o := by simp [grow]

theorem grow_grow (o : Option (List Str)) (xs ys : List Str) :
    grow (grow o xs) ys = grow o (xs ++ ys) := by
  unfold grow
  by_cases hx : xs = []
  · simp [hx]
  · by_cases hy : ys = []
    · simp [hx, hy]
    · simp [hx, hy, List.append_assoc]

theorem addConfigFile_get? (configPath : Str) (acc : GoMap (List Str)) (cf f : Str) :
    (addConfigFile configPath acc cf).get? f =
      if cf = f then some ((acc.get? f).getD [] ++ [configPath]) else acc.get? f := by
  unfold addConfigFile
  by_cases h : cf = f
  · subst h
    cases hg : acc.get? cf <;> simp [GoMap.get?_set, hg]
  · cases hg : acc.get? cf <;> simp [GoMap.get?_set, hg, h]

theorem addConfigFile_count (configPath : Str) (acc : GoMap (List Str)) (cf f k : Str) :
    (((addConfigFile configPath acc cf).get? f).getD []).count k =
      ((acc.get? f).getD []).count k +
        (if configPath = k then (if cf = f then 1 else 0) else 0) := by
  rw [addConfigFile_get?]
  by_cases h : cf = f
  · by_cases hk : configPath = k <;> simp [h, hk, List.count_append, List.count_singleton]
  · simp [h]

theorem addConfigFiles_count (configPath : Str) (files : List Str) (acc : GoMap (List Str))
    (f k : Str) :
    (((files.foldl (addConfigFile configPath) acc).get? f).getD []).count k =
      ((acc.get? f).getD []).count k + (if configPath = k then files.count f else 0) := by
  induction files generalizing acc with
  | nil => simp
  | cons cf rest ih =>
    rw [List.foldl_cons, ih, addConfigFile_count, List.count_cons]
    by_cases hk : configPath = k
    · by_cases h : cf = f
      · simp [hk, h]; omega
      · simp [hk, h]
    · simp [hk]

theorem invertFiles_count_aux (visited : List (Str × List Str)) (acc : GoMap (List Str))
    (f k : Str) :
    (((visited.foldl (fun acc e => e.2.foldl (addConfigFile e.1) acc) acc).get? f).getD
        []).count k =
      ((acc.get? f).getD []).count k + ownedCount visited k f := by
  induction visited generalizing acc with
  | nil => simp [ownedCount]
  | cons e rest ih =>
    rw [List.foldl_cons, ih, addConfigFiles_count]
    simp only [ownedCount, List.map_cons, List.sum_cons]
    omega

theorem invertFiles_count (visited : List (Str × List Str)) (f k : Str) :
    (((invertFiles visited).get? f).getD []).count k = ownedCount visited k f := by
  unfold invertFiles
  rw [invertFiles_count_aux]
  simp [GoMap.get?_empty]

theorem ownedCount_perm {l₁ l₂ : List (Str × List Str)} (h : l₁.Perm l₂) (k f : Str) :
    ownedCount l₁ k f = ownedCount l₂ k f :=
  (h.map _).sum_eq

theorem ownedCount_eq (entries : List (Str × List Str)) (h : (entries.map Prod.fst).Nodup)
    (k f : Str) : ownedCount entries k f = ((GoMap.lookup k entries).getD []).count f := by
  induction entries with
  | nil => simp [ownedCount, GoMap.lookup]
  | cons e rest ih =>
    rw [List.map_cons, List.nodup_cons] at h
    have ih' := ih h.2
    unfold ownedCount at ih' ⊢
    rw [List.map_cons, List.sum_cons, ih']
    by_cases he : e.1 = k
    · have hnone : GoMap.lookup k rest = none := by
        cases hl : GoMap.lookup k rest with
        | none => rfl
        | some v =>
          have := (GoMap.mem_iff_lookup rest h.2 k v).mpr hl
          exact absurd (List.mem_map_of_mem Prod.fst this) (by rw [← he] at *; exact h.1)
      simp [GoMap.lookup, he, hnone]
    · simp [GoMap.lookup, he]

theorem appendDiff_get? (d : Str) (configPaths : List Str) (ch : GoMap (List Str)) (k : Str) :
    (configPaths.foldl
      (fun ch configPath => ch.set configPath ((ch.get? configPath).getD [] ++ [d]))
      ch).get? k = grow (ch.get? k) (List.replicate (configPaths.count k) d) := by
  induction configPaths generalizing ch with
  | nil => simp [grow_nil]
  | cons cp rest ih =>
    rw [List.foldl_cons, ih, GoMap.get?_set, List.count_cons]
    by_cases h : cp = k
    · subst h
      simp only [if_true, beq_self_eq_true]
      have : some ((ch.get? cp).getD [] ++ [d]) = grow (ch.get? cp) [d] := by simp [grow]
      rw [this, grow_grow, Nat.add_comm, List.replicate_add]
      rfl
    · simp [h]

theorem addDiff_get? (cpf ch : GoMap (List Str)) (d k : Str) :
    (addDiff cpf ch d).get? k =
      grow (ch.get? k) (List.replicate (((cpf.get? d).getD []).count k) d) := by
  unfold addDiff
  cases h : cpf.get? d with
  | none => simp [grow_nil]
  | some configPaths => simp [appendDiff_get?]

theorem addDiffs_get? (cpf : GoMap (List Str)) (ds : List Str) (ch : GoMap (List Str))
    (k : Str) :
    (ds.foldl (addDiff cpf) ch).get? k =
      grow (ch.get? k)
        (ds.flatMap (fun d => List.replicate (((cpf.get? d).getD []).count k) d)) := by
  induction ds generalizing ch with
  | nil => simp [grow_nil]
  | cons d rest ih =>
    rw [List.foldl_cons, ih, addDiff_get?, grow_grow]
    rfl

theorem addDiff_nodupKeys (cpf ch : GoMap (List Str)) (d : Str) (h : ch.NodupKeys) :
    (addDiff cpf ch d).NodupKeys := by
  unfold addDiff
  cases cpf.get? d with
  | none => exact h
  | some configPaths =>
    simp only
    induction configPaths generalizing ch with
    | nil => exact h
    | cons cp rest ih =>
      rw [List.foldl_cons]
      exact ih _ (GoMap.nodupKeys_set h _ _)

theorem addDiffs_nodupKeys (cpf : GoMap (List Str)) (ds : List Str) (ch : GoMap (List Str))
    (h : ch.NodupKeys) : (ds.foldl (addDiff cpf) ch).NodupKeys := by
  induction ds generalizing ch with
  | nil => exact h
  | cons d rest ih =>
    rw [List.foldl_cons]
    exact ih _ (addDiff_nodupKeys cpf ch d h)

/-- The accumulator after the diff loop: the entry of a config path is its
entry after the walk, grown by the changed files attributed to it. -/
theorem changed_get? (order : MapOrder (List Str)) (configFilesMap : GoMap (List Str))
    (hnd : configFilesMap.NodupKeys) (diffNames : List Str) (ch : GoMap (List Str))
    (k : Str) :
    (diffNames.foldl (addDiff (invertFiles (order.range configFilesMap.entries))) ch).get? k
      = grow (ch.get? k) (attributed ((configFilesMap.get? k).getD []) diffNames) := by
  rw [addDiffs_get?]
  congr 1
  unfold attributed
  congr 1
  funext d
  rw [invertFiles_count, ownedCount_perm (order.perm _), ownedCount_eq _ hnd]
  rfl

/-! ## The subpath loop and the result -/

theorem setSubpath_ok (repoRoot subpathOverride : Str) (configsMap : GoMap ClusterConfig)
    (entry : Str × List Str) (c : ClusterConfig)
    (h : setSubpath repoRoot subpathOverride configsMap entry = .ok c) :
    ∃ cfg, configsMap.get? entry.1 = some cfg ∧
      ((subpathOverride ≠ [] ∧ c = { cfg with Subpath := subpathOverride }) ∨
       (subpathOverride = [] ∧ ∃ rel sub, Rel repoRoot cfg.ExpandedPath = .ok rel ∧
          lowestParent rel entry.2 = .ok sub ∧ c = { cfg with Subpath := sub })) := by
  unfold setSubpath at h
  split at h
  · simp at h
  · rename_i cfg hcfg
    refine ⟨cfg, hcfg, ?_⟩
    split at h
    · rename_i ho
      left
      exact ⟨ho, by simpa using h.symm⟩
    · rename_i ho
      right
      refine ⟨by simpa using ho, ?_⟩
      split at h
      · simp at h
      · rename_i rel hrel
        split at h
        · simp at h
        · rename_i sub hsub
          exact ⟨rel, sub, hrel, hsub, by simpa using h.symm⟩

theorem collectClusters_ok (repoRoot subpathOverride : Str) (configsMap : GoMap ClusterConfig)
    (entries : List (Str × List Str)) (acc res : List ClusterConfig)
    (h : collectClusters repoRoot subpathOverride configsMap entries acc = .ok res) :
    ∃ cs, res = acc ++ cs ∧
      List.Forall₂ (fun e c => setSubpath repoRoot subpathOverride configsMap e = .ok c)
        entries cs := by
  induction entries generalizing acc with
  | nil =>
    simp only [collectClusters, Except.ok.injEq] at h
    exact ⟨[], by simp [h], List.Forall₂.nil⟩
  | cons e rest ih =>
    simp only [collectClusters] at h
    cases hs : setSubpath repoRoot subpathOverride configsMap e with
    | error x => simp [hs] at h
    | ok c =>
      rw [hs] at h
      obtain ⟨cs, hres, hall⟩ := ih _ h
      exact ⟨c :: cs, by simp [hres], List.Forall₂.cons hs hall⟩

theorem resolve_ok (w : World) (repoRoot : Str) (diffs : List CommitFile)
    (subpathOverride : Str) (d : Discovery) (res : List ClusterConfig)
    (hf : d.configFilesMap.NodupKeys) (hc : d.changedClusterPaths.NodupKeys)
    (h : resolve w repoRoot diffs subpathOverride d = .ok res) :
    ∃ entries cs, (entries.map Prod.fst).Nodup ∧
      (∀ k files, (k, files) ∈ entries ↔ changedEntry d diffs k = some files) ∧
      List.Forall₂ (fun e c => setSubpath repoRoot subpathOverride d.configsMap e = .ok c)
        entries cs ∧
      res.Perm cs ∧ res.Pairwise (fun a b => ¬ b.RelPath < a.RelPath) := by
  unfold resolve at h
  simp only at h
  split at h
  · simp at h
  · rename_i cs hcs
    simp only [Except.ok.injEq] at h
    obtain ⟨cs', hcs', hall⟩ := collectClusters_ok _ _ _ _ _ _ hcs
    simp only [List.nil_append] at hcs'
    subst hcs'
    have hnd := addDiffs_nodupKeys
      (invertFiles (w.rangeConfigFiles.range d.configFilesMap.entries))
      (diffs.map CommitFile.GetFilename) d.changedClusterPaths hc
    have hperm := w.rangeChanged.perm
      ((diffs.map CommitFile.GetFilename).foldl
        (addDiff (invertFiles (w.rangeConfigFiles.range d.configFilesMap.entries)))
        d.changedClusterPaths).entries
    refine ⟨_, cs, ?_, ?_, hall, ?_, ?_⟩
    · exact ((hperm.map Prod.fst).nodup_iff).mpr hnd
    · intro k files
      rw [hperm.mem_iff, GoMap.mem_entries_iff hnd, changed_get? _ _ hf]
      rfl
    · rw [← h]; exact w.sortSlice.perm cs
    · rw [← h]; exact w.sortSlice.sorted cs

theorem attributed_eq_nil_iff (files names : List Str) :
    attributed files names = [] ↔ ∀ n ∈ names, n ∉ files := by
  unfold attributed
  rw [List.flatMap_eq_nil_iff]
  constructor
  · intro h n hn hmem
    have := h n hn
    rw [List.replicate_eq_nil_iff] at this
    exact (List.count_eq_zero.mp this) hmem
  · intro h n hn
    rw [List.replicate_eq_nil_iff]
    exact List.count_eq_zero.mpr (h n hn)

theorem count_eq_one_of_nodup_mem (files : List Str) (n : Str) (h : files.Nodup)
    (hn : n ∈ files) : files.count n = 1 := by
  induction files with
  | nil => simp at hn
  | cons x rest ih =>
    rw [List.nodup_cons] at h
    rw [List.count_cons]
    rcases List.mem_cons.mp hn with h1 | h1
    · subst h1
      rw [List.count_eq_zero.mpr h.1]
      simp
    · have hx : ¬ x = n := fun hx => h.1 (hx ▸ h1)
      rw [ih h.2 h1]
      simp [hx]

theorem attributed_eq_filter (files names : List Str) (h : files.Nodup) :
    attributed files names = names.filter (fun n => decide (n ∈ files)) := by
  unfold attributed
  induction names with
  | nil => rfl
  | cons n rest ih =>
    rw [List.flatMap_cons, ih]
    by_cases hn : n ∈ files
    · rw [count_eq_one_of_nodup_mem files n h hn]
      simp [hn, List.filter_cons]
    · rw [List.count_eq_zero.mpr hn]
      simp [hn, List.filter_cons]

theorem forall₂_mem_left {α β : Type} {R : α → β → Prop} {l₁ : List α} {l₂ : List β}
    (h : List.Forall₂ R l₁ l₂) {a : α} (ha : a ∈ l₁) : ∃ b ∈ l₂, R a b := by
  induction h with
  | nil => simp at ha
  | cons hab _ ih =>
    rcases List.mem_cons.mp ha with h1 | h1
    · exact ⟨_, List.mem_cons_self _ _, h1 ▸ hab⟩
    · obtain ⟨b, hb, hr⟩ := ih h1
      exact ⟨b, List.mem_cons_of_mem _ hb, hr⟩

theorem forall₂_mem_right {α β : Type} {R : α → β → Prop} {l₁ : List α} {l₂ : List β}
    (h : List.Forall₂ R l₁ l₂) {b : β} (hb : b ∈ l₂) : ∃ a ∈ l₁, R a b := by
  induction h with
  | nil => simp at hb
  | cons hab _ ih =>
    rcases List.mem_cons.mp hb with h1 | h1
    · exact ⟨_, List.mem_cons_self _ _, h1 ▸ hab⟩
    · obtain ⟨a, ha, hr⟩ := ih h1
      exact ⟨a, List.mem_cons_of_mem _ ha, hr⟩

theorem forall₂_map_eq {α β γ : Type} {R : α → β → Prop} {f : α → γ} {g : β → γ}
    {l₁ : List α} {l₂ : List β} (h : List.Forall₂ R l₁ l₂)
    (hfg : ∀ a b, R a b → g b = f a) : l₂.map g = l₁.map f := by
  induction h with
  | nil => rfl
  | cons hab _ ih => rw [List.map_cons, List.map_cons, ih, hfg _ _ hab]

theorem getCoveredClusters_ok (w : World) (repoRoot : Str) (diffs : List CommitFile)
    (env : Str) (selected : List Str) (subpathOverride : Str) (res : List ClusterConfig)
    (h : GetCoveredClusters w repoRoot diffs env selected subpathOverride = .ok res) :
    ∃ d, discover w.fs repoRoot env selected = .ok d ∧
      resolve w repoRoot diffs subpathOverride d = .ok res := by
  unfold GetCoveredClusters coveredFromVisits at h
  unfold discover
  cases hd : discoverVisits w.fs repoRoot env selected (w.fs.Walk repoRoot) with
  | error e => simp [hd] at h
  | ok d =>
    rw [hd] at h
    exact ⟨d, rfl, h⟩

/-- The clusters of a successful result are exactly the entries of the
accumulator, each with its subpath set, sorted by `RelPath()`. -/
theorem covered_spec (w : World) (repoRoot : Str) (diffs : List CommitFile)
    (env : Str) (selected : List Str) (subpathOverride : Str) (d : Discovery)
    (res : List ClusterConfig)
    (hd : discover w.fs repoRoot env selected = .ok d)
    (h : resolve w repoRoot diffs subpathOverride d = .ok res) :
    (∀ c ∈ res, ∃ k fl, changedEntry d diffs k = some fl ∧
        setSubpath repoRoot subpathOverride d.configsMap (k, fl) = .ok c) ∧
    (∀ k fl, changedEntry d diffs k = some fl →
        ∃ c ∈ res, setSubpath repoRoot subpathOverride d.configsMap (k, fl) = .ok c) ∧
    res.Pairwise (fun a b => ¬ b.RelPath < a.RelPath) ∧
    (LoaderContract w.fs repoRoot → (res.map ClusterConfig.RelPath).Nodup) := by
  have inv := discoverVisits_inv _ _ _ _ _ _ hd
  obtain ⟨entries, cs, hnd, hmem, hall, hperm, hsorted⟩ :=
    resolve_ok w repoRoot diffs subpathOverride d res inv.nodupFiles inv.nodupChanged h
  refine ⟨?_, ?_, hsorted, ?_⟩
  · intro c hc
    obtain ⟨e, he, hr⟩ := forall₂_mem_right hall (hperm.mem_iff.mp hc)
    exact ⟨e.1, e.2, (hmem e.1 e.2).mp he, hr⟩
  · intro k fl hk
    obtain ⟨c, hc, hr⟩ := forall₂_mem_left hall ((hmem k fl).mpr hk)
    exact ⟨c, hperm.mem_iff.mpr hc, hr⟩
  · intro hload
    have hrel := discoverVisits_relPath _ _ _ _ hload _ _ hd
    have hmap : cs.map ClusterConfig.RelPath = entries.map Prod.fst := by
      refine forall₂_map_eq hall ?_
      intro e c hec
      obtain ⟨cfg, hcfg, hc | ⟨-, rel, sub, -, -, hc⟩⟩ := setSubpath_ok _ _ _ _ _ hec
      · rw [hc.2]; exact hrel e.1 cfg hcfg
      · rw [hc]; exact hrel e.1 cfg hcfg
    rw [(hperm.map ClusterConfig.RelPath).nodup_iff, hmap]
    exact hnd

/-! ## Properties of `GetCoveredClusters` -/

/-- For an entry `cfg` of `configsMap` with file list `files`, under the loader
contract and on a successful call: the cluster is in the returned list (with
some subpath set) if and only if some diff filename is among its files or the
selection list is not empty. -/
theorem covered_entry_iff (w : World) (repoRoot : Str)
    (diffs : List CommitFile) (env : Str) (selected : List Str) (subpathOverride : Str)
    (d : Discovery) (res : List ClusterConfig) (k : Str) (cfg : ClusterConfig)
    (files : List Str)
    (hload : LoaderContract w.fs repoRoot)
    (hd : discover w.fs repoRoot env selected = .ok d)
    (hres : GetCoveredClusters w repoRoot diffs env selected subpathOverride = .ok res)
    (hk : d.configsMap.get? k = some cfg)
    (hfiles : d.configFilesMap.get? k = some files) :
    (∃ sub, { cfg with Subpath := sub } ∈ res) ↔
      ((∃ f ∈ diffs, f.GetFilename ∈ files) ∨ selected ≠ []) := by
  obtain ⟨d', hd', hr⟩ := getCoveredClusters_ok _ _ _ _ _ _ _ hres
  rw [hd] at hd'
  cases hd'
  obtain ⟨hsound, hcomplete, -, -⟩ := covered_spec w repoRoot diffs env selected _ d res hd hr
  have inv := discoverVisits_inv _ _ _ _ _ _ hd
  have hrel := discoverVisits_relPath _ _ _ _ hload _ _ hd
  have hentry : changedEntry d diffs k =
      grow (if selected ≠ [] then some [] else none)
        (attributed files (diffs.map CommitFile.GetFilename)) := by
    unfold changedEntry
    rw [inv.seeded k, hk, hfiles]
    simp
  constructor
  · rintro ⟨sub, hmem⟩
    obtain ⟨k', fl, hk', hset⟩ := hsound _ hmem
    obtain ⟨cfg', hcfg', hc⟩ := setSubpath_ok _ _ _ _ _ hset
    have hkk : k' = k := by
      have h1 : cfg'.RelPath = k' := hrel k' cfg' hcfg'
      have h2 : cfg.RelPath = k := hrel k cfg hk
      rcases hc with ⟨-, hc⟩ | ⟨-, rel, sub', -, -, hc⟩
      · have := congrArg ClusterConfig.RelPath hc
        simp only at this
        rw [← h1, ← h2, this]
      · have := congrArg ClusterConfig.RelPath hc
        simp only at this
        rw [← h1, ← h2, this]
    rw [hkk, hentry] at hk'
    by_cases hsel : selected = []
    · left
      by_contra hno
      have hnil : attributed files (diffs.map CommitFile.GetFilename) = [] := by
        rw [attributed_eq_nil_iff]
        intro n hn hnf
        obtain ⟨f, hf, rfl⟩ := List.mem_map.mp hn
        exact hno ⟨f, hf, hnf⟩
      rw [hnil, grow_nil] at hk'
      simp [hsel] at hk'
    · exact Or.inr hsel
  · intro h
    have hsome : ∃ fl, changedEntry d diffs k = some fl := by
      rw [hentry]
      by_cases hnil : attributed files (diffs.map CommitFile.GetFilename) = []
      · rw [hnil, grow_nil]
        rcases h with ⟨f, hf, hmem⟩ | hsel
        · exact absurd hmem ((attributed_eq_nil_iff _ _).mp hnil _
            (List.mem_map_of_mem _ hf))
        · exact ⟨[], by simp [hsel]⟩
      · exact ⟨_, by rw [grow, if_neg hnil]⟩
    obtain ⟨fl, hfl⟩ := hsome
    obtain ⟨c, hc, hset⟩ := hcomplete k fl hfl
    obtain ⟨cfg', hcfg', hc'⟩ := setSubpath_ok _ _ _ _ _ hset
    simp only at hcfg'
    rw [hk] at hcfg'
    cases hcfg'
    rcases hc' with ⟨-, hc'⟩ | ⟨-, rel, sub, -, -, hc'⟩
    · exact ⟨_, hc' ▸ hc⟩
    · exact ⟨_, hc' ▸ hc⟩

/-- C4: every cluster of a returned list has its ignore flag unset, has the
environment of a non-empty `env` filter, and has its identity in a non-empty
selection list. -/
theorem covered_survive_filters (w : World) (repoRoot : Str) (diffs : List CommitFile)
    (env : Str) (selected : List Str) (subpathOverride : Str) (res : List ClusterConfig)
    (hres : GetCoveredClusters w repoRoot diffs env selected subpathOverride = .ok res) :
    ∀ c ∈ res, c.GithubIgnore = false ∧ (env ≠ [] → c.Env = env) ∧
      (selected ≠ [] → c.DescriptiveName ∈ selected) := by
  obtain ⟨d, hd, hr⟩ := getCoveredClusters_ok _ _ _ _ _ _ _ hres
  obtain ⟨hsound, -, -, -⟩ := covered_spec w repoRoot diffs env selected _ d res hd hr
  have inv := discoverVisits_inv _ _ _ _ _ _ hd
  intro c hc
  obtain ⟨k, fl, -, hset⟩ := hsound c hc
  obtain ⟨cfg, hcfg, hc'⟩ := setSubpath_ok _ _ _ _ _ hset
  have hs := inv.survives _ _ hcfg
  rcases hc' with ⟨-, hc'⟩ | ⟨-, rel, sub, -, -, hc'⟩
  · rw [hc']; exact hs
  · rw [hc']; exact hs

/-- C5: with a non-empty `subpathOverride`, every cluster of a returned list
has exactly that `Subpath`. -/
theorem covered_subpath_override (w : World) (repoRoot : Str) (diffs : List CommitFile)
    (env : Str) (selected : List Str) (subpathOverride : Str) (res : List ClusterConfig)
    (hover : subpathOverride ≠ [])
    (hres : GetCoveredClusters w repoRoot diffs env selected subpathOverride = .ok res) :
    ∀ c ∈ res, c.Subpath = subpathOverride := by
  obtain ⟨d, hd, hr⟩ := getCoveredClusters_ok _ _ _ _ _ _ _ hres
  obtain ⟨hsound, -, -, -⟩ := covered_spec w repoRoot diffs env selected _ d res hd hr
  intro c hc
  obtain ⟨k, fl, -, hset⟩ := hsound c hc
  obtain ⟨cfg, -, hc'⟩ := setSubpath_ok _ _ _ _ _ hset
  rcases hc' with ⟨-, hc'⟩ | ⟨ho, -⟩
  · rw [hc']
  · exact absurd ho hover

/-- C6: under the loader contract, a returned list is strictly ascending by
`RelPath()`: of two clusters at positions `i` and `j`, the one at `i` comes
first exactly when its path is the smaller one; no path occurs twice. -/
theorem covered_strictly_sorted (w : World) (repoRoot : Str) (diffs : List CommitFile)
    (env : Str) (selected : List Str) (subpathOverride : Str) (res : List ClusterConfig)
    (hload : LoaderContract w.fs repoRoot)
    (hres : GetCoveredClusters w repoRoot diffs env selected subpathOverride = .ok res) :
    res.Pairwise (fun a b => a.RelPath < b.RelPath) ∧
    (∀ i j : Fin res.length, i < j ↔ (res.get i).RelPath < (res.get j).RelPath) ∧
    (res.map ClusterConfig.RelPath).Nodup := by
  obtain ⟨d, hd, hr⟩ := getCoveredClusters_ok _ _ _ _ _ _ _ hres
  obtain ⟨-, -, hsorted, hnd⟩ := covered_spec w repoRoot diffs env selected _ d res hd hr
  have hnd' := hnd hload
  have hne : res.Pairwise (fun a b => a.RelPath ≠ b.RelPath) := List.pairwise_map.mp hnd'
  have hlt : res.Pairwise (fun a b => a.RelPath < b.RelPath) :=
    List.Pairwise.imp₂ (fun a b h1 h2 => lt_of_le_of_ne (not_lt.mp h1) h2) hsorted hne
  refine ⟨hlt, ?_, hnd'⟩
  intro i j
  constructor
  · exact List.pairwise_iff_get.mp hlt i j
  · intro h
    rcases lt_trichotomy i j with hij | hij | hij
    · exact hij
    · rw [hij] at h
      exact absurd h (lt_irrefl _)
    · exact absurd h (lt_asymm (List.pairwise_iff_get.mp hlt j i hij))

/-- With a non-empty selection list and no subpath override, an entry `cfg` of
`configsMap` none of whose files is named in the diff list is in a returned
list, with `Subpath` `.`. -/
theorem covered_entry_selected (w : World) (repoRoot : Str)
    (diffs : List CommitFile) (env : Str) (selected : List Str)
    (d : Discovery) (res : List ClusterConfig) (k : Str) (cfg : ClusterConfig)
    (files : List Str)
    (hsel : selected ≠ [])
    (hd : discover w.fs repoRoot env selected = .ok d)
    (hres : GetCoveredClusters w repoRoot diffs env selected [] = .ok res)
    (hk : d.configsMap.get? k = some cfg)
    (hfiles : d.configFilesMap.get? k = some files)
    (hnone : ∀ f ∈ diffs, f.GetFilename ∉ files) :
    { cfg with Subpath := dot } ∈ res ∧ cfg.DescriptiveName ∈ selected ∧
      cfg.GithubIgnore = false ∧ (env ≠ [] → cfg.Env = env) := by
  obtain ⟨d', hd', hr⟩ := getCoveredClusters_ok _ _ _ _ _ _ _ hres
  rw [hd] at hd'
  cases hd'
  obtain ⟨-, hcomplete, -, -⟩ := covered_spec w repoRoot diffs env selected _ d res hd hr
  have inv := discoverVisits_inv _ _ _ _ _ _ hd
  have hs := inv.survives _ _ hk
  refine ⟨?_, hs.2.2 hsel, hs.1, hs.2.1⟩
  have hentry : changedEntry d diffs k = some [] := by
    unfold changedEntry
    have hnil : attributed files (diffs.map CommitFile.GetFilename) = [] := by
      rw [attributed_eq_nil_iff]
      intro n hn hnf
      obtain ⟨f, hf, rfl⟩ := List.mem_map.mp hn
      exact hnone f hf hnf
    rw [inv.seeded k, hk, hfiles]
    simp [hnil, grow_nil, hsel]
  obtain ⟨c, hc, hset⟩ := hcomplete k [] hentry
  obtain ⟨cfg', hcfg', hc'⟩ := setSubpath_ok _ _ _ _ _ hset
  simp only at hcfg'
  rw [hk] at hcfg'
  cases hcfg'
  rcases hc' with ⟨ho, -⟩ | ⟨-, rel, sub, -, hlp, hc'⟩
  · exact absurd rfl ho
  · have : sub = dot := by
      simp only [lowestParent, List.length_nil, if_true, Except.ok.injEq] at hlp
      exact hlp.symm
    rw [hc', this] at hc
    exact hc

/-- With an empty selection list and no subpath override, under the loader
contract and on a successful call: an entry `cfg` of `configsMap`, whose file
list `files` has no repetition and holds a diff filename, occurs exactly once
in the returned list, with `Subpath` the result of `lowestParent` on its
expanded root relative to `repoRoot` and the diff filenames among its files,
in diff order. -/
theorem covered_entry_once (w : World) (repoRoot : Str)
    (diffs : List CommitFile) (env : Str)
    (d : Discovery) (res : List ClusterConfig) (k : Str) (cfg : ClusterConfig)
    (files : List Str)
    (hload : LoaderContract w.fs repoRoot)
    (hd : discover w.fs repoRoot env [] = .ok d)
    (hres : GetCoveredClusters w repoRoot diffs env [] [] = .ok res)
    (hk : d.configsMap.get? k = some cfg)
    (hfiles : d.configFilesMap.get? k = some files)
    (hnodup : files.Nodup)
    (hown : ∃ f ∈ diffs, f.GetFilename ∈ files) :
    ∃ rel sub, Rel repoRoot cfg.ExpandedPath = .ok rel ∧
      lowestParent rel
        ((diffs.map CommitFile.GetFilename).filter (fun n => decide (n ∈ files))) = .ok sub ∧
      res.count { cfg with Subpath := sub } = 1 ∧
      ∀ c ∈ res, c.RelPath = cfg.RelPath → c = { cfg with Subpath := sub } := by
  obtain ⟨d', hd', hr⟩ := getCoveredClusters_ok _ _ _ _ _ _ _ hres
  rw [hd] at hd'
  cases hd'
  obtain ⟨-, hcomplete, -, hnd⟩ := covered_spec w repoRoot diffs env [] _ d res hd hr
  have inv := discoverVisits_inv _ _ _ _ _ _ hd
  have hndr := hnd hload
  have hne : attributed files (diffs.map CommitFile.GetFilename) ≠ [] := by
    intro hnil
    obtain ⟨f, hf, hmem⟩ := hown
    exact (attributed_eq_nil_iff _ _).mp hnil _ (List.mem_map_of_mem _ hf) hmem
  have hentry : changedEntry d diffs k =
      some ((diffs.map CommitFile.GetFilename).filter (fun n => decide (n ∈ files))) := by
    unfold changedEntry
    rw [inv.seeded k, hk, hfiles]
    rw [← attributed_eq_filter files _ hnodup]
    simp [grow, hne]
  obtain ⟨c, hc, hset⟩ := hcomplete k _ hentry
  obtain ⟨cfg', hcfg', hc'⟩ := setSubpath_ok _ _ _ _ _ hset
  simp only at hcfg'
  rw [hk] at hcfg'
  cases hcfg'
  rcases hc' with ⟨ho, -⟩ | ⟨-, rel, sub, hrel, hlp, hc'⟩
  · exact absurd rfl ho
  · subst hc'
    refine ⟨rel, sub, hrel, hlp, List.count_eq_one_of_mem (List.Nodup.of_map _ hndr) hc, ?_⟩
    intro c' hc' heq
    exact List.inj_on_of_nodup_map hndr hc' hc heq

namespace Example

theorem loaderContract : LoaderContract fs repo := by
  intro path cfg h
  simp only [fs] at h
  split at h
  · rename_i hp
    cases h
    rw [hp]
    decide
  · split at h
    · rename_i hp
      cases h
      rw [hp]
      decide
    · simp at h

end Example

/-- Witness of C4 on the example repository, with environment filter `stage`
and cluster A selected. -/
theorem covered_survive_filters_witness :
    GetCoveredClusters Example.world Example.repo [Example.diffY, Example.diffW]
        "stage".toList [Example.clusterA.DescriptiveName] [] =
      .ok [{ Example.clusterA with Subpath := "x".toList }] ∧
    ∀ c ∈ [{ Example.clusterA with Subpath := "x".toList }],
      c.GithubIgnore = false ∧ ("stage".toList ≠ [] → c.Env = "stage".toList) ∧
      ([Example.clusterA.DescriptiveName] ≠ [] →
        c.DescriptiveName ∈ [Example.clusterA.DescriptiveName]) :=
  ⟨by decide,
   covered_survive_filters Example.world Example.repo [Example.diffY, Example.diffW]
    "stage".toList [Example.clusterA.DescriptiveName] [] _ (by decide)⟩

/-- Witness of C5 on the example repository, with override `manifests`. -/
theorem covered_subpath_override_witness :
    GetCoveredClusters Example.world Example.repo [Example.diffY, Example.diffW] [] []
        "manifests".toList =
      .ok [{ Example.clusterA with Subpath := "manifests".toList },
           { Example.clusterB with Subpath := "manifests".toList }] ∧
    ∀ c ∈ [{ Example.clusterA with Subpath := "manifests".toList },
           { Example.clusterB with Subpath := "manifests".toList }],
      c.Subpath = "manifests".toList :=
  ⟨by decide,
   covered_subpath_override Example.world Example.repo [Example.diffY, Example.diffW] [] []
    "manifests".toList _ (by decide) (by decide)⟩

/-- Witness of C6 on the example repository: both clusters changed, A comes
before B. -/
theorem covered_strictly_sorted_witness :
    [{ Example.clusterA with Subpath := "x".toList },
     { Example.clusterB with Subpath := dot }].Pairwise
      (fun a b => a.RelPath < b.RelPath) ∧
    (∀ i j : Fin [{ Example.clusterA with Subpath := "x".toList },
        { Example.clusterB with Subpath := dot }].length,
      i < j ↔
        ([{ Example.clusterA with Subpath := "x".toList },
          { Example.clusterB with Subpath := dot }].get i).RelPath <
        ([{ Example.clusterA with Subpath := "x".toList },
          { Example.clusterB with Subpath := dot }].get j).RelPath) ∧
    ([{ Example.clusterA with Subpath := "x".toList },
      { Example.clusterB with Subpath := dot }].map ClusterConfig.RelPath).Nodup :=
  covered_strictly_sorted Example.world Example.repo [Example.diffW, Example.diffY] [] [] []
    _ Example.loaderContract (by decide)

/-! ## Discovered clusters and the maps of the walk -/

/-- The walk callback on a declaration that passes the three filters: it
registers the config under its relative path, unless `filepath.Rel` or the
enumeration of the expanded tree fails. -/
theorem walkFn_declares (fs : FS) (repoRoot env : Str) (selected : List Str)
    (st : Discovery) (v : Visit) (cfg : ClusterConfig)
    (hdecl : Declares fs repoRoot v cfg) (hsurv : Survives env selected cfg) :
    walkFn fs repoRoot env (selectedMap selected) st v =
      match Rel repoRoot v.path with
      | .error e => .error e
      | .ok relPath =>
        match getExpandedConfigFiles fs repoRoot cfg with
        | .error e => .error e
        | .ok files =>
          .ok ⟨st.configsMap.set relPath cfg, st.configFilesMap.set relPath files,
            if selected ≠ [] then st.changedClusterPaths.set relPath []
            else st.changedClusterPaths⟩ := by
  obtain ⟨⟨info, hinfo, hfile⟩, hyaml, ⟨contents, hread, hmark⟩, hload⟩ := hdecl
  obtain ⟨hign, henv, hsel⟩ := hsurv
  have h1 : ¬ (0 < (selectedMap selected).len ∧
      (selectedMap selected).get? cfg.DescriptiveName = none) := by
    rintro ⟨hlen, hnone⟩
    exact (selectedMap_get?_none selected _).mp hnone
      (hsel ((selectedMap_len_pos selected).mp hlen))
  have h2 : ¬ (env ≠ [] ∧ cfg.Env ≠ env) := fun h => h.2 (henv h.1)
  unfold walkFn
  rw [hinfo]
  simp only [hfile, hyaml, hread, hmark, hload, if_true, Bool.false_eq_true, if_false]
  rw [if_neg h1]
  simp only [hign, Bool.false_eq_true, if_false]
  rw [if_neg h2]
  cases Rel repoRoot v.path with
  | error e => rfl
  | ok relPath =>
    simp only
    cases getExpandedConfigFiles fs repoRoot cfg with
    | error e => rfl
    | ok files =>
      simp only [selectedMap_len_pos]

/-- Once a config is registered under `k`, the rest of the walk leaves it
there, provided every later visit with relative path `k` is the same file. -/
theorem walkVisits_keeps (fs : FS) (repoRoot env : Str) (selected : List Str)
    (path k : Str) (cfg : ClusterConfig) (files : List Str)
    (hload : fs.LoadClusterConfig path repoRoot = .ok cfg)
    (hfiles : getExpandedConfigFiles fs repoRoot cfg = .ok files)
    (post : List Visit) (st d : Discovery)
    (huniq : ∀ x ∈ post, Rel repoRoot x.path = .ok k → x.path = path)
    (hst : st.configsMap.get? k = some cfg ∧ st.configFilesMap.get? k = some files)
    (h : walkVisits (walkFn fs repoRoot env (selectedMap selected)) post st = .ok d) :
    d.configsMap.get? k = some cfg ∧ d.configFilesMap.get? k = some files := by
  induction post generalizing st with
  | nil =>
    simp only [walkVisits, Except.ok.injEq] at h
    rw [← h]; exact hst
  | cons x rest ih =>
    simp only [walkVisits] at h
    cases hx : walkFn fs repoRoot env (selectedMap selected) st x with
    | error e => simp [hx] at h
    | ok st1 =>
      rw [hx] at h
      refine ih st1 (fun y hy => huniq y (List.mem_cons_of_mem _ hy)) ?_ h
      rcases walkFn_ok fs repoRoot env selected st st1 x hx with
        h1 | ⟨cfg', rp, files', hl, -, hrel, hf, h1⟩
      · rw [h1]; exact hst
      · subst h1
        simp only [GoMap.get?_set]
        by_cases hrk : rp = k
        · have hp := huniq x (List.mem_cons_self _ _) (hrk ▸ hrel)
          rw [hp, hload] at hl
          cases hl
          rw [hfiles] at hf
          cases hf
          simp [hrk]
        · simp only [if_neg hrk]
          exact hst

/-- A discovered cluster that survives the filters is, after a successful walk,
in `configsMap` under its path relative to the repository root, with its
enumerated files in `configFilesMap`. -/
theorem discovered_entry (fs : FS) (repoRoot env : Str) (selected : List Str)
    (cfg : ClusterConfig) (files : List Str) (d : Discovery)
    (hdisc : Discovered fs repoRoot env selected cfg files)
    (hd : discover fs repoRoot env selected = .ok d) :
    ∃ k, d.configsMap.get? k = some cfg ∧ d.configFilesMap.get? k = some files := by
  obtain ⟨v, hv, hdecl, hsurv, hfiles, huniq⟩ := hdisc
  obtain ⟨pre, post, hsplit⟩ := List.append_of_mem hv
  unfold discover discoverVisits at hd
  rw [hsplit, walkVisits_append] at hd
  cases hpre : walkVisits (walkFn fs repoRoot env (selectedMap selected)) pre
      ⟨GoMap.empty, GoMap.empty, GoMap.empty⟩ with
  | error e => simp [hpre] at hd
  | ok st1 =>
    rw [hpre] at hd
    simp only [walkVisits] at hd
    rw [walkFn_declares fs repoRoot env selected st1 v cfg hdecl hsurv] at hd
    cases hrel : Rel repoRoot v.path with
    | error e => simp [hrel] at hd
    | ok k =>
      rw [hrel, hfiles] at hd
      simp only at hd
      refine ⟨k, walkVisits_keeps fs repoRoot env selected v.path k cfg files
        hdecl.2.2.2 hfiles post _ d ?_ ?_ hd⟩
      · intro x hx hxk
        refine huniq x ?_ (hxk.trans hrel.symm)
        rw [hsplit]
        exact List.mem_append_right _ (List.mem_cons_of_mem _ hx)
      · simp [GoMap.get?_set]

/-! ## Discovered clusters in the result -/

/-- C3: for every discovered cluster that survives the three filters, under
the loader contract and on a successful call: the cluster is in the returned
list (with some subpath set) if and only if some diff filename is among the
files of its expanded tree or the selection list is not empty. -/
theorem covered_iff_changed_or_selected (w : World) (repoRoot : Str)
    (diffs : List CommitFile) (env : Str) (selected : List Str) (subpathOverride : Str)
    (res : List ClusterConfig) (cfg : ClusterConfig) (files : List Str)
    (hload : LoaderContract w.fs repoRoot)
    (hdisc : Discovered w.fs repoRoot env selected cfg files)
    (hres : GetCoveredClusters w repoRoot diffs env selected subpathOverride = .ok res) :
    (∃ sub, { cfg with Subpath := sub } ∈ res) ↔
      ((∃ f ∈ diffs, f.GetFilename ∈ files) ∨ selected ≠ []) := by
  obtain ⟨d, hd, -⟩ := getCoveredClusters_ok _ _ _ _ _ _ _ hres
  obtain ⟨k, hk, hfiles⟩ := discovered_entry _ _ _ _ _ _ d hdisc hd
  exact covered_entry_iff w repoRoot diffs env selected subpathOverride d res k cfg files
    hload hd hres hk hfiles

/-- C7: with a non-empty selection list and no subpath override, on a
successful call: a discovered cluster that survives the three filters (its
identity is selected, it is not ignored, it passes the environment filter) and
none of whose files is named in the diff list is in the returned list, with
`Subpath` `.`. -/
theorem covered_selected_without_diffs (w : World) (repoRoot : Str)
    (diffs : List CommitFile) (env : Str) (selected : List Str)
    (res : List ClusterConfig) (cfg : ClusterConfig) (files : List Str)
    (hsel : selected ≠ [])
    (hdisc : Discovered w.fs repoRoot env selected cfg files)
    (hres : GetCoveredClusters w repoRoot diffs env selected [] = .ok res)
    (hnone : ∀ f ∈ diffs, f.GetFilename ∉ files) :
    { cfg with Subpath := dot } ∈ res := by
  obtain ⟨d, hd, -⟩ := getCoveredClusters_ok _ _ _ _ _ _ _ hres
  obtain ⟨k, hk, hfiles⟩ := discovered_entry _ _ _ _ _ _ d hdisc hd
  exact (covered_entry_selected w repoRoot diffs env selected d res k cfg files hsel hd hres
    hk hfiles hnone).1

/-- C2: with an empty selection list and no subpath override, under the
loader contract and on a successful call: a discovered cluster that is not
ignored, passes the environment filter and owns a diff filename (the
enumeration `files` of its expanded tree has no repetition) occurs exactly
once in the returned list, with `Subpath` the result of `lowestParent` on its
expanded root relative to `repoRoot` and the diff filenames among its files,
in diff order. -/
theorem covered_once_with_lowestParent (w : World) (repoRoot : Str)
    (diffs : List CommitFile) (env : Str)
    (res : List ClusterConfig) (cfg : ClusterConfig) (files : List Str)
    (hload : LoaderContract w.fs repoRoot)
    (hdisc : Discovered w.fs repoRoot env [] cfg files)
    (hres : GetCoveredClusters w repoRoot diffs env [] [] = .ok res)
    (hnodup : files.Nodup)
    (hown : ∃ f ∈ diffs, f.GetFilename ∈ files) :
    ∃ rel sub, Rel repoRoot cfg.ExpandedPath = .ok rel ∧
      lowestParent rel
        ((diffs.map CommitFile.GetFilename).filter (fun n => decide (n ∈ files))) = .ok sub ∧
      res.count { cfg with Subpath := sub } = 1 ∧
      ∀ c ∈ res, c.RelPath = cfg.RelPath → c = { cfg with Subpath := sub } := by
  obtain ⟨d, hd, -⟩ := getCoveredClusters_ok _ _ _ _ _ _ _ hres
  obtain ⟨k, hk, hfiles⟩ := discovered_entry _ _ _ _ _ _ d hdisc hd
  exact covered_entry_once w repoRoot diffs env d res k cfg files hload hd hres hk hfiles
    hnodup hown

namespace Example

theorem discoveredA (env : Str) (selected : List Str) (h : Survives env selected clusterA) :
    Discovered fs repo env selected clusterA filesA :=
  ⟨fileVisit "/repo/clusters/a/cluster.yaml", by decide,
    ⟨⟨⟨false, 420⟩, rfl, rfl⟩, by decide, ⟨"cluster: a\n".toList, by decide, by decide⟩,
      by decide⟩,
    h, by decide, by decide⟩

theorem discoveredB (env : Str) (selected : List Str) (h : Survives env selected clusterB) :
    Discovered fs repo env selected clusterB filesB :=
  ⟨fileVisit "/repo/clusters/b/cluster.yaml", by decide,
    ⟨⟨⟨false, 420⟩, rfl, rfl⟩, by decide, ⟨"cluster: b\n".toList, by decide, by decide⟩,
      by decide⟩,
    h, by decide, by decide⟩

end Example

/-- Witness of C2 on the example repository: with the diff list
`[clusters/a/expanded/x/y.yaml]` the result is cluster A alone, with `Subpath`
`x`. -/
theorem covered_once_with_lowestParent_witness :
    GetCoveredClusters Example.world Example.repo [Example.diffY] [] [] [] =
        .ok [{ Example.clusterA with Subpath := "x".toList }] ∧
    ∃ rel sub, Rel Example.repo Example.clusterA.ExpandedPath = .ok rel ∧
      lowestParent rel
        (([Example.diffY].map CommitFile.GetFilename).filter
          (fun n => decide (n ∈ Example.filesA))) = .ok sub ∧
      [{ Example.clusterA with Subpath := "x".toList }].count
        { Example.clusterA with Subpath := sub } = 1 ∧
      ∀ c ∈ [{ Example.clusterA with Subpath := "x".toList }],
        c.RelPath = Example.clusterA.RelPath → c = { Example.clusterA with Subpath := sub } :=
  ⟨by decide,
   covered_once_with_lowestParent Example.world Example.repo [Example.diffY] [] _
    Example.clusterA Example.filesA Example.loaderContract
    (Example.discoveredA [] [] (by decide)) (by decide) (by decide)
    ⟨Example.diffY, by decide, by decide⟩⟩

/-- Witness of C3 on the example repository: cluster A, which owns the diffed
file, is in the result. -/
theorem covered_iff_changed_or_selected_witness :
    ((∃ sub, { Example.clusterA with Subpath := sub } ∈
        [{ Example.clusterA with Subpath := "x".toList }]) ↔
      ((∃ f ∈ [Example.diffY], f.GetFilename ∈ Example.filesA) ∨ ([] : List Str) ≠ [])) :=
  covered_iff_changed_or_selected Example.world Example.repo [Example.diffY] [] [] []
    _ Example.clusterA Example.filesA Example.loaderContract
    (Example.discoveredA [] [] (by decide)) (by decide)

/-- Witness of C7 on the example repository: both clusters selected, only A
has a diffed file; B is returned with `Subpath` `.`. -/
theorem covered_selected_without_diffs_witness :
    GetCoveredClusters Example.world Example.repo [Example.diffY] []
        [Example.clusterB.DescriptiveName, Example.clusterA.DescriptiveName] [] =
      .ok [{ Example.clusterA with Subpath := "x".toList },
           { Example.clusterB with Subpath := dot }] ∧
    { Example.clusterB with Subpath := dot } ∈
        [{ Example.clusterA with Subpath := "x".toList },
         { Example.clusterB with Subpath := dot }] :=
  ⟨by decide,
   covered_selected_without_diffs Example.world Example.repo [Example.diffY] []
    [Example.clusterB.DescriptiveName, Example.clusterA.DescriptiveName]
    _ Example.clusterB Example.filesB (by decide)
    (Example.discoveredB [] _ (by decide)) (by decide) (by decide)⟩

/-! ## Errors during the walk -/

/-- The walk callback on a candidate file (a regular file named `*.yaml`
whose contents hold the marker) whose load fails: it returns nil and leaves
the maps as they are, whatever the error. -/
theorem walkFn_of_load_error (fs : FS) (repoRoot env : Str) (sm : GoMap Unit)
    (st : Discovery) (v : Visit) (info : FileInfo) (contents e : Str)
    (hinfo : v.info = some info) (hfile : info.IsDir = false)
    (hyaml : HasSuffix v.path yamlSuffix = true)
    (hread : fs.ReadFile v.path = .ok contents)
    (hmark : Contains contents clusterMarker = true)
    (hfail : fs.LoadClusterConfig v.path repoRoot = .error e) :
    walkFn fs repoRoot env sm st v = .ok st := by
  unfold walkFn
  rw [hinfo]
  simp only [hfile, hyaml, hread, hmark, hfail, if_true, Bool.false_eq_true, if_false]

/-- C8 (as amended): when the load of a candidate file fails, with whatever
error, the error is not propagated: the callback returns nil with the maps
unchanged, so a walk that ends with this file has the outcome of the walk
without it. -/
theorem load_error_not_propagated (fs : FS) (repoRoot env : Str) (selected : List Str)
    (v : Visit) (info : FileInfo) (contents e : Str)
    (hinfo : v.info = some info) (hfile : info.IsDir = false)
    (hyaml : HasSuffix v.path yamlSuffix = true)
    (hread : fs.ReadFile v.path = .ok contents)
    (hmark : Contains contents clusterMarker = true)
    (hfail : fs.LoadClusterConfig v.path repoRoot = .error e) :
    (∀ st, walkFn fs repoRoot env (selectedMap selected) st v = .ok st) ∧
    ∀ pre, discoverVisits fs repoRoot env selected (pre ++ [v]) =
      discoverVisits fs repoRoot env selected pre := by
  have hskip := fun st => walkFn_of_load_error fs repoRoot env (selectedMap selected) st v
    info contents e hinfo hfile hyaml hread hmark hfail
  refine ⟨hskip, fun pre => ?_⟩
  unfold discoverVisits
  rw [walkVisits_append]
  cases walkVisits (walkFn fs repoRoot env (selectedMap selected)) pre
      ⟨GoMap.empty, GoMap.empty, GoMap.empty⟩ with
  | error x => rfl
  | ok st => simp only [walkVisits, hskip st]

/-- Witness of the amended C8 on the example repository with the unparsable
declaration. -/
theorem load_error_not_propagated_witness :
    (∀ st, walkFn Example.fsBroken Example.repo [] (selectedMap [])
        st ⟨Example.brokenPath, some ⟨false, 420⟩, none⟩ = .ok st) ∧
    ∀ pre, discoverVisits Example.fsBroken Example.repo [] []
        (pre ++ [⟨Example.brokenPath, some ⟨false, 420⟩, none⟩]) =
      discoverVisits Example.fsBroken Example.repo [] [] pre :=
  load_error_not_propagated Example.fsBroken Example.repo [] []
    ⟨Example.brokenPath, some ⟨false, 420⟩, none⟩ ⟨false, 420⟩ Example.brokenContents
    Example.brokenError rfl rfl (by decide) (by decide) (by decide) (by decide)

/-- Counterexample to C8 as stated: the load of a candidate file fails with an
error that is not "not a cluster config", and `GetCoveredClusters` returns a
cluster list and no error. -/
theorem load_error_propagated_counterexample :
    HasSuffix Example.brokenPath yamlSuffix = true ∧
    Example.fsBroken.ReadFile Example.brokenPath = .ok Example.brokenContents ∧
    Contains Example.brokenContents clusterMarker = true ∧
    Example.fsBroken.LoadClusterConfig Example.brokenPath Example.repo =
      .error Example.brokenError ∧
    Example.brokenError ≠ "not a cluster config".toList ∧
    ⟨Example.brokenPath, some ⟨false, 420⟩, none⟩ ∈ Example.fsBroken.Walk Example.repo ∧
    GetCoveredClusters Example.worldBroken Example.repo [Example.diffY] [] [] [] =
      .ok [{ Example.clusterA with Subpath := "x".toList }] := by
  decide

/-- C9 (the code at the failing inputs): the repository walk reports an error
for the unreadable directory `clusters/b`, and `GetCoveredClusters` returns a
cluster list and no error; the walk of cluster A's expanded tree reports an
error for its unreadable directory `x`, and `GetCoveredClusters` returns the
empty list and no error although a file of cluster A is in the diff list; the
repository walk reports an `Lstat` error with a nil `FileInfo`, and the call
dereferences the nil value instead of returning the error. -/
theorem walk_error_not_returned :
    ((∃ v ∈ Example.fsUnreadable.Walk Example.repo, v.err ≠ none) ∧
      GetCoveredClusters Example.worldUnreadable Example.repo [Example.diffY] [] [] [] =
        .ok [{ Example.clusterA with Subpath := "x".toList }]) ∧
    ((∃ v ∈ Example.fsExpandedUnreadable.Walk Example.clusterA.ExpandedPath, v.err ≠ none) ∧
      getExpandedConfigFiles Example.fsExpandedUnreadable Example.repo Example.clusterA =
        .ok [] ∧
      GetCoveredClusters Example.worldExpandedUnreadable Example.repo [Example.diffY]
        [] [] [] = .ok []) ∧
    ((∃ v ∈ Example.fsLstatFails.Walk Example.repo, v.err ≠ none) ∧
      GetCoveredClusters Example.worldLstatFails Example.repo [Example.diffY] [] [] [] =
        .error .nilDeref) := by
  refine ⟨⟨⟨⟨"/repo/clusters/b".toList, some ⟨true, 0⟩,
      some "open /repo/clusters/b: permission denied".toList⟩, by decide, by decide⟩,
      by decide⟩,
    ⟨⟨⟨"/repo/clusters/a/expanded/x".toList, some ⟨true, 0⟩,
      some "open /repo/clusters/a/expanded/x: permission denied".toList⟩,
      by decide, by decide⟩, by decide, by decide⟩,
    ⟨⟨⟨"/repo/clusters/b/cluster.yaml".toList, none,
      some "lstat /repo/clusters/b/cluster.yaml: input/output error".toList⟩,
      by decide, by decide⟩, by decide⟩⟩

/-- C10: a candidate file whose load fails is skipped: the call behaves as on
the same walk without that file. It returns what the walk of the other files
gives, no cluster comes from the file, and the visits after it are processed
from the maps the visits before it left. -/
theorem load_failure_skipped (w : World) (repoRoot : Str) (diffs : List CommitFile)
    (env : Str) (selected : List Str) (subpathOverride : Str)
    (pre post : List Visit) (v : Visit) (info : FileInfo) (contents e : Str)
    (hwalk : w.fs.Walk repoRoot = pre ++ v :: post)
    (hinfo : v.info = some info) (hfile : info.IsDir = false)
    (hyaml : HasSuffix v.path yamlSuffix = true)
    (hread : w.fs.ReadFile v.path = .ok contents)
    (hmark : Contains contents clusterMarker = true)
    (hfail : w.fs.LoadClusterConfig v.path repoRoot = .error e) :
    GetCoveredClusters w repoRoot diffs env selected subpathOverride =
      coveredFromVisits w (pre ++ post) repoRoot diffs env selected subpathOverride ∧
    ∀ st, walkVisits (walkFn w.fs repoRoot env (selectedMap selected)) (v :: post) st =
      walkVisits (walkFn w.fs repoRoot env (selectedMap selected)) post st := by
  have hskip := fun st => walkFn_of_load_error w.fs repoRoot env (selectedMap selected) st v
    info contents e hinfo hfile hyaml hread hmark hfail
  have htail : ∀ st,
      walkVisits (walkFn w.fs repoRoot env (selectedMap selected)) (v :: post) st =
      walkVisits (walkFn w.fs repoRoot env (selectedMap selected)) post st := by
    intro st
    simp only [walkVisits, hskip st]
  refine ⟨?_, htail⟩
  unfold GetCoveredClusters coveredFromVisits discoverVisits
  rw [hwalk, walkVisits_append, walkVisits_append]
  cases walkVisits (walkFn w.fs repoRoot env (selectedMap selected)) pre
      ⟨GoMap.empty, GoMap.empty, GoMap.empty⟩ with
  | error x => rfl
  | ok st => simp only [htail st]

/-- Witness of C10 on the example repository with the unparsable declaration:
the result is that of the repository without it. -/
theorem load_failure_skipped_witness :
    GetCoveredClusters Example.worldBroken Example.repo [Example.diffY] [] [] [] =
      coveredFromVisits Example.worldBroken
        ((Example.walkRepo ++ [Example.dirVisit "/repo/clusters/c"]) ++ [])
        Example.repo [Example.diffY] [] [] [] ∧
    ∀ st, walkVisits (walkFn Example.worldBroken.fs Example.repo [] (selectedMap []))
        (⟨Example.brokenPath, some ⟨false, 420⟩, none⟩ :: []) st =
      walkVisits (walkFn Example.worldBroken.fs Example.repo [] (selectedMap [])) [] st :=
  load_failure_skipped Example.worldBroken Example.repo [Example.diffY] [] [] []
    (Example.walkRepo ++ [Example.dirVisit "/repo/clusters/c"]) []
    ⟨Example.brokenPath, some ⟨false, 420⟩, none⟩ ⟨false, 420⟩ Example.brokenContents
    Example.brokenError (by decide) rfl rfl (by decide) (by decide) (by decide) (by decide)

/-! ## Splitting and joining -/

theorem Split_ne_nil (s : Str) (c : Char) : Split s c ≠ [] := by
  cases s with
  | nil => simp [Split]
  | cons x xs =>
    unfold Split
    split
    · simp
    · split <;> simp

theorem Split_cons_sep (c : Char) (t : Str) : Split (c :: t) c = [] :: Split t c := by
  rw [Split, if_pos rfl]

theorem Split_cons_ne (x c : Char) (t : Str) (h : x ≠ c) :
    ∃ hd tl, Split t c = hd :: tl ∧ Split (x :: t) c = (x :: hd) :: tl := by
  cases hs : Split t c with
  | nil => exact absurd hs (Split_ne_nil t c)
  | cons hd tl =>
    refine ⟨hd, tl, rfl, ?_⟩
    rw [Split, if_neg h, hs]

/-- A string without the separator is its own single piece. -/
theorem Split_of_not_mem (s : Str) (c : Char) (h : c ∉ s) : Split s c = [s] := by
  induction s with
  | nil => rfl
  | cons x xs ih =>
    have hx : x ≠ c := fun hx => h (hx ▸ List.mem_cons_self _ _)
    have hxs : c ∉ xs := fun hm => h (List.mem_cons_of_mem _ hm)
    rw [Split, if_neg hx, ih hxs]

/-- The first piece of `s ++ c :: t` is `s` when `s` has no separator. -/
theorem Split_append_sep (s t : Str) (c : Char) (h : c ∉ s) :
    Split (s ++ c :: t) c = s :: Split t c := by
  induction s with
  | nil => exact Split_cons_sep c t
  | cons x xs ih =>
    have hx : x ≠ c := fun hx => h (hx ▸ List.mem_cons_self _ _)
    have hxs : c ∉ xs := fun hm => h (List.mem_cons_of_mem _ hm)
    rw [List.cons_append, Split, if_neg hx, ih hxs]

/-- Splitting undoes joining, for a non-empty list of separator-free pieces. -/
theorem Split_JoinStrings (names : List Str) (c : Char) (hne : names ≠ [])
    (h : ∀ s ∈ names, c ∉ s) : Split (JoinStrings names c) c = names := by
  induction names with
  | nil => exact absurd rfl hne
  | cons s rest ih =>
    cases rest with
    | nil =>
      rw [JoinStrings]
      exact Split_of_not_mem s c (h s (List.mem_cons_self _ _))
    | cons t rest' =>
      rw [JoinStrings, Split_append_sep _ _ _ (h s (List.mem_cons_self _ _)),
        ih (List.cons_ne_nil _ _) (fun x hx => h x (List.mem_cons_of_mem _ hx))]

/-- No piece of a split holds the separator. -/
theorem not_mem_of_mem_Split (s : Str) (c : Char) : ∀ e ∈ Split s c, c ∉ e := by
  induction s with
  | nil =>
    intro e he
    simp only [Split, List.mem_singleton] at he
    rw [he]
    exact List.not_mem_nil _
  | cons x xs ih =>
    intro e he
    by_cases hx : x = c
    · rw [hx, Split_cons_sep, List.mem_cons] at he
      rcases he with he | he
      · rw [he]; exact List.not_mem_nil _
      · exact ih e he
    · obtain ⟨hd, tl, hs, hs'⟩ := Split_cons_ne x c xs hx
      rw [hs', List.mem_cons] at he
      rw [hs] at ih
      rcases he with he | he
      · rw [he]
        intro hm
        rcases List.mem_cons.mp hm with h1 | h1
        · exact hx h1.symm
        · exact ih hd (List.mem_cons_self _ _) h1
      · exact ih e (List.mem_cons_of_mem _ he)

theorem JoinStrings_cons_cons (s t : Str) (rest : List Str) (c : Char) :
    JoinStrings (s :: t :: rest) c = s ++ c :: JoinStrings (t :: rest) c := by
  rw [JoinStrings]

theorem JoinStrings_append_singleton (names : List Str) (n : Str) (c : Char)
    (hne : names ≠ []) :
    JoinStrings (names ++ [n]) c = JoinStrings names c ++ c :: n := by
  induction names with
  | nil => exact absurd rfl hne
  | cons s rest ih =>
    cases rest with
    | nil => simp [JoinStrings]
    | cons t rest' =>
      rw [List.cons_append, List.cons_append, JoinStrings_cons_cons, ← List.cons_append,
        ih (List.cons_ne_nil _ _), JoinStrings_cons_cons, List.append_assoc]
      rfl

theorem JoinStrings_eq_nil (names : List Str) (c : Char) (h : JoinStrings names c = []) :
    names = [] ∨ names = [[]] := by
  cases names with
  | nil => exact Or.inl rfl
  | cons s rest =>
    cases rest with
    | nil =>
      right
      rw [JoinStrings] at h
      rw [h]
    | cons t rest' =>
      rw [JoinStrings_cons_cons] at h
      simp at h

/-! ## Cleaned paths -/

theorem IsName.cleanEl {s : Str} (h : IsName s) : CleanEl s := ⟨h.1, h.2.1, h.2.2.1⟩

theorem cleanEl_dotdot : CleanEl dotdot := by
  refine ⟨by decide, by decide, by decide⟩

theorem cleanStep_cleanEl (rooted : Bool) (out : List Str) (el : Str)
    (hout : ∀ e ∈ out, CleanEl e) (hel : Separator ∉ el) :
    ∀ e ∈ cleanStep rooted out el, CleanEl e := by
  unfold cleanStep
  split
  · exact hout
  · rename_i h1
    split
    · split
      · rename_i top rest
        split
        · intro e he
          rcases List.mem_cons.mp he with h | h
          · rw [h]; exact cleanEl_dotdot
          · exact hout e h
        · intro e he
          exact hout e (List.mem_cons_of_mem _ he)
      · split
        · intro e he; simp at he
        · intro e he
          rw [List.mem_singleton] at he
          rw [he]; exact cleanEl_dotdot
    · intro e he
      rcases List.mem_cons.mp he with h | h
      · rw [h]
        exact ⟨fun h0 => h1 (Or.inl h0), hel, fun h0 => h1 (Or.inr h0)⟩
      · exact hout e h

theorem foldl_cleanStep_cleanEl (rooted : Bool) (els : List Str) (out : List Str)
    (hout : ∀ e ∈ out, CleanEl e) (hels : ∀ el ∈ els, Separator ∉ el) :
    ∀ e ∈ els.foldl (cleanStep rooted) out, CleanEl e := by
  induction els generalizing out with
  | nil => exact hout
  | cons el rest ih =>
    rw [List.foldl_cons]
    exact ih _ (cleanStep_cleanEl rooted out el hout (hels el (List.mem_cons_self _ _)))
      (fun x hx => hels x (List.mem_cons_of_mem _ hx))

theorem cleanElems_cleanEl (path : Str) : ∀ e ∈ cleanElems path, CleanEl e := by
  intro e he
  unfold cleanElems at he
  rw [List.mem_reverse] at he
  exact foldl_cleanStep_cleanEl _ _ [] (fun x hx => by simp at hx)
    (not_mem_of_mem_Split path Separator) e he

/-- Ordinary elements are pushed on the stack one after the other. -/
theorem foldl_cleanStep_names (rooted : Bool) (names : List Str) (out : List Str)
    (h : ∀ s ∈ names, IsName s) :
    names.foldl (cleanStep rooted) out = names.reverse ++ out := by
  induction names generalizing out with
  | nil => rfl
  | cons n rest ih =>
    have hn := h n (List.mem_cons_self _ _)
    have hstep : cleanStep rooted out n = n :: out := by
      unfold cleanStep
      rw [if_neg (fun h0 => h0.elim hn.1 hn.2.2.1), if_neg hn.2.2.2]
    rw [List.foldl_cons, hstep, ih _ (fun x hx => h x (List.mem_cons_of_mem _ hx))]
    simp

theorem JoinStrings_eq_nil_iff (l : List Str) (h : ∀ e ∈ l, CleanEl e) :
    JoinStrings l Separator = [] ↔ l = [] := by
  constructor
  · intro hj
    rcases JoinStrings_eq_nil l Separator hj with h1 | h1
    · exact h1
    · exact absurd rfl (h [] (by rw [h1]; exact List.mem_singleton_self _)).1
  · intro hl
    rw [hl]; rfl

theorem JoinStrings_ne_dot (l : List Str) (h : ∀ e ∈ l, CleanEl e) :
    JoinStrings l Separator ≠ dot := by
  intro hj
  by_cases hl : l = []
  · rw [hl] at hj
    exact absurd hj (by decide)
  · have := Split_JoinStrings l Separator hl (fun s hs => (h s hs).2.1)
    rw [hj] at this
    have hd : l = [dot] := this.symm.trans (by decide)
    exact (h dot (by rw [hd]; exact List.mem_singleton_self _)).2.2 rfl

theorem isRooted_append (s t : Str) (h : s ≠ []) : isRooted (s ++ t) = isRooted s := by
  cases s with
  | nil => exact absurd rfl h
  | cons x xs => rfl

theorem isRooted_of_not_mem (s : Str) (h : Separator ∉ s) : isRooted s = false := by
  cases s with
  | nil => rfl
  | cons x xs =>
    have hx : x ≠ Separator := fun hx => h (hx ▸ List.mem_cons_self _ _)
    simp [isRooted, hx]

theorem isRooted_JoinStrings (l : List Str) (h : ∀ e ∈ l, CleanEl e) :
    isRooted (JoinStrings l Separator) = false := by
  cases l with
  | nil => rfl
  | cons s rest =>
    have hs := h s (List.mem_cons_self _ _)
    cases rest with
    | nil =>
      rw [JoinStrings]
      exact isRooted_of_not_mem s hs.2.1
    | cons t rest' =>
      rw [JoinStrings_cons_cons, isRooted_append _ _ hs.1]
      exact isRooted_of_not_mem s hs.2.1

theorem getLast?_JoinStrings (l : List Str) (hl : l ≠ []) (h : ∀ e ∈ l, CleanEl e) :
    (JoinStrings l Separator).getLast? ≠ some Separator := by
  induction l with
  | nil => exact absurd rfl hl
  | cons s rest ih =>
    have hs := h s (List.mem_cons_self _ _)
    cases rest with
    | nil =>
      rw [JoinStrings]
      intro hlast
      exact hs.2.1 (List.mem_of_getLast?_eq_some hlast)
    | cons t rest' =>
      rw [JoinStrings_cons_cons]
      have hj : JoinStrings (t :: rest') Separator ≠ [] := fun hj =>
        List.cons_ne_nil _ _ ((JoinStrings_eq_nil_iff _
          (fun x hx => h x (List.mem_cons_of_mem _ hx))).mp hj)
      have : (s ++ Separator :: JoinStrings (t :: rest') Separator).getLast? =
          (JoinStrings (t :: rest') Separator).getLast? := by
        rw [show s ++ Separator :: JoinStrings (t :: rest') Separator =
          (s ++ [Separator]) ++ JoinStrings (t :: rest') Separator by simp]
        rw [List.getLast?_append_of_ne_nil _ hj]
      rw [this]
      exact ih (List.cons_ne_nil _ _) (fun x hx => h x (List.mem_cons_of_mem _ hx))

/-! ## `filepath.Rel` on a path under the base -/

theorem relElems_JoinStrings (l : List Str) (h : ∀ e ∈ l, CleanEl e) :
    relElems (JoinStrings l Separator) = l := by
  by_cases hl : l = []
  · rw [hl]; rfl
  · unfold relElems
    rw [if_neg (fun hj => hl ((JoinStrings_eq_nil_iff l h).mp hj)),
      if_neg (getLast?_JoinStrings l hl h),
      Split_JoinStrings l Separator hl (fun s hs => (h s hs).2.1)]

theorem relElems_rooted (l : List Str) (h : ∀ e ∈ l, CleanEl e) :
    relElems (Separator :: JoinStrings l Separator) = [] :: l := by
  by_cases hl : l = []
  · rw [hl]; rfl
  · have hj : JoinStrings l Separator ≠ [] := fun hj => hl ((JoinStrings_eq_nil_iff l h).mp hj)
    have hlast : (Separator :: JoinStrings l Separator).getLast? =
        (JoinStrings l Separator).getLast? := by
      rw [show Separator :: JoinStrings l Separator = [Separator] ++ JoinStrings l Separator
        from rfl, List.getLast?_append_of_ne_nil _ hj]
    unfold relElems
    rw [if_neg (List.cons_ne_nil _ _), hlast, if_neg (getLast?_JoinStrings l hl h),
      Split_cons_sep, Split_JoinStrings l Separator hl (fun s hs => (h s hs).2.1)]

theorem Clean_rooted (path : Str) (h : isRooted path = true) :
    Clean path = Separator :: JoinStrings (cleanElems path) Separator := by
  unfold Clean
  simp only [h, if_true]

theorem Clean_not_rooted (path : Str) (h : isRooted path = false) :
    Clean path = if JoinStrings (cleanElems path) Separator = [] then dot
      else JoinStrings (cleanElems path) Separator := by
  unfold Clean
  simp only [h, Bool.false_eq_true, if_false]

theorem relElems_relBase (root : Str) :
    relElems (relBase root) = rootMark root ++ cleanElems root := by
  have hel := cleanElems_cleanEl root
  unfold relBase rootMark
  cases hr : isRooted root with
  | true =>
    rw [Clean_rooted root hr, if_neg (by intro h; cases h), relElems_rooted _ hel]
    rfl
  | false =>
    rw [Clean_not_rooted root hr]
    by_cases hj : JoinStrings (cleanElems root) Separator = []
    · rw [if_pos hj, if_pos rfl, (JoinStrings_eq_nil_iff _ hel).mp hj]
      rfl
    · rw [if_neg hj, if_neg (JoinStrings_ne_dot _ hel), relElems_JoinStrings _ hel]
      rfl

theorem relElems_Clean (path : Str) (hne : cleanElems path ≠ []) :
    relElems (Clean path) = rootMark path ++ cleanElems path := by
  have hel := cleanElems_cleanEl path
  unfold rootMark
  cases hr : isRooted path with
  | true =>
    rw [Clean_rooted path hr, relElems_rooted _ hel]
    rfl
  | false =>
    rw [Clean_not_rooted path hr,
      if_neg (fun hj => hne ((JoinStrings_eq_nil_iff _ hel).mp hj)),
      relElems_JoinStrings _ hel]
    rfl

theorem isRooted_Clean (path : Str) : isRooted (Clean path) = isRooted path := by
  cases hr : isRooted path with
  | true => rw [Clean_rooted path hr]; rfl
  | false =>
    rw [Clean_not_rooted path hr]
    split
    · rfl
    · exact isRooted_JoinStrings _ (cleanElems_cleanEl path)

theorem isRooted_relBase (root : Str) : isRooted (relBase root) = isRooted root := by
  unfold relBase
  split
  · rename_i h
    rw [← isRooted_Clean root, h]
    rfl
  · exact isRooted_Clean root

theorem stripCommon_prefix (l q : List Str) : stripCommon l (l ++ q) = (false, [], q) := by
  induction l with
  | nil => cases q <;> rfl
  | cons x rest ih =>
    rw [List.cons_append, stripCommon, if_pos rfl, ih]

/-- For a path under `root`, `filepath.Rel` succeeds and returns the ordinary
elements that follow the root, joined by the separator. -/
theorem Rel_of_under (root path : Str) (q : List Str) (hroot : isRooted root = isRooted path)
    (hq : q ≠ [])
    (hel : cleanElems path = cleanElems root ++ q) :
    Rel root path = .ok (JoinStrings q Separator) := by
  have hpne : cleanElems path ≠ [] := by
    rw [hel]
    exact List.append_ne_nil_of_right_ne_nil _ hq
  have hmark : rootMark path = rootMark root := by
    unfold rootMark; rw [hroot]
  have htarg : relElems (relBase path) = (rootMark root ++ cleanElems root) ++ q := by
    rw [relElems_relBase path, hmark, hel, List.append_assoc]
  have hne : Clean path ≠ Clean root := by
    intro heq
    have h1 := relElems_relBase root
    have hb : relBase root = relBase path := by
      unfold relBase; rw [heq]
    rw [hb, htarg] at h1
    have := congrArg List.length h1
    simp only [List.length_append] at this
    have hql : 0 < q.length := List.length_pos.mpr hq
    omega
  have hrooted : ¬ (isRooted (relBase root) ≠ isRooted (relBase path)) := by
    rw [isRooted_relBase, isRooted_relBase, hroot]
    exact fun h => h rfl
  unfold Rel
  simp only
  rw [if_neg hne]
  change (if isRooted (relBase root) ≠ isRooted (relBase path) then _ else _) = _
  rw [if_neg hrooted]
  have hb : (if Clean root = dot then [] else Clean root) = relBase root := rfl
  have ht : (if Clean path = dot then [] else Clean path) = relBase path := rfl
  rw [hb, ht, relElems_relBase root, htarg, stripCommon_prefix]
  simp

/-! ## `filepath.Dir` and `filepath.Join` on relative paths of ordinary elements -/

theorem cleanStep_nil (rooted : Bool) (out : List Str) : cleanStep rooted out [] = out := by
  unfold cleanStep
  rw [if_pos (Or.inl rfl)]

theorem cleanStep_dot (rooted : Bool) (out : List Str) : cleanStep rooted out dot = out := by
  unfold cleanStep
  rw [if_pos (Or.inr rfl)]

theorem cleanElems_JoinStrings (names : List Str) (hne : names ≠ [])
    (h : ∀ s ∈ names, IsName s) : cleanElems (JoinStrings names Separator) = names := by
  unfold cleanElems
  rw [Split_JoinStrings names Separator hne (fun s hs => (h s hs).2.1),
    foldl_cleanStep_names _ names [] h]
  simp

theorem Clean_JoinStrings (names : List Str) (hne : names ≠ [])
    (h : ∀ s ∈ names, IsName s) :
    Clean (JoinStrings names Separator) = JoinStrings names Separator := by
  have hcl : ∀ e ∈ names, CleanEl e := fun e he => (h e he).cleanEl
  rw [Clean_not_rooted _ (isRooted_JoinStrings names hcl), cleanElems_JoinStrings names hne h,
    if_neg (fun hj => hne ((JoinStrings_eq_nil_iff names hcl).mp hj))]

/-- Cleaning a relative path of ordinary elements that ends in a separator
removes the separator. -/
theorem Clean_JoinStrings_sep (names : List Str) (hne : names ≠ [])
    (h : ∀ s ∈ names, IsName s) :
    Clean (JoinStrings names Separator ++ [Separator]) = JoinStrings names Separator := by
  have hcl : ∀ e ∈ names, CleanEl e := fun e he => (h e he).cleanEl
  have hj : JoinStrings names Separator ≠ [] :=
    fun hj => hne ((JoinStrings_eq_nil_iff names hcl).mp hj)
  have hrooted : isRooted (JoinStrings names Separator ++ [Separator]) = false := by
    rw [isRooted_append _ _ hj]
    exact isRooted_JoinStrings names hcl
  have hsplit : Split (JoinStrings names Separator ++ [Separator]) Separator =
      names ++ [[]] := by
    rw [← JoinStrings_append_singleton names [] Separator hne]
    refine Split_JoinStrings _ _ (List.append_ne_nil_of_left_ne_nil hne _) ?_
    intro s hs
    rcases List.mem_append.mp hs with h1 | h1
    · exact (h s h1).2.1
    · rw [List.mem_singleton.mp h1]
      exact List.not_mem_nil _
  have hel : cleanElems (JoinStrings names Separator ++ [Separator]) = names := by
    unfold cleanElems
    rw [hsplit, List.foldl_append, foldl_cleanStep_names _ names [] h]
    simp [cleanStep_nil]
  rw [Clean_not_rooted _ hrooted, hel, if_neg hj]

theorem dropWhile_append_of_all {α : Type} (p : α → Bool) (a b : List α)
    (h : ∀ x ∈ a, p x = true) : (a ++ b).dropWhile p = b.dropWhile p := by
  induction a with
  | nil => rfl
  | cons x rest ih =>
    rw [List.cons_append, List.dropWhile_cons, h x (List.mem_cons_self _ _)]
    exact ih (fun y hy => h y (List.mem_cons_of_mem _ hy))

theorem upToLastSeparator_of_not_mem (s : Str) (h : Separator ∉ s) :
    upToLastSeparator s = [] := by
  unfold upToLastSeparator
  have := dropWhile_append_of_all (fun c => c != Separator) s.reverse []
    (fun x hx => by
      have hx' : x ≠ Separator := fun hxs => h (hxs ▸ List.mem_reverse.mp hx)
      simpa using hx')
  rw [List.append_nil] at this
  rw [this]
  rfl

theorem upToLastSeparator_append (a s : Str) (h : Separator ∉ s) :
    upToLastSeparator (a ++ Separator :: s) = a ++ [Separator] := by
  unfold upToLastSeparator
  have hrev : (a ++ Separator :: s).reverse = s.reverse ++ Separator :: a.reverse := by
    simp
  rw [hrev, dropWhile_append_of_all (fun c => c != Separator) s.reverse _
    (fun x hx => by
      have hx' : x ≠ Separator := fun hxs => h (hxs ▸ List.mem_reverse.mp hx)
      simpa using hx')]
  simp [List.dropWhile_cons]

/-- The directory of a relative path of ordinary elements: all but the last
element, or `.` when there is only one. -/
theorem Dir_JoinStrings (q : List Str) (hq : q ≠ []) (h : ∀ s ∈ q, IsName s) :
    Dir (JoinStrings q Separator) =
      if q.dropLast = [] then dot else JoinStrings q.dropLast Separator := by
  have hd : q = q.dropLast ++ [q.getLast hq] := (List.dropLast_append_getLast hq).symm
  have hlast : IsName (q.getLast hq) := h _ (List.getLast_mem hq)
  unfold Dir
  by_cases hnil : q.dropLast = []
  · rw [if_pos hnil]
    have hq1 : q = [q.getLast hq] := by rw [hnil] at hd; exact hd
    rw [hq1, JoinStrings, upToLastSeparator_of_not_mem _ hlast.2.1]
    rfl
  · rw [if_neg hnil]
    have hj : JoinStrings q Separator =
        JoinStrings q.dropLast Separator ++ Separator :: q.getLast hq := by
      conv_lhs => rw [hd]
      exact JoinStrings_append_singleton _ _ _ hnil
    rw [hj, upToLastSeparator_append _ _ hlast.2.1]
    exact Clean_JoinStrings_sep _ hnil (fun s hs => h s (List.mem_of_mem_dropLast hs))

theorem Split_Dir_JoinStrings (q : List Str) (hq : q ≠ []) (h : ∀ s ∈ q, IsName s) :
    Split (Dir (JoinStrings q Separator)) Separator = encDirs q.dropLast := by
  rw [Dir_JoinStrings q hq h]
  unfold encDirs
  by_cases hnil : q.dropLast = []
  · rw [if_pos hnil, if_pos hnil]; rfl
  · rw [if_neg hnil, if_neg hnil]
    exact Split_JoinStrings _ _ hnil (fun s hs => (h s (List.mem_of_mem_dropLast hs)).2.1)

theorem dirSegments_Dir_JoinStrings (q : List Str) (hq : q ≠ []) (h : ∀ s ∈ q, IsName s) :
    dirSegments (Dir (JoinStrings q Separator)) = q.dropLast := by
  rw [Dir_JoinStrings q hq h]
  unfold dirSegments
  by_cases hnil : q.dropLast = []
  · rw [if_pos hnil, if_pos rfl, hnil]
  · have hn : ∀ s ∈ q.dropLast, IsName s := fun s hs => h s (List.mem_of_mem_dropLast hs)
    rw [if_neg hnil, if_neg (JoinStrings_ne_dot _ (fun e he => (hn e he).cleanEl))]
    exact Split_JoinStrings _ _ hnil (fun s hs => (hn s hs).2.1)

theorem Join_dot_dot : Join dot dot = dot := by decide

theorem Join_dot_name (n : Str) (h : IsName n) : Join dot n = n := by
  unfold Join
  rw [if_pos (by decide)]
  have hsplit : Split (dot ++ Separator :: n) Separator = [dot, n] := by
    rw [Split_append_sep dot n Separator (by decide), Split_of_not_mem n _ h.2.1]
  have hel : cleanElems (dot ++ Separator :: n) = [n] := by
    unfold cleanElems
    rw [hsplit]
    simp only [List.foldl_cons, List.foldl_nil, cleanStep_dot]
    have := foldl_cleanStep_names (isRooted (dot ++ Separator :: n)) [n] []
      (fun s hs => by rw [List.mem_singleton.mp hs]; exact h)
    simp only [List.foldl_cons, List.foldl_nil, List.reverse_singleton,
      List.singleton_append] at this
    rw [this]
    rfl
  rw [Clean_not_rooted _ (by rfl), hel]
  simp [JoinStrings, h.1]

theorem Join_names (names : List Str) (n : Str) (hne : names ≠ [])
    (h : ∀ s ∈ names, IsName s) (hn : IsName n) :
    Join (JoinStrings names Separator) n = JoinStrings (names ++ [n]) Separator := by
  have hcl : ∀ e ∈ names, CleanEl e := fun e he => (h e he).cleanEl
  unfold Join
  rw [if_pos (fun hj => hne ((JoinStrings_eq_nil_iff names hcl).mp hj)),
    ← JoinStrings_append_singleton names n Separator hne]
  refine Clean_JoinStrings _ (List.append_ne_nil_of_left_ne_nil hne _) ?_
  intro s hs
  rcases List.mem_append.mp hs with h1 | h1
  · exact h s h1
  · rw [List.mem_singleton.mp h1]; exact hn

theorem foldl_Join_names (acc names : List Str) (hacc : acc ≠ [])
    (h1 : ∀ s ∈ acc, IsName s) (h2 : ∀ s ∈ names, IsName s) :
    names.foldl Join (JoinStrings acc Separator) = JoinStrings (acc ++ names) Separator := by
  induction names generalizing acc with
  | nil => simp
  | cons n rest ih =>
    rw [List.foldl_cons, Join_names acc n hacc h1 (h2 n (List.mem_cons_self _ _)),
      ih (acc ++ [n]) (List.append_ne_nil_of_left_ne_nil hacc _) ?_
        (fun s hs => h2 s (List.mem_cons_of_mem _ hs))]
    · simp
    · intro s hs
      rcases List.mem_append.mp hs with h | h
      · exact h1 s h
      · rw [List.mem_singleton.mp h]; exact h2 n (List.mem_cons_self _ _)

/-- Joining ordinary elements one by one onto `.` gives `.` when there is
none, and otherwise their join. -/
theorem foldl_Join_dot (names : List Str) (h : ∀ s ∈ names, IsName s) :
    names.foldl Join dot = if names = [] then dot else JoinStrings names Separator := by
  cases names with
  | nil => rfl
  | cons n rest =>
    have hn := h n (List.mem_cons_self _ _)
    rw [if_neg (List.cons_ne_nil _ _), List.foldl_cons, Join_dot_name n hn]
    have := foldl_Join_names [n] rest (List.cons_ne_nil _ _)
      (fun s hs => by rw [List.mem_singleton.mp hs]; exact hn)
      (fun s hs => h s (List.mem_cons_of_mem _ hs))
    rw [show JoinStrings [n] Separator = n from rfl] at this
    rw [this]
    rfl

/-! ## The loops of `lowestParent` -/

theorem index_of_lt {α : Type} (xs : List α) (i : Nat) (h : i < xs.length) :
    index xs i = .ok xs[i] := by
  unfold index
  rw [List.getElem?_eq_getElem h]

/-- The inner loop after its first iteration: it runs to its end exactly when
every remaining list has `currDir` at index `i`. -/
theorem sameAt_rest (i : Nat) (rest : List (List Str)) (r : Nat) (currDir : Str)
    (hr : r ≠ 0) (hlen : ∀ l ∈ rest, i < l.length) :
    ∃ b, sameAt i rest r currDir = .ok b ∧
      (b = true ↔ ∀ l ∈ rest, l[i]? = some currDir) := by
  induction rest generalizing r with
  | nil => exact ⟨true, rfl, by simp⟩
  | cons l tl ih =>
    have hl := hlen l (List.mem_cons_self _ _)
    rw [sameAt, index_of_lt l i hl]
    simp only [if_neg hr]
    by_cases hd : l[i] = currDir
    · obtain ⟨b, hb, hiff⟩ := ih (r + 1) (Nat.succ_ne_zero r)
        (fun x hx => hlen x (List.mem_cons_of_mem _ hx))
      refine ⟨b, by simp [hd, hb], ?_⟩
      rw [hiff]
      constructor
      · intro h x hx
        rcases List.mem_cons.mp hx with h1 | h1
        · rw [h1, List.getElem?_eq_getElem hl, ← hd]
        · exact h x h1
      · intro h x hx
        exact h x (List.mem_cons_of_mem _ hx)
    · refine ⟨false, by simp [hd], ?_⟩
      constructor
      · intro h; cases h
      · intro h
        have := h l (List.mem_cons_self _ _)
        rw [List.getElem?_eq_getElem hl, Option.some.injEq] at this
        exact absurd this hd

/-- The inner loop: it runs to its end exactly when every list has at index
`i` what the first one has. -/
theorem sameAt_spec (i : Nat) (first : List Str) (rest : List (List Str))
    (hfirst : i < first.length) (hlen : ∀ l ∈ rest, i < l.length) :
    ∃ b, sameAt i (first :: rest) 0 [] = .ok b ∧
      (b = true ↔ ∀ l ∈ rest, l[i]? = first[i]?) := by
  rw [sameAt, index_of_lt first i hfirst]
  simp only [if_true]
  obtain ⟨b, hb, hiff⟩ := sameAt_rest i rest (0 + 1) first[i]
    (Nat.succ_ne_zero 0) hlen
  refine ⟨b, hb, ?_⟩
  rw [hiff, List.getElem?_eq_getElem hfirst]

/-- The outer loop from index `s`, over `len` indices within every list: it
ends with `lowestIndex = n - 1`, where all lists agree with the first at the
indices from `s` up to `n`, and `n` is the end of the range or an index at
which they do not all agree. -/
theorem commonIndex_spec (first : List Str) (rest : List (List Str)) (len s : Nat)
    (hlen : ∀ l ∈ first :: rest, s + len ≤ l.length) :
    ∃ n, s ≤ n ∧ n ≤ s + len ∧
      commonIndex (first :: rest) (List.range' s len) ((s : Int) - 1) = .ok ((n : Int) - 1) ∧
      (∀ i, s ≤ i → i < n → ∀ l ∈ rest, l[i]? = first[i]?) ∧
      (n = s + len ∨ ¬ ∀ l ∈ rest, l[n]? = first[n]?) := by
  induction len generalizing s with
  | zero =>
    exact ⟨s, Nat.le_refl _, Nat.le_refl _, rfl, fun i h1 h2 => absurd h2 (by omega),
      Or.inl rfl⟩
  | succ len ih =>
    have hf : s < first.length := by
      have := hlen first (List.mem_cons_self _ _); omega
    have hr : ∀ l ∈ rest, s < l.length := fun l hl => by
      have := hlen l (List.mem_cons_of_mem _ hl); omega
    obtain ⟨b, hb, hiff⟩ := sameAt_spec s first rest hf hr
    rw [List.range'_succ, commonIndex, hb]
    cases b with
    | false =>
      refine ⟨s, Nat.le_refl _, by omega, rfl, fun i h1 h2 => absurd h2 (by omega), Or.inr ?_⟩
      intro hall
      have := hiff.mpr hall
      cases this
    | true =>
      have hall := hiff.mp rfl
      obtain ⟨n, hn1, hn2, hres, hagree, hend⟩ := ih (s + 1)
        (fun l hl => by have := hlen l hl; omega)
      refine ⟨n, by omega, by omega, ?_, ?_, ?_⟩
      · simp only
        have : ((s : Nat) : Int) = (((s + 1 : Nat) : Int)) - 1 := by simp
        rw [this]
        exact hres
      · intro i h1 h2 l hl
        by_cases hi : i = s
        · rw [hi]; exact hall l hl
        · exact hagree i (by omega) h2 l hl
      · rcases hend with h | h
        · left; omega
        · exact Or.inr h

/-- The last loop: it joins the elements of the first list at the visited
indices onto the path built so far. -/
theorem joinLoop_spec (first : List Str) (rest : List (List Str)) (len s : Nat) (acc : Str)
    (hlen : s + len ≤ first.length) :
    joinLoop (first :: rest) (List.range' s len) acc =
      .ok (((first.drop s).take len).foldl Join acc) := by
  induction len generalizing s acc with
  | zero => rfl
  | succ len ih =>
    have hs : s < first.length := by omega
    rw [List.range'_succ, joinLoop]
    have h0 : index (first :: rest) 0 = .ok first := by simp [index]
    rw [h0]
    simp only
    rw [index_of_lt first s hs]
    simp only
    rw [ih (s + 1) _ (by omega), List.drop_eq_getElem_cons hs]
    rfl

/-- The first loop: with every `filepath.Rel` succeeding, it appends the split
relative directories in order and keeps the least length. -/
theorem relDirsLoop_spec (root : Str) (paths : List Str) (dirs : List (List Str))
    (h : List.Forall₂
      (fun p l => ∃ rel, Rel root p = .ok rel ∧ Split (Dir rel) Separator = l) paths dirs)
    (p : Nat) (acc : List (List Str)) (m : Nat)
    (hinv : p = 0 ∧ acc = [] ∨ p ≠ 0 ∧ MinOf acc m) :
    ∃ m', relDirsLoop root paths p (acc, m) = .ok (acc ++ dirs, m') ∧
      (dirs ≠ [] ∨ p ≠ 0 → MinOf (acc ++ dirs) m') := by
  induction h generalizing p acc m with
  | nil =>
    refine ⟨m, by simp [relDirsLoop], ?_⟩
    intro h
    rcases h with h | h
    · exact absurd rfl h
    · rcases hinv with ⟨h0, -⟩ | ⟨-, hm⟩
      · exact absurd h0 h
      · simpa using hm
  | @cons path l paths' dirs' hpl _ ih =>
    obtain ⟨rel, hrel, hsplit⟩ := hpl
    rw [relDirsLoop, hrel]
    simp only [hsplit]
    have hinv' : p + 1 ≠ 0 ∧ MinOf (acc ++ [l])
        (if p = 0 ∨ l.length < m then l.length else m) := by
      refine ⟨Nat.succ_ne_zero p, ?_⟩
      rcases hinv with ⟨h0, hacc⟩ | ⟨hp, hm1, hm2⟩
      · rw [if_pos (Or.inl h0), hacc]
        exact ⟨fun x hx => by
          rw [List.nil_append, List.mem_singleton] at hx; rw [hx],
          ⟨l, by simp, rfl⟩⟩
      · by_cases hlt : l.length < m
        · rw [if_pos (Or.inr hlt)]
          refine ⟨fun x hx => ?_, ⟨l, by simp, rfl⟩⟩
          rcases List.mem_append.mp hx with h1 | h1
          · have := hm1 x h1; omega
          · rw [List.mem_singleton.mp h1]
        · rw [if_neg (fun h => h.elim hp hlt)]
          obtain ⟨x, hx, hxl⟩ := hm2
          refine ⟨fun y hy => ?_, ⟨x, List.mem_append_left _ hx, hxl⟩⟩
          rcases List.mem_append.mp hy with h1 | h1
          · exact hm1 y h1
          · rw [List.mem_singleton.mp h1]; omega
    obtain ⟨m', hloop, hmin⟩ := ih (p + 1) (acc ++ [l]) _ (Or.inr hinv')
    refine ⟨m', ?_, ?_⟩
    · rw [hloop]; simp
    · intro _
      have := hmin (Or.inr (Nat.succ_ne_zero p))
      simpa using this

/-! ## Correctness of `lowestParent` -/

theorem hasRelDir_of_under (root path : Str) (h : Under root path) :
    ∃ ds, HasRelDir root path ds := by
  obtain ⟨hroot, q, hq, hnames, hel⟩ := h
  refine ⟨q.dropLast, fun s hs => hnames s (List.mem_of_mem_dropLast hs),
    JoinStrings q Separator, Rel_of_under root path q hroot hq hel, ?_⟩
  exact Dir_JoinStrings q hq hnames

theorem HasRelDir.split {root path : Str} {ds : List Str} (h : HasRelDir root path ds) :
    ∃ rel, Rel root path = .ok rel ∧ Split (Dir rel) Separator = encDirs ds := by
  obtain ⟨hnames, rel, hrel, hdir⟩ := h
  refine ⟨rel, hrel, ?_⟩
  rw [hdir]
  unfold encDirs
  by_cases hnil : ds = []
  · rw [if_pos hnil, if_pos hnil]; rfl
  · rw [if_neg hnil, if_neg hnil]
    exact Split_JoinStrings _ _ hnil (fun s hs => (hnames s hs).2.1)

theorem HasRelDir.segments {root path : Str} {ds : List Str} (h : HasRelDir root path ds)
    {rel : Str} (hrel : Rel root path = .ok rel) : dirSegments (Dir rel) = ds := by
  obtain ⟨hnames, rel', hrel', hdir⟩ := h
  rw [hrel] at hrel'
  cases hrel'
  rw [hdir]
  unfold dirSegments
  by_cases hnil : ds = []
  · rw [if_pos hnil, if_pos rfl, hnil]
  · rw [if_neg hnil, if_neg (JoinStrings_ne_dot _ (fun e he => (hnames e he).cleanEl))]
    exact Split_JoinStrings _ _ hnil (fun s hs => (hnames s hs).2.1)

theorem exists_forall₂ {α β : Type} {R : α → β → Prop} (l : List α)
    (h : ∀ a ∈ l, ∃ b, R a b) : ∃ l', List.Forall₂ R l l' := by
  induction l with
  | nil => exact ⟨[], List.Forall₂.nil⟩
  | cons a rest ih =>
    obtain ⟨b, hb⟩ := h a (List.mem_cons_self _ _)
    obtain ⟨l', hl'⟩ := ih (fun x hx => h x (List.mem_cons_of_mem _ hx))
    exact ⟨b :: l', List.Forall₂.cons hb hl'⟩

theorem forall₂_map_right {α β γ : Type} {R : α → β → Prop} {S : α → γ → Prop}
    {f : β → γ} {l₁ : List α} {l₂ : List β} (h : List.Forall₂ R l₁ l₂)
    (hf : ∀ a b, R a b → S a (f b)) : List.Forall₂ S l₁ (l₂.map f) := by
  induction h with
  | nil => exact List.Forall₂.nil
  | cons hab _ ih => exact List.Forall₂.cons (hf _ _ hab) ih

theorem dirSegments_dot : dirSegments dot = [] := by
  unfold dirSegments
  rw [if_pos rfl]

theorem dirSegments_JoinStrings (names : List Str) (hne : names ≠ [])
    (h : ∀ s ∈ names, IsName s) : dirSegments (JoinStrings names Separator) = names := by
  unfold dirSegments
  rw [if_neg (JoinStrings_ne_dot _ (fun e he => (h e he).cleanEl))]
  exact Split_JoinStrings _ _ hne (fun s hs => (h s hs).2.1)

theorem encDirs_of_ne_nil (ds : List Str) (h : ds ≠ []) : encDirs ds = ds := by
  unfold encDirs
  rw [if_neg h]

theorem getElem?_prefix_eq {S l : List Str} (h : S <+: l) {i : Nat} (hi : i < S.length) :
    l[i]? = S[i]? := by
  obtain ⟨t, rfl⟩ := h
  rw [List.getElem?_append_left hi]

/-- The result of `lowestParent` when the relative directories of the paths
have the segment lists `ds0 :: dss`: a directory whose segments are the longest
common prefix of these lists. -/
theorem lowestParent_of_dirs (root : Str) (paths : List Str) (ds0 : List Str)
    (dss : List (List Str))
    (hall : List.Forall₂ (HasRelDir root) paths (ds0 :: dss)) :
    ∃ D, lowestParent root paths = .ok D ∧
      (∀ s ∈ dirSegments D, IsName s) ∧
      (∀ ds ∈ ds0 :: dss, dirSegments D <+: ds) ∧
      (∀ S : List Str, (∀ ds ∈ ds0 :: dss, S <+: ds) → S <+: dirSegments D) := by
  have hnames : ∀ ds ∈ ds0 :: dss, ∀ s ∈ ds, IsName s := by
    intro ds hds
    obtain ⟨p, -, hp⟩ := forall₂_mem_right hall hds
    exact hp.1
  have hpaths : paths.length ≠ 0 := by
    rw [hall.length_eq]; simp
  have hloop := forall₂_map_right (S := fun p l => ∃ rel, Rel root p = .ok rel ∧
    Split (Dir rel) Separator = l) (f := encDirs) hall (fun a b hab => hab.split)
  obtain ⟨minLen, hdirs, hmin⟩ := relDirsLoop_spec root paths _ hloop 0 [] 0
    (Or.inl ⟨rfl, rfl⟩)
  rw [List.nil_append, List.map_cons] at hdirs
  have hmin' : MinOf (encDirs ds0 :: dss.map encDirs) minLen := by
    have := hmin (Or.inl (by simp))
    simpa using this
  obtain ⟨n, -, hn, hidx, hagree, hend⟩ :=
    commonIndex_spec (encDirs ds0) (dss.map encDirs) minLen 0
      (fun l hl => by have := hmin'.1 l hl; omega)
  rw [Nat.zero_add] at hn hend
  have hn0 : n ≤ (encDirs ds0).length := by
    have := hmin'.1 _ (List.mem_cons_self _ _); omega
  have hjoin := joinLoop_spec (encDirs ds0) (dss.map encDirs) n 0 dot (by omega)
  rw [List.drop_zero] at hjoin
  have hres : lowestParent root paths =
      .ok (((encDirs ds0).take n).foldl Join dot) := by
    unfold lowestParent
    rw [if_neg hpaths, hdirs]
    simp only
    rw [List.range_eq_range']
    have h1 : ((-1 : Int)) = ((0 : Nat) : Int) - 1 := by simp
    rw [h1, hidx]
    simp only
    have h2 : ((n : Int) - 1 + 1).toNat = n := by simp
    rw [h2, List.range_eq_range', hjoin]
  refine ⟨_, hres, ?_⟩
  by_cases h0 : ds0 = []
  · -- the first file lies in the root itself
    have hD : ((encDirs ds0).take n).foldl Join dot = dot := by
      rw [h0]
      have : encDirs [] = [dot] := rfl
      rw [this]
      cases n with
      | zero => rfl
      | succ k =>
        rw [List.take_succ_cons, List.take_nil, List.foldl_cons, List.foldl_nil]
        exact Join_dot_dot
    rw [hD, dirSegments_dot]
    refine ⟨fun s hs => by simp at hs, fun ds _ => List.nil_prefix, ?_⟩
    intro S hS
    have := hS ds0 (List.mem_cons_self _ _)
    rw [h0] at this
    exact this
  · have hn0' : n ≤ ds0.length := by rw [encDirs_of_ne_nil ds0 h0] at hn0; exact hn0
    have hnames0 := hnames ds0 (List.mem_cons_self _ _)
    have htake : ∀ s ∈ ds0.take n, IsName s := fun s hs => hnames0 s (List.mem_of_mem_take hs)
    have hD : dirSegments (((encDirs ds0).take n).foldl Join dot) = ds0.take n := by
      rw [encDirs_of_ne_nil ds0 h0, foldl_Join_dot _ htake]
      by_cases ht : ds0.take n = []
      · rw [if_pos ht, ht]; exact dirSegments_dot
      · rw [if_neg ht]; exact dirSegments_JoinStrings _ ht htake
    rw [hD]
    have hagree' : ∀ i, i < n → ∀ ds ∈ dss, (encDirs ds)[i]? = ds0[i]? := by
      intro i hi ds hds
      have := hagree i (Nat.zero_le _) hi (encDirs ds) (List.mem_map_of_mem _ hds)
      rw [encDirs_of_ne_nil ds0 h0] at this
      exact this
    refine ⟨htake, ?_, ?_⟩
    · intro ds hds
      rcases List.mem_cons.mp hds with h1 | h1
      · rw [h1]; exact List.take_prefix _ _
      · by_cases hnz : n = 0
        · rw [hnz, List.take_zero]; exact List.nil_prefix
        · have hne : ds ≠ [] := by
            intro hnil
            have := hagree' 0 (by omega) ds h1
            rw [hnil] at this
            have hd0 : (encDirs ([] : List Str))[0]? = some dot := rfl
            rw [hd0] at this
            obtain ⟨x, xs, hx⟩ := List.exists_cons_of_ne_nil h0
            rw [hx] at this
            simp only [List.getElem?_cons_zero, Option.some.injEq] at this
            have := hnames0 x (by rw [hx]; exact List.mem_cons_self _ _)
            exact this.2.2.1 (by rw [← ‹dot = x›])
          have hlen : n ≤ ds.length := by
            have := hmin'.1 (encDirs ds)
              (List.mem_cons_of_mem _ (List.mem_map_of_mem _ h1))
            rw [encDirs_of_ne_nil ds hne] at this
            omega
          have heq : ds0.take n = ds.take n := by
            apply List.ext_getElem?
            intro i
            rw [List.getElem?_take, List.getElem?_take]
            by_cases hi : i < n
            · rw [if_pos hi, if_pos hi]
              have := hagree' i hi ds h1
              rw [encDirs_of_ne_nil ds hne] at this
              exact this.symm
            · rw [if_neg hi, if_neg hi]
          rw [heq]
          exact List.take_prefix _ _
    · intro S hS
      rw [List.prefix_take_iff]
      refine ⟨hS ds0 (List.mem_cons_self _ _), ?_⟩
      by_contra hlt
      have hlt' : n < S.length := by omega
      have hlens : ∀ ds ∈ ds0 :: dss, n < ds.length := fun ds hds =>
        Nat.lt_of_lt_of_le hlt' (hS ds hds).length_le
      have hnes : ∀ ds ∈ ds0 :: dss, encDirs ds = ds := fun ds hds =>
        encDirs_of_ne_nil ds (fun hnil => by
          have := hlens ds hds
          rw [hnil] at this
          exact absurd this (Nat.not_lt_zero _))
      rcases hend with hend | hend
      · obtain ⟨l, hl, hlen⟩ := hmin'.2
        have : ∃ ds ∈ ds0 :: dss, l = encDirs ds := by
          rcases List.mem_cons.mp hl with h1 | h1
          · exact ⟨ds0, List.mem_cons_self _ _, h1⟩
          · obtain ⟨ds, hds, hd⟩ := List.mem_map.mp h1
            exact ⟨ds, List.mem_cons_of_mem _ hds, hd.symm⟩
        obtain ⟨ds, hds, hd⟩ := this
        rw [hd, hnes ds hds] at hlen
        have := hlens ds hds
        omega
      · apply hend
        intro l hl
        obtain ⟨ds, hds, hd⟩ := List.mem_map.mp hl
        rw [← hd, hnes ds (List.mem_cons_of_mem _ hds), hnes ds0 (List.mem_cons_self _ _),
          getElem?_prefix_eq (hS ds (List.mem_cons_of_mem _ hds)) hlt',
          getElem?_prefix_eq (hS ds0 (List.mem_cons_self _ _)) hlt']

/-- C1: for a non-empty list of paths under `root`, `lowestParent` succeeds
and returns a directory relative to `root` (of ordinary segments, none for
`.`) whose segments are a prefix of the segments of every path's containing
directory relative to `root`, and of which every such common prefix is a
prefix: no deeper directory contains all the files. -/
theorem lowestParent_deepest_common_dir (root : Str) (paths : List Str)
    (hne : paths ≠ []) (hunder : ∀ p ∈ paths, Under root p) :
    ∃ D, lowestParent root paths = .ok D ∧
      (∀ s ∈ dirSegments D, IsName s) ∧
      (∀ p ∈ paths, ∃ rel, Rel root p = .ok rel ∧
        dirSegments D <+: dirSegments (Dir rel)) ∧
      (∀ S : List Str,
        (∀ p ∈ paths, ∃ rel, Rel root p = .ok rel ∧ S <+: dirSegments (Dir rel)) →
        S <+: dirSegments D) := by
  obtain ⟨dirs, hall⟩ := exists_forall₂ (R := HasRelDir root) paths
    (fun p hp => hasRelDir_of_under root p (hunder p hp))
  cases dirs with
  | nil =>
    cases hall
    exact absurd rfl hne
  | cons ds0 dss =>
    obtain ⟨D, hD, hnames, hpre, hmax⟩ := lowestParent_of_dirs root paths ds0 dss hall
    refine ⟨D, hD, hnames, ?_, ?_⟩
    · intro p hp
      obtain ⟨ds, hds, hr⟩ := forall₂_mem_left hall hp
      obtain ⟨rel, hrel, -⟩ := hr.split
      exact ⟨rel, hrel, by rw [hr.segments hrel]; exact hpre ds hds⟩
    · intro S hS
      apply hmax
      intro ds hds
      obtain ⟨p, hp, hr⟩ := forall₂_mem_right hall hds
      obtain ⟨rel, hrel, hpre'⟩ := hS p hp
      rw [hr.segments hrel] at hpre'
      exact hpre'

/-- Witness of C1: under cluster A's expanded root, the files `x/y.yaml` and
`x/z.yaml` have the lowest parent `x`. -/
theorem lowestParent_deepest_common_dir_witness :
    lowestParent Example.expandedA Example.filesA = .ok "x".toList ∧
    ∃ D, lowestParent Example.expandedA Example.filesA = .ok D ∧
      (∀ s ∈ dirSegments D, IsName s) ∧
      (∀ p ∈ Example.filesA, ∃ rel, Rel Example.expandedA p = .ok rel ∧
        dirSegments D <+: dirSegments (Dir rel)) ∧
      (∀ S : List Str,
        (∀ p ∈ Example.filesA, ∃ rel, Rel Example.expandedA p = .ok rel ∧
          S <+: dirSegments (Dir rel)) →
        S <+: dirSegments D) :=
  ⟨by decide,
   lowestParent_deepest_common_dir Example.expandedA Example.filesA (by decide)
    (fun p hp => by
      rcases List.mem_cons.mp hp with h | h
      · rw [h]
        exact ⟨by decide, ["x".toList, "y.yaml".toList], by decide, by decide, by decide⟩
      · rw [List.mem_singleton.mp h]
        exact ⟨by decide, ["x".toList, "z.yaml".toList], by decide, by decide, by decide⟩)⟩

/-! ## `lowestParent` on arbitrary paths -/

/-- The relation the first loop of `lowestParent` establishes between a path
and its entry of `pathDirs`. -/
theorem splitRelDir_of_ok (root path rel : Str) (h : Rel root path = .ok rel) :
    splitRelDir root path = Split (Dir rel) Separator := by
  unfold splitRelDir
  rw [h]

theorem forall₂_splitRelDir (root : Str) (paths : List Str)
    (h : ∀ p ∈ paths, ∃ rel, Rel root p = .ok rel) :
    List.Forall₂ (fun p l => ∃ rel, Rel root p = .ok rel ∧ Split (Dir rel) Separator = l)
      paths (paths.map (splitRelDir root)) := by
  induction paths with
  | nil => exact List.Forall₂.nil
  | cons p rest ih =>
    obtain ⟨rel, hrel⟩ := h p (List.mem_cons_self _ _)
    exact List.Forall₂.cons ⟨rel, hrel, (splitRelDir_of_ok root p rel hrel).symm⟩
      (ih (fun x hx => h x (List.mem_cons_of_mem _ hx)))

/-- With every `filepath.Rel` succeeding, `lowestParent` joins onto `.` the
longest common prefix `L` of the split relative directories. -/
theorem lowestParent_commonPrefix (root : Str) (paths : List Str) (first : List Str)
    (rest : List (List Str))
    (hall : List.Forall₂
      (fun p l => ∃ rel, Rel root p = .ok rel ∧ Split (Dir rel) Separator = l)
      paths (first :: rest)) :
    ∃ L, lowestParent root paths = .ok (L.foldl Join dot) ∧
      (∀ l ∈ first :: rest, L <+: l) ∧
      (∀ S : List Str, (∀ l ∈ first :: rest, S <+: l) → S <+: L) := by
  have hpaths : paths.length ≠ 0 := by
    rw [hall.length_eq]; simp
  obtain ⟨minLen, hdirs, hmin⟩ := relDirsLoop_spec root paths _ hall 0 [] 0
    (Or.inl ⟨rfl, rfl⟩)
  rw [List.nil_append] at hdirs
  have hmin' : MinOf (first :: rest) minLen := by
    have := hmin (Or.inl (by simp))
    simpa using this
  obtain ⟨n, -, hn, hidx, hagree, hend⟩ :=
    commonIndex_spec first rest minLen 0 (fun l hl => by have := hmin'.1 l hl; omega)
  rw [Nat.zero_add] at hn hend
  have hn0 : n ≤ first.length := by
    have := hmin'.1 _ (List.mem_cons_self _ _); omega
  have hjoin := joinLoop_spec first rest n 0 dot (by omega)
  rw [List.drop_zero] at hjoin
  have hres : lowestParent root paths = .ok ((first.take n).foldl Join dot) := by
    unfold lowestParent
    rw [if_neg hpaths, hdirs]
    simp only
    rw [List.range_eq_range']
    have h1 : ((-1 : Int)) = ((0 : Nat) : Int) - 1 := by simp
    rw [h1, hidx]
    simp only
    have h2 : ((n : Int) - 1 + 1).toNat = n := by simp
    rw [h2, List.range_eq_range', hjoin]
  refine ⟨first.take n, hres, ?_, ?_⟩
  · intro l hl
    rcases List.mem_cons.mp hl with h1 | h1
    · rw [h1]; exact List.take_prefix _ _
    · have hlen : n ≤ l.length := by
        have := hmin'.1 l hl; omega
      have heq : first.take n = l.take n := by
        apply List.ext_getElem?
        intro i
        rw [List.getElem?_take, List.getElem?_take]
        by_cases hi : i < n
        · rw [if_pos hi, if_pos hi]
          exact (hagree i (Nat.zero_le _) hi l h1).symm
        · rw [if_neg hi, if_neg hi]
      rw [heq]
      exact List.take_prefix _ _
  · intro S hS
    rw [List.prefix_take_iff]
    refine ⟨hS first (List.mem_cons_self _ _), ?_⟩
    by_contra hlt
    have hlt' : n < S.length := by omega
    have hlens : ∀ l ∈ first :: rest, n < l.length := fun l hl =>
      Nat.lt_of_lt_of_le hlt' (hS l hl).length_le
    rcases hend with hend | hend
    · obtain ⟨l, hl, hlen⟩ := hmin'.2
      have := hlens l hl
      omega
    · apply hend
      intro l hl
      rw [getElem?_prefix_eq (hS l (List.mem_cons_of_mem _ hl)) hlt',
        getElem?_prefix_eq (hS first (List.mem_cons_self _ _)) hlt']

/-- An error of `filepath.Rel` is its relative-path error. -/
theorem Rel_error (basepath targpath : Str) (f : Fault)
    (h : Rel basepath targpath = .error f) : f = relError basepath targpath := by
  unfold Rel at h
  simp only at h
  split_ifs at h <;> (cases h; rfl)

/-- When `filepath.Rel` fails for one of the paths, the first loop returns the
relative-path error of a path of the list. -/
theorem relDirsLoop_of_fail (root : Str) (paths : List Str) (p : Nat)
    (acc : List (List Str) × Nat)
    (h : ∃ q ∈ paths, ∃ f, Rel root q = .error f) :
    ∃ q ∈ paths, relDirsLoop root paths p acc = .error (relError root q) := by
  induction paths generalizing p acc with
  | nil =>
    obtain ⟨q, hq, -⟩ := h
    simp at hq
  | cons x rest ih =>
    obtain ⟨pathDirs, minLen⟩ := acc
    cases hx : Rel root x with
    | error f =>
      refine ⟨x, List.mem_cons_self _ _, ?_⟩
      rw [relDirsLoop, hx, Rel_error root x f hx]
    | ok rel =>
      have hrest : ∃ q ∈ rest, ∃ f, Rel root q = .error f := by
        obtain ⟨q, hq, f, hf⟩ := h
        rcases List.mem_cons.mp hq with h1 | h1
        · rw [h1, hx] at hf; cases hf
        · exact ⟨q, h1, f, hf⟩
      obtain ⟨q, hq, hloop⟩ := ih (p + 1) _ hrest
      refine ⟨q, List.mem_cons_of_mem _ hq, ?_⟩
      rw [relDirsLoop, hx]
      exact hloop

theorem lowestParent_of_fail (root : Str) (paths : List Str)
    (h : ∃ q ∈ paths, ∃ f, Rel root q = .error f) :
    ∃ q ∈ paths, lowestParent root paths = .error (relError root q) := by
  obtain ⟨q, hq, hloop⟩ := relDirsLoop_of_fail root paths 0 ([], 0) h
  refine ⟨q, hq, ?_⟩
  have hne : paths.length ≠ 0 := by
    intro h0
    rw [List.length_eq_zero.mp h0] at hq
    simp at hq
  unfold lowestParent
  rw [if_neg hne, hloop]

/-- Every path either can or cannot be made relative to the root. -/
theorem all_ok_or_fail (root : Str) (paths : List Str) :
    (∀ p ∈ paths, ∃ rel, Rel root p = .ok rel) ∨ ∃ q ∈ paths, ∃ f, Rel root q = .error f := by
  by_cases h : ∀ p ∈ paths, ∃ rel, Rel root p = .ok rel
  · exact Or.inl h
  · right
    push_neg at h
    obtain ⟨q, hq, hno⟩ := h
    cases hr : Rel root q with
    | ok rel => exact absurd hr (hno rel)
    | error f => exact ⟨q, hq, f, hr⟩

/-- The two outcomes of `lowestParent`: a path, or the relative-path error of
one of the paths. -/
theorem lowestParent_no_fault_aux (root : Str) (paths : List Str) :
    (∃ D, lowestParent root paths = .ok D) ∨
      (∃ q ∈ paths, lowestParent root paths = .error (relError root q)) := by
  rcases all_ok_or_fail root paths with hok | hfail
  · left
    cases hp : paths with
    | nil => exact ⟨dot, by simp [lowestParent]⟩
    | cons x rest =>
      have hall := forall₂_splitRelDir root paths hok
      rw [hp, List.map_cons] at hall
      obtain ⟨L, hL, -⟩ := lowestParent_commonPrefix root (x :: rest) _ _ hall
      exact ⟨_, hL⟩
  · exact Or.inr (lowestParent_of_fail root paths hfail)

/-- C11: for every root and every list of paths, `lowestParent` returns a path
or the relative-path error of one of the paths; no slice index it evaluates is
out of range (an index out of range would end the call with the fault
`indexOutOfRange`), and it dereferences no nil value. -/
theorem lowestParent_no_fault (root : Str) (paths : List Str) :
    ((∃ D, lowestParent root paths = .ok D) ∨
      (∃ q ∈ paths, lowestParent root paths = .error (relError root q))) ∧
    lowestParent root paths ≠ .error .indexOutOfRange ∧
    lowestParent root paths ≠ .error .nilDeref := by
  have hcases := lowestParent_no_fault_aux root paths
  refine ⟨hcases, ?_, ?_⟩
  · rcases hcases with ⟨D, hD⟩ | ⟨q, -, hq⟩
    · rw [hD]; intro h; cases h
    · rw [hq]; intro h; cases h
  · rcases hcases with ⟨D, hD⟩ | ⟨q, -, hq⟩
    · rw [hD]; intro h; cases h
    · rw [hq]; intro h; cases h

/-- C12: for every root, `lowestParent` on the empty list returns `.` and no
error. -/
theorem lowestParent_nil (root : Str) : lowestParent root [] = .ok dot := by
  simp [lowestParent]

/-! ## `lowestParent` on files of one directory, and on diverging files -/

theorem prefix_antisymm {a b : List Str} (h1 : a <+: b) (h2 : b <+: a) : a = b :=
  h1.eq_of_length (Nat.le_antisymm h1.length_le h2.length_le)

/-- Joining undoes splitting. -/
theorem JoinStrings_Split (s : Str) (c : Char) : JoinStrings (Split s c) c = s := by
  induction s with
  | nil => rfl
  | cons x xs ih =>
    by_cases hx : x = c
    · rw [hx, Split_cons_sep]
      cases hs : Split xs c with
      | nil => exact absurd hs (Split_ne_nil xs c)
      | cons h t =>
        rw [JoinStrings_cons_cons, ← hs, ih]
        rfl
    · obtain ⟨hd, tl, hs, hs'⟩ := Split_cons_ne x c xs hx
      rw [hs'] 
      rw [hs] at ih
      cases tl with
      | nil =>
        rw [JoinStrings] at ih ⊢
        rw [ih]
      | cons t rest =>
        rw [JoinStrings_cons_cons] at ih ⊢
        rw [List.cons_append, ih]

theorem dirSegments_eq_nil (D : Str) (h : dirSegments D = []) : D = dot := by
  unfold dirSegments at h
  by_cases hd : D = dot
  · exact hd
  · rw [if_neg hd] at h
    exact absurd h (Split_ne_nil D Separator)

/-- A directory string is determined by its segments. -/
theorem eq_of_dirSegments (D : Str) :
    D = if dirSegments D = [] then dot else JoinStrings (dirSegments D) Separator := by
  by_cases h : dirSegments D = []
  · rw [if_pos h]; exact dirSegments_eq_nil D h
  · rw [if_neg h]
    unfold dirSegments at h ⊢
    by_cases hd : D = dot
    · rw [if_pos hd] at h; exact absurd rfl h
    · rw [if_neg hd, JoinStrings_Split]

theorem InDir.under {root path : Str} {ds : List Str} (h : InDir root ds path) :
    Under root path := by
  obtain ⟨hroot, hds, name, hname, hel⟩ := h
  refine ⟨hroot, ds ++ [name], List.append_ne_nil_of_right_ne_nil _ (List.cons_ne_nil _ _),
    ?_, by rw [hel, List.append_assoc]⟩
  intro s hs
  rcases List.mem_append.mp hs with h1 | h1
  · exact hds s h1
  · rw [List.mem_singleton.mp h1]; exact hname

theorem InDir.hasRelDir {root path : Str} {ds : List Str} (h : InDir root ds path) :
    HasRelDir root path ds := by
  obtain ⟨hroot, hds, name, hname, hel⟩ := h
  have hq : ds ++ [name] ≠ [] := List.append_ne_nil_of_right_ne_nil _ (List.cons_ne_nil _ _)
  have hnames : ∀ s ∈ ds ++ [name], IsName s := by
    intro s hs
    rcases List.mem_append.mp hs with h1 | h1
    · exact hds s h1
    · rw [List.mem_singleton.mp h1]; exact hname
  refine ⟨hds, JoinStrings (ds ++ [name]) Separator,
    Rel_of_under root path (ds ++ [name]) hroot hq (by rw [hel, List.append_assoc]), ?_⟩
  rw [Dir_JoinStrings _ hq hnames, List.dropLast_concat]

theorem HasRelDir.unique {root path : Str} {ds ds' : List Str} (h : HasRelDir root path ds)
    (h' : HasRelDir root path ds') : ds = ds' := by
  obtain ⟨rel, hrel, -⟩ := h.split
  rw [← h.segments hrel, ← h'.segments hrel]

theorem forall₂_const {α β : Type} {R : α → β → Prop} (l : List α) (b : β)
    (h : ∀ a ∈ l, R a b) : List.Forall₂ R l (l.map (fun _ => b)) := by
  induction l with
  | nil => exact List.Forall₂.nil
  | cons a rest ih =>
    exact List.Forall₂.cons (h a (List.mem_cons_self _ _))
      (ih (fun x hx => h x (List.mem_cons_of_mem _ hx)))

/-- When every file has the containing directory with segments `ds`,
`lowestParent` returns that directory. -/
theorem lowestParent_inDir (root : Str) (ds : List Str) (paths : List Str)
    (hne : paths ≠ []) (hin : ∀ p ∈ paths, InDir root ds p) :
    lowestParent root paths = .ok (if ds = [] then dot else JoinStrings ds Separator) := by
  have hall := forall₂_const (R := HasRelDir root) paths ds (fun p hp => (hin p hp).hasRelDir)
  cases hp : paths with
  | nil => exact absurd hp hne
  | cons x rest =>
    rw [hp, List.map_cons] at hall
    obtain ⟨D, hD, -, hpre, hmax⟩ := lowestParent_of_dirs root (x :: rest) ds _ hall
    have hseg : dirSegments D = ds := by
      refine prefix_antisymm (hpre ds (List.mem_cons_self _ _)) (hmax ds ?_)
      intro l hl
      rcases List.mem_cons.mp hl with h1 | h1
      · rw [h1]
      · obtain ⟨_, -, h2⟩ := List.mem_map.mp h1
        rw [← h2]
    rw [hD, eq_of_dirSegments D, hseg]

theorem Clean_congr (a b : Str) (hr : isRooted a = isRooted b)
    (he : cleanElems a = cleanElems b) : Clean a = Clean b := by
  unfold Clean
  rw [hr, he]

/-- C13: for a non-empty list of files that all lie in `root` itself (no
directory between `root` and the file), `lowestParent` returns `.`. -/
theorem lowestParent_files_in_root (root : Str) (paths : List Str) (hne : paths ≠ [])
    (hin : ∀ p ∈ paths, InDir root [] p) : lowestParent root paths = .ok dot := by
  rw [lowestParent_inDir root [] paths hne hin, if_pos rfl]

/-- Witness of C13: two files in cluster A's expanded root itself. -/
theorem lowestParent_files_in_root_witness :
    Example.filesInRoot ≠ [] ∧ lowestParent Example.expandedA Example.filesInRoot = .ok dot :=
  ⟨by decide,
   lowestParent_files_in_root Example.expandedA Example.filesInRoot (by decide)
    (fun p hp => by
      rcases List.mem_cons.mp hp with h | h
      · rw [h]
        exact ⟨by decide, by decide, "y.yaml".toList, by decide, by decide⟩
      · rw [List.mem_singleton.mp h]
        exact ⟨by decide, by decide, "r.yaml".toList, by decide, by decide⟩)⟩

/-- C14: when `D` is the directory with the ordinary segments `ds` under `root`
(`ds` empty: `root` itself) and every file of a non-empty list has `D` as its
containing directory, `lowestParent` returns `D` expressed relative to `root`,
which is `.` when `ds` is empty and the join of `ds` otherwise. -/
theorem lowestParent_same_dir (root D : Str) (ds : List Str) (paths : List Str)
    (hroot : isRooted root = isRooted D) (hD : cleanElems D = cleanElems root ++ ds)
    (hne : paths ≠ []) (hin : ∀ p ∈ paths, InDir root ds p) :
    lowestParent root paths = Rel root D ∧
    Rel root D = .ok (if ds = [] then dot else JoinStrings ds Separator) := by
  have hrel : Rel root D = .ok (if ds = [] then dot else JoinStrings ds Separator) := by
    by_cases hds : ds = []
    · rw [if_pos hds]
      have hc : Clean D = Clean root :=
        Clean_congr D root hroot.symm (by rw [hD, hds, List.append_nil])
      unfold Rel
      simp only
      rw [if_pos hc]
    · rw [if_neg hds]
      exact Rel_of_under root D ds hroot hds hD
  exact ⟨(lowestParent_inDir root ds paths hne hin).trans hrel.symm, hrel⟩

/-- Witness of C14: under cluster A's expanded root, the files `x/y.yaml` and
`x/z.yaml` of the directory `x` give `x`. -/
theorem lowestParent_same_dir_witness :
    lowestParent Example.expandedA Example.filesA = .ok "x".toList ∧
    lowestParent Example.expandedA Example.filesA =
      Rel Example.expandedA "clusters/a/expanded/x".toList ∧
    Rel Example.expandedA "clusters/a/expanded/x".toList =
      .ok (if ["x".toList] = [] then dot else JoinStrings ["x".toList] Separator) :=
  ⟨by decide,
   lowestParent_same_dir Example.expandedA "clusters/a/expanded/x".toList ["x".toList]
    Example.filesA (by decide) (by decide) (by decide)
    (fun p hp => by
      rcases List.mem_cons.mp hp with h | h
      · rw [h]
        exact ⟨by decide, by decide, "y.yaml".toList, by decide, by decide⟩
      · rw [List.mem_singleton.mp h]
        exact ⟨by decide, by decide, "z.yaml".toList, by decide, by decide⟩)⟩

/-- C15: for a list of files under `root` that holds two files whose relative
directories differ in their first segment (one of them may have none),
`lowestParent` returns `.`. -/
theorem lowestParent_diverging (root : Str) (paths : List Str) (p₁ p₂ : Str)
    (ds₁ ds₂ : List Str) (hunder : ∀ p ∈ paths, Under root p)
    (h₁ : p₁ ∈ paths) (h₂ : p₂ ∈ paths) (hd₁ : InDir root ds₁ p₁) (hd₂ : InDir root ds₂ p₂)
    (hdiff : ds₁.head? ≠ ds₂.head?) : lowestParent root paths = .ok dot := by
  obtain ⟨dirs, hall⟩ := exists_forall₂ (R := HasRelDir root) paths
    (fun p hp => hasRelDir_of_under root p (hunder p hp))
  cases dirs with
  | nil =>
    cases hall
    simp at h₁
  | cons ds0 dss =>
    obtain ⟨D, hD, -, hpre, -⟩ := lowestParent_of_dirs root paths ds0 dss hall
    have hp₁ : dirSegments D <+: ds₁ := by
      obtain ⟨ds, hds, hr⟩ := forall₂_mem_left hall h₁
      rw [← hr.unique hd₁.hasRelDir]
      exact hpre ds hds
    have hp₂ : dirSegments D <+: ds₂ := by
      obtain ⟨ds, hds, hr⟩ := forall₂_mem_left hall h₂
      rw [← hr.unique hd₂.hasRelDir]
      exact hpre ds hds
    have hnil : dirSegments D = [] := by
      cases hseg : dirSegments D with
      | nil => rfl
      | cons x xs =>
        exfalso
        rw [hseg] at hp₁ hp₂
        obtain ⟨t₁, ht₁⟩ := hp₁
        obtain ⟨t₂, ht₂⟩ := hp₂
        apply hdiff
        rw [← ht₁, ← ht₂]
        rfl
    rw [hD, dirSegments_eq_nil D hnil]

/-- Witness of C15: under cluster A's expanded root, the files `x/y.yaml` and
`q/r.yaml` give `.`. -/
theorem lowestParent_diverging_witness :
    (["x".toList] : List Str).head? ≠ (["q".toList] : List Str).head? ∧
    lowestParent Example.expandedA Example.filesDiverging = .ok dot :=
  ⟨by decide,
   lowestParent_diverging Example.expandedA Example.filesDiverging
    "clusters/a/expanded/x/y.yaml".toList "clusters/a/expanded/q/r.yaml".toList
    ["x".toList] ["q".toList]
    (fun p hp => by
      rcases List.mem_cons.mp hp with h | h
      · rw [h]
        exact ⟨by decide, ["x".toList, "y.yaml".toList], by decide, by decide, by decide⟩
      · rw [List.mem_singleton.mp h]
        exact ⟨by decide, ["q".toList, "r.yaml".toList], by decide, by decide, by decide⟩)
    (by decide) (by decide)
    ⟨by decide, by decide, "y.yaml".toList, by decide, by decide⟩
    ⟨by decide, by decide, "r.yaml".toList, by decide, by decide⟩
    (by decide)⟩

/-! ## `lowestParent` and the order of the paths -/

theorem lowestParent_ok_all (root : Str) (paths : List Str) (D : Str)
    (h : lowestParent root paths = .ok D) : ∀ p ∈ paths, ∃ rel, Rel root p = .ok rel := by
  rcases all_ok_or_fail root paths with hok | hfail
  · exact hok
  · obtain ⟨q, -, hq⟩ := lowestParent_of_fail root paths hfail
    rw [hq] at h
    cases h

theorem lowestParent_of_perm (root : Str) (l₁ l₂ : List Str) (h : l₁.Perm l₂) (D : Str)
    (hD : lowestParent root l₁ = .ok D) : lowestParent root l₂ = .ok D := by
  have hok₁ := lowestParent_ok_all root l₁ D hD
  have hok₂ : ∀ p ∈ l₂, ∃ rel, Rel root p = .ok rel := fun p hp => hok₁ p (h.mem_iff.mpr hp)
  have hmem : ∀ l, l ∈ l₁.map (splitRelDir root) ↔ l ∈ l₂.map (splitRelDir root) :=
    fun l => (h.map (splitRelDir root)).mem_iff
  cases h₁ : l₁ with
  | nil =>
    rw [h₁] at h hD
    rw [List.nil_perm.mp h]
    exact hD
  | cons x r =>
    cases h₂ : l₂ with
    | nil =>
      rw [h₂] at h
      rw [List.perm_nil.mp h] at h₁
      cases h₁
    | cons y r' =>
      have hall₁ := forall₂_splitRelDir root l₁ hok₁
      have hall₂ := forall₂_splitRelDir root l₂ hok₂
      rw [h₁, h₂] at hmem
      rw [h₁, List.map_cons] at hall₁
      rw [h₂, List.map_cons] at hall₂
      obtain ⟨L₁, hL₁, hpre₁, hmax₁⟩ := lowestParent_commonPrefix root (x :: r) _ _ hall₁
      obtain ⟨L₂, hL₂, hpre₂, hmax₂⟩ := lowestParent_commonPrefix root (y :: r') _ _ hall₂
      have hL : L₁ = L₂ := by
        refine prefix_antisymm (hmax₂ L₁ ?_) (hmax₁ L₂ ?_)
        · intro l hl
          exact hpre₁ l ((hmem l).mpr (by rw [List.map_cons]; exact hl))
        · intro l hl
          exact hpre₂ l (by
            have := (hmem l).mp (by rw [List.map_cons]; exact hl)
            rw [List.map_cons] at this
            exact this)
      rw [h₁, hL₁] at hD
      rw [hL₂, ← hL]
      exact hD

/-- With every path made relative to the root, `lowestParent` returns a
path. -/
theorem lowestParent_ok_of_all (root : Str) (paths : List Str)
    (hok : ∀ p ∈ paths, ∃ rel, Rel root p = .ok rel) : ∃ D, lowestParent root paths = .ok D := by
  rcases lowestParent_no_fault_aux root paths with hD | ⟨q, hq, herr⟩
  · exact hD
  · exfalso
    obtain ⟨D, hD⟩ : ∃ D, lowestParent root paths = .ok D := by
      cases hp : paths with
      | nil => exact ⟨dot, by simp [lowestParent]⟩
      | cons x rest =>
        have hall := forall₂_splitRelDir root paths hok
        rw [hp, List.map_cons] at hall
        obtain ⟨L, hL, -⟩ := lowestParent_commonPrefix root (x :: rest) _ _ hall
        exact ⟨_, hL⟩
    rw [hD] at herr
    cases herr

/-- The first loop returns at the first path that `filepath.Rel` cannot make
relative to the root, with the error of that call. -/
theorem relDirsLoop_first_fail (root : Str) (pre : List Str) (q : Str) (post : List Str)
    (p : Nat) (acc : List (List Str) × Nat) (f : Fault)
    (hpre : ∀ x ∈ pre, ∃ rel, Rel root x = .ok rel) (hq : Rel root q = .error f) :
    relDirsLoop root (pre ++ q :: post) p acc = .error f := by
  induction pre generalizing p acc with
  | nil =>
    obtain ⟨pathDirs, minLen⟩ := acc
    rw [List.nil_append, relDirsLoop, hq]
  | cons x rest ih =>
    obtain ⟨pathDirs, minLen⟩ := acc
    obtain ⟨rel, hrel⟩ := hpre x (List.mem_cons_self _ _)
    rw [List.cons_append, relDirsLoop, hrel]
    exact ih _ _ (fun y hy => hpre y (List.mem_cons_of_mem _ hy))

/-- When some path cannot be made relative to the root, `lowestParent` returns
the error of `filepath.Rel` for the first such path in the order of the list,
which names that path. -/
theorem lowestParent_first_fail (root : Str) (pre : List Str) (q : Str) (post : List Str)
    (f : Fault) (hpre : ∀ x ∈ pre, ∃ rel, Rel root x = .ok rel) (hq : Rel root q = .error f) :
    lowestParent root (pre ++ q :: post) = .error f ∧ f = relError root q := by
  refine ⟨?_, Rel_error root q f hq⟩
  unfold lowestParent
  rw [if_neg (by simp), relDirsLoop_first_fail root pre q post 0 ([], 0) f hpre hq]

/-- A list with a path that cannot be made relative to the root splits at the
first such path. -/
theorem exists_first_fail (root : Str) (paths : List Str)
    (h : ∃ q ∈ paths, ∃ f, Rel root q = .error f) :
    ∃ pre q post f, paths = pre ++ q :: post ∧
      (∀ x ∈ pre, ∃ rel, Rel root x = .ok rel) ∧ Rel root q = .error f := by
  induction paths with
  | nil =>
    obtain ⟨q, hq, -⟩ := h
    simp at hq
  | cons x rest ih =>
    cases hx : Rel root x with
    | error f => exact ⟨[], x, rest, f, rfl, fun y hy => by simp at hy, hx⟩
    | ok rel =>
      have hrest : ∃ q ∈ rest, ∃ f, Rel root q = .error f := by
        obtain ⟨q, hq, f, hf⟩ := h
        rcases List.mem_cons.mp hq with h1 | h1
        · rw [h1, hx] at hf; cases hf
        · exact ⟨q, h1, f, hf⟩
      obtain ⟨pre, q, post, f, hsplit, hpre, hq⟩ := ih hrest
      refine ⟨x :: pre, q, post, f, by rw [hsplit]; rfl, ?_, hq⟩
      intro y hy
      rcases List.mem_cons.mp hy with h1 | h1
      · rw [h1]; exact ⟨rel, hx⟩
      · exact hpre y h1

/-- An error of `lowestParent` is the error of `filepath.Rel` for the first
path of the list that cannot be made relative to the root. -/
theorem lowestParent_error_first (root : Str) (paths : List Str) (f : Fault)
    (h : lowestParent root paths = .error f) :
    ∃ pre q post, paths = pre ++ q :: post ∧
      (∀ x ∈ pre, ∃ rel, Rel root x = .ok rel) ∧ Rel root q = .error f ∧
      f = relError root q := by
  rcases all_ok_or_fail root paths with hok | hfail
  · obtain ⟨D, hD⟩ := lowestParent_ok_of_all root paths hok
    rw [hD] at h
    cases h
  · obtain ⟨pre, q, post, g, hsplit, hpre, hq⟩ := exists_first_fail root paths hfail
    have hfirst := lowestParent_first_fail root pre q post g hpre hq
    rw [← hsplit, h] at hfirst
    have hfg : f = g := by
      have := hfirst.1
      simp only [Except.error.injEq] at this
      exact this
    exact ⟨pre, q, post, hsplit, hpre, by rw [hfg]; exact hq, by rw [hfg]; exact hfirst.2⟩

/-- C18: `lowestParent` does not depend on the order of its paths. For two lists
of paths that are permutations of each other, what the call returns as path is
the same (`Except.toOption`: the path, or nothing when the call returns an
error), so it returns a path `D` on the one list exactly when it returns `D` on
the other, and it returns an error on the one exactly when it does on the
other. When every path can be made relative to the root, which is when the
loops over the split directories run, the two results are equal. (An error is
returned before these loops, by the loop over the paths: it is the error of
`filepath.Rel` for the first path that cannot be made relative to the root,
see `lowestParent_error_first`.) -/
theorem lowestParent_perm (root : Str) (l₁ l₂ : List Str) (h : l₁.Perm l₂) :
    (lowestParent root l₁).toOption = (lowestParent root l₂).toOption ∧
    (∀ D, lowestParent root l₁ = .ok D ↔ lowestParent root l₂ = .ok D) ∧
    ((∃ e, lowestParent root l₁ = .error e) ↔ (∃ e, lowestParent root l₂ = .error e)) ∧
    ((∀ p ∈ l₁, ∃ rel, Rel root p = .ok rel) →
      lowestParent root l₁ = lowestParent root l₂) := by
  have hiff : ∀ D, lowestParent root l₁ = .ok D ↔ lowestParent root l₂ = .ok D :=
    fun D => ⟨lowestParent_of_perm root l₁ l₂ h D, lowestParent_of_perm root l₂ l₁ h.symm D⟩
  have herr : (∃ e, lowestParent root l₁ = .error e) ↔
      (∃ e, lowestParent root l₂ = .error e) := by
    constructor
    · rintro ⟨e, he⟩
      cases h₂ : lowestParent root l₂ with
      | error e₂ => exact ⟨e₂, rfl⟩
      | ok D =>
        rw [(hiff D).mpr h₂] at he
        cases he
    · rintro ⟨e, he⟩
      cases h₁ : lowestParent root l₁ with
      | error e₁ => exact ⟨e₁, rfl⟩
      | ok D =>
        rw [(hiff D).mp h₁] at he
        cases he
  refine ⟨?_, hiff, herr, ?_⟩
  · cases h₁ : lowestParent root l₁ with
    | ok D => rw [(hiff D).mp h₁]
    | error e =>
      obtain ⟨e₂, he₂⟩ := herr.mp ⟨e, h₁⟩
      rw [he₂]
      rfl
  · intro hok
    obtain ⟨D, hD⟩ := lowestParent_ok_of_all root l₁ hok
    rw [hD, (hiff D).mp hD]

/-- Witness of C18: the files of cluster A in both orders give `x`. -/
theorem lowestParent_perm_witness :
    (lowestParent Example.expandedA Example.filesA = .ok "x".toList ∧
      lowestParent Example.expandedA Example.filesA.reverse = .ok "x".toList) ∧
    (lowestParent Example.expandedA Example.filesA).toOption =
      (lowestParent Example.expandedA Example.filesA.reverse).toOption ∧
    (∀ D, lowestParent Example.expandedA Example.filesA = .ok D ↔
      lowestParent Example.expandedA Example.filesA.reverse = .ok D) ∧
    ((∃ e, lowestParent Example.expandedA Example.filesA = .error e) ↔
      (∃ e, lowestParent Example.expandedA Example.filesA.reverse = .error e)) ∧
    ((∀ p ∈ Example.filesA, ∃ rel, Rel Example.expandedA p = .ok rel) →
      lowestParent Example.expandedA Example.filesA =
        lowestParent Example.expandedA Example.filesA.reverse) :=
  ⟨⟨by decide, by decide⟩,
   lowestParent_perm Example.expandedA Example.filesA Example.filesA.reverse
    (List.reverse_perm _).symm⟩

/-- Two rooted paths cannot be made relative to a relative root: in either
order the call returns no path and the error of `filepath.Rel` for the path
that comes first. -/
theorem lowestParent_outside_example :
    lowestParent Example.expandedA Example.filesOutside =
      .error (relError Example.expandedA "/x/f.yaml".toList) ∧
    lowestParent Example.expandedA Example.filesOutside.reverse =
      .error (relError Example.expandedA "/y/g.yaml".toList) ∧
    (lowestParent Example.expandedA Example.filesOutside).toOption =
      (lowestParent Example.expandedA Example.filesOutside.reverse).toOption :=
  ⟨by decide, by decide, by decide⟩

/-! ## The accumulator and the order of the map loops -/

theorem resolve_eq (w : World) (repoRoot : Str) (diffs : List CommitFile)
    (subpathOverride : Str) (d : Discovery) :
    resolve w repoRoot diffs subpathOverride d =
      match collectClusters repoRoot subpathOverride d.configsMap
          (w.rangeChanged.range (changedAfter w diffs d).entries) [] with
      | .error e => .error e
      | .ok changedClusters => .ok (w.sortSlice.sort changedClusters) := rfl

theorem changedAfter_nodupKeys (w : World) (diffs : List CommitFile) (d : Discovery)
    (hc : d.changedClusterPaths.NodupKeys) : (changedAfter w diffs d).NodupKeys :=
  addDiffs_nodupKeys _ _ _ hc

theorem changedAfter_get? (w : World) (diffs : List CommitFile) (d : Discovery)
    (hf : d.configFilesMap.NodupKeys) (k : Str) :
    (changedAfter w diffs d).get? k = changedEntry d diffs k :=
  changed_get? _ _ hf _ _ k

/-- The entries the subpath loop visits are those of `changedEntry`, whatever
the orders of the map loops. -/
theorem mem_range_changedAfter (w : World) (diffs : List CommitFile) (d : Discovery)
    (hf : d.configFilesMap.NodupKeys) (hc : d.changedClusterPaths.NodupKeys)
    (k : Str) (fl : List Str) :
    (k, fl) ∈ w.rangeChanged.range (changedAfter w diffs d).entries ↔
      changedEntry d diffs k = some fl := by
  rw [(w.rangeChanged.perm _).mem_iff,
    GoMap.mem_entries_iff (changedAfter_nodupKeys w diffs d hc), changedAfter_get? w diffs d hf]

theorem nodup_range_changedAfter (w : World) (diffs : List CommitFile) (d : Discovery)
    (hc : d.changedClusterPaths.NodupKeys) :
    (w.rangeChanged.range (changedAfter w diffs d).entries).Nodup := by
  have h1 : ((changedAfter w diffs d).entries.map Prod.fst).Nodup :=
    changedAfter_nodupKeys w diffs d hc
  exact ((w.rangeChanged.perm _).nodup_iff).mpr (List.Nodup.of_map _ h1)

/-- Every key of the accumulator is a key of `configsMap`. -/
theorem changedEntry_discovered (env : Str) (selected : List Str) (d : Discovery)
    (inv : DiscoveryInv env selected d) (diffs : List CommitFile) (k : Str) (fl : List Str)
    (h : changedEntry d diffs k = some fl) : ∃ cfg, d.configsMap.get? k = some cfg := by
  cases hk : d.configsMap.get? k with
  | some cfg => exact ⟨cfg, rfl⟩
  | none =>
    exfalso
    have hfiles : d.configFilesMap.get? k = none := by
      have := inv.files k
      rw [hk] at this
      cases hf : d.configFilesMap.get? k with
      | none => rfl
      | some v => rw [hf] at this; cases this
    unfold changedEntry at h
    rw [inv.seeded k, hk, hfiles] at h
    simp [attributed, grow] at h

theorem setSubpath_error (repoRoot subpathOverride : Str) (configsMap : GoMap ClusterConfig)
    (entry : Str × List Str) (cfg : ClusterConfig) (f : Fault)
    (hcfg : configsMap.get? entry.1 = some cfg)
    (h : setSubpath repoRoot subpathOverride configsMap entry = .error f) :
    ∃ msg, f = .error msg := by
  unfold setSubpath at h
  rw [hcfg] at h
  simp only at h
  split at h
  · cases h
  · cases hrel : Rel repoRoot cfg.ExpandedPath with
    | error e =>
      rw [hrel] at h
      simp only [Except.error.injEq] at h
      rw [← h, Rel_error _ _ e hrel]
      exact ⟨_, rfl⟩
    | ok rel =>
      rw [hrel] at h
      simp only at h
      rcases lowestParent_no_fault_aux rel entry.2 with ⟨D, hD⟩ | ⟨q, -, hq⟩
      · rw [hD] at h; cases h
      · rw [hq] at h
        simp only [Except.error.injEq] at h
        rw [← h]
        exact ⟨_, rfl⟩

theorem collectClusters_error (repoRoot subpathOverride : Str)
    (configsMap : GoMap ClusterConfig) (entries : List (Str × List Str))
    (acc : List ClusterConfig) (f : Fault)
    (h : collectClusters repoRoot subpathOverride configsMap entries acc = .error f) :
    ∃ e ∈ entries, setSubpath repoRoot subpathOverride configsMap e = .error f := by
  induction entries generalizing acc with
  | nil => simp [collectClusters] at h
  | cons e rest ih =>
    simp only [collectClusters] at h
    cases hs : setSubpath repoRoot subpathOverride configsMap e with
    | error x =>
      rw [hs] at h
      simp only [Except.error.injEq] at h
      exact ⟨e, List.mem_cons_self _ _, by rw [hs, h]⟩
    | ok c =>
      rw [hs] at h
      obtain ⟨e', he', hf⟩ := ih _ h
      exact ⟨e', List.mem_cons_of_mem _ he', hf⟩

theorem collectClusters_of_all_ok (repoRoot subpathOverride : Str)
    (configsMap : GoMap ClusterConfig) (entries : List (Str × List Str))
    (acc : List ClusterConfig)
    (h : ∀ e ∈ entries, ∃ c, setSubpath repoRoot subpathOverride configsMap e = .ok c) :
    ∃ cs, collectClusters repoRoot subpathOverride configsMap entries acc = .ok cs := by
  cases hc : collectClusters repoRoot subpathOverride configsMap entries acc with
  | ok cs => exact ⟨cs, rfl⟩
  | error f =>
    obtain ⟨e, he, hf⟩ := collectClusters_error _ _ _ _ _ _ hc
    obtain ⟨c, hc'⟩ := h e he
    rw [hc'] at hf
    cases hf

/-- C20: after a successful repository walk, every key of the accumulator
`changedClusterPaths` at the start of the subpath loop is a key of
`configsMap`; so the lookup `configsMap[clusterPath]` in the loop never gives
the nil pointer, and neither the loop body nor the rest of the call ends with a
nil dereference. -/
theorem changed_keys_in_configsMap (w : World) (repoRoot : Str) (diffs : List CommitFile)
    (env : Str) (selected : List Str) (d : Discovery)
    (hd : discover w.fs repoRoot env selected = .ok d) :
    (∀ e ∈ (changedAfter w diffs d).entries, ∃ cfg, d.configsMap.get? e.1 = some cfg) ∧
    (∀ subpathOverride, ∀ e ∈ w.rangeChanged.range (changedAfter w diffs d).entries,
      setSubpath repoRoot subpathOverride d.configsMap e ≠ .error .nilDeref) ∧
    (∀ subpathOverride, resolve w repoRoot diffs subpathOverride d ≠ .error .nilDeref) := by
  have inv := discoverVisits_inv _ _ _ _ _ _ hd
  have hkeys : ∀ e ∈ (changedAfter w diffs d).entries,
      ∃ cfg, d.configsMap.get? e.1 = some cfg := by
    intro e he
    have hget := GoMap.get?_of_mem (changedAfter_nodupKeys w diffs d inv.nodupChanged) he
    rw [changedAfter_get? w diffs d inv.nodupFiles] at hget
    exact changedEntry_discovered env selected d inv diffs e.1 e.2 hget
  have hbody : ∀ subpathOverride, ∀ e ∈ w.rangeChanged.range (changedAfter w diffs d).entries,
      setSubpath repoRoot subpathOverride d.configsMap e ≠ .error .nilDeref := by
    intro o e he hnil
    obtain ⟨cfg, hcfg⟩ := hkeys e ((w.rangeChanged.perm _).mem_iff.mp he)
    obtain ⟨msg, hmsg⟩ := setSubpath_error _ _ _ _ cfg _ hcfg hnil
    cases hmsg
  refine ⟨hkeys, hbody, ?_⟩
  intro o hnil
  rw [resolve_eq] at hnil
  cases hc : collectClusters repoRoot o d.configsMap
      (w.rangeChanged.range (changedAfter w diffs d).entries) [] with
  | ok cs => rw [hc] at hnil; cases hnil
  | error f =>
    rw [hc] at hnil
    simp only [Except.error.injEq] at hnil
    obtain ⟨e, he, hf⟩ := collectClusters_error _ _ _ _ _ _ hc
    rw [hnil] at hf
    exact hbody o e he hf

/-- Witness of C20 on the example repository. -/
theorem changed_keys_in_configsMap_witness :
    discover Example.world.fs Example.repo [] [] = .ok Example.discovery ∧
    (∀ e ∈ (changedAfter Example.world [Example.diffY] Example.discovery).entries,
      ∃ cfg, Example.discovery.configsMap.get? e.1 = some cfg) ∧
    (∀ subpathOverride,
      ∀ e ∈ Example.world.rangeChanged.range
        (changedAfter Example.world [Example.diffY] Example.discovery).entries,
      setSubpath Example.repo subpathOverride Example.discovery.configsMap e ≠
        .error .nilDeref) ∧
    (∀ subpathOverride,
      resolve Example.world Example.repo [Example.diffY] subpathOverride Example.discovery ≠
        .error .nilDeref) :=
  ⟨by rfl,
   changed_keys_in_configsMap Example.world Example.repo [Example.diffY] [] []
    Example.discovery (by rfl)⟩

theorem subpathResult_of_ok (repoRoot subpathOverride : Str) (configsMap : GoMap ClusterConfig)
    (entry : Str × List Str) (c : ClusterConfig)
    (h : setSubpath repoRoot subpathOverride configsMap entry = .ok c) :
    subpathResult repoRoot subpathOverride configsMap entry = c := by
  unfold subpathResult
  rw [h]

theorem forall₂_subpathResult (repoRoot subpathOverride : Str)
    (configsMap : GoMap ClusterConfig) (entries : List (Str × List Str))
    (cs : List ClusterConfig)
    (h : List.Forall₂ (fun e c => setSubpath repoRoot subpathOverride configsMap e = .ok c)
      entries cs) :
    cs = entries.map (subpathResult repoRoot subpathOverride configsMap) := by
  have := forall₂_map_eq (f := subpathResult repoRoot subpathOverride configsMap)
    (g := fun c => c) h
    (fun e c hec => (subpathResult_of_ok _ _ _ _ _ hec).symm)
  rw [List.map_id'] at this
  exact this

/-- What a successful end of the call returns: the configs of the accumulator
entries with their subpaths set, as a list without repetition of `RelPath()`,
ascending. -/
theorem resolve_sorted_perm (w : World) (repoRoot : Str) (diffs : List CommitFile)
    (env : Str) (selected : List Str) (subpathOverride : Str) (d : Discovery)
    (res : List ClusterConfig)
    (hload : LoaderContract w.fs repoRoot)
    (hd : discover w.fs repoRoot env selected = .ok d)
    (h : resolve w repoRoot diffs subpathOverride d = .ok res) :
    res.Perm ((w.rangeChanged.range (changedAfter w diffs d).entries).map
      (subpathResult repoRoot subpathOverride d.configsMap)) ∧
    List.Sorted (fun a b : ClusterConfig => a.RelPath < b.RelPath) res := by
  obtain ⟨-, -, hsorted, hnd⟩ := covered_spec w repoRoot diffs env selected _ d res hd h
  have hne : res.Pairwise (fun a b => a.RelPath ≠ b.RelPath) :=
    List.pairwise_map.mp (hnd hload)
  refine ⟨?_, List.Pairwise.imp₂ (fun a b h1 h2 => lt_of_le_of_ne (not_lt.mp h1) h2)
    hsorted hne⟩
  rw [resolve_eq] at h
  cases hc : collectClusters repoRoot subpathOverride d.configsMap
      (w.rangeChanged.range (changedAfter w diffs d).entries) [] with
  | error f => rw [hc] at h; cases h
  | ok cs =>
    rw [hc] at h
    simp only [Except.ok.injEq] at h
    obtain ⟨cs', hcs', hall⟩ := collectClusters_ok _ _ _ _ _ _ hc
    rw [List.nil_append] at hcs'
    subst hcs'
    rw [← forall₂_subpathResult _ _ _ _ _ hall, ← h]
    exact w.sortSlice.perm cs

/-- A successful call gives the same list in a world that differs in the orders
of the map loops and in the outcome of `sort.Slice`. -/
theorem covered_of_other_order (w₁ w₂ : World) (repoRoot : Str) (diffs : List CommitFile)
    (env : Str) (selected : List Str) (subpathOverride : Str) (res : List ClusterConfig)
    (hfs : w₁.fs = w₂.fs) (hload : LoaderContract w₁.fs repoRoot)
    (h : GetCoveredClusters w₁ repoRoot diffs env selected subpathOverride = .ok res) :
    GetCoveredClusters w₂ repoRoot diffs env selected subpathOverride = .ok res := by
  obtain ⟨d, hd, hr⟩ := getCoveredClusters_ok _ _ _ _ _ _ _ h
  have hd₂ : discover w₂.fs repoRoot env selected = .ok d := by rw [← hfs]; exact hd
  have hload₂ : LoaderContract w₂.fs repoRoot := by rw [← hfs]; exact hload
  have inv := discoverVisits_inv _ _ _ _ _ _ hd
  have hmem : ∀ e, e ∈ w₁.rangeChanged.range (changedAfter w₁ diffs d).entries ↔
      e ∈ w₂.rangeChanged.range (changedAfter w₂ diffs d).entries := by
    intro e
    obtain ⟨k, fl⟩ := e
    rw [mem_range_changedAfter w₁ diffs d inv.nodupFiles inv.nodupChanged,
      mem_range_changedAfter w₂ diffs d inv.nodupFiles inv.nodupChanged]
  have hperm : (w₁.rangeChanged.range (changedAfter w₁ diffs d).entries).Perm
      (w₂.rangeChanged.range (changedAfter w₂ diffs d).entries) :=
    (List.perm_ext_iff_of_nodup (nodup_range_changedAfter w₁ diffs d inv.nodupChanged)
      (nodup_range_changedAfter w₂ diffs d inv.nodupChanged)).mpr hmem
  -- the subpath loop succeeds on every entry, in either order
  have hall₁ : ∀ e ∈ w₁.rangeChanged.range (changedAfter w₁ diffs d).entries,
      ∃ c, setSubpath repoRoot subpathOverride d.configsMap e = .ok c := by
    intro e he
    rw [resolve_eq] at hr
    cases hc : collectClusters repoRoot subpathOverride d.configsMap
        (w₁.rangeChanged.range (changedAfter w₁ diffs d).entries) [] with
    | error f => rw [hc] at hr; cases hr
    | ok cs =>
      obtain ⟨cs', -, hall⟩ := collectClusters_ok _ _ _ _ _ _ hc
      obtain ⟨c, -, hc'⟩ := forall₂_mem_left hall he
      exact ⟨c, hc'⟩
  obtain ⟨cs₂, hcs₂⟩ := collectClusters_of_all_ok repoRoot subpathOverride d.configsMap
    (w₂.rangeChanged.range (changedAfter w₂ diffs d).entries) []
    (fun e he => hall₁ e ((hmem e).mpr he))
  have hr₂ : resolve w₂ repoRoot diffs subpathOverride d = .ok (w₂.sortSlice.sort cs₂) := by
    rw [resolve_eq, hcs₂]
  obtain ⟨hp₁, hs₁⟩ := resolve_sorted_perm w₁ repoRoot diffs env selected subpathOverride d
    res hload hd hr
  obtain ⟨hp₂, hs₂⟩ := resolve_sorted_perm w₂ repoRoot diffs env selected subpathOverride d
    _ hload₂ hd₂ hr₂
  have hres : res.Perm (w₂.sortSlice.sort cs₂) :=
    hp₁.trans ((hperm.map _).trans hp₂.symm)
  haveI : IsAntisymm ClusterConfig (fun a b => a.RelPath < b.RelPath) :=
    ⟨fun a b h1 h2 => absurd h2 (lt_asymm h1)⟩
  have heq := List.eq_of_perm_of_sorted hres hs₁ hs₂
  unfold GetCoveredClusters coveredFromVisits
  have hd₂' : discoverVisits w₂.fs repoRoot env selected (w₂.fs.Walk repoRoot) = .ok d := hd₂
  rw [hd₂']
  simp only
  rw [hr₂, heq]

/-- C19: for a fixed file system and diff list, under the loader contract, the
list `GetCoveredClusters` returns does not depend on the orders in which the two
`range` loops visit `configFilesMap` and `changedClusterPaths` (nor on the
outcome of the unstable sort): a world returns a list exactly when every other
world over the same file system returns that list, with the same clusters, the
same order and the same subpaths; so the calls also fail together. -/
theorem covered_order_independent (w₁ w₂ : World) (repoRoot : Str)
    (diffs : List CommitFile) (env : Str) (selected : List Str) (subpathOverride : Str)
    (hfs : w₁.fs = w₂.fs) (hload : LoaderContract w₁.fs repoRoot) :
    (∀ res, GetCoveredClusters w₁ repoRoot diffs env selected subpathOverride = .ok res ↔
      GetCoveredClusters w₂ repoRoot diffs env selected subpathOverride = .ok res) ∧
    ((∃ f, GetCoveredClusters w₁ repoRoot diffs env selected subpathOverride = .error f) ↔
      (∃ f, GetCoveredClusters w₂ repoRoot diffs env selected subpathOverride = .error f)) := by
  have hiff : ∀ res,
      GetCoveredClusters w₁ repoRoot diffs env selected subpathOverride = .ok res ↔
      GetCoveredClusters w₂ repoRoot diffs env selected subpathOverride = .ok res :=
    fun res => ⟨covered_of_other_order w₁ w₂ _ _ _ _ _ res hfs hload,
      covered_of_other_order w₂ w₁ _ _ _ _ _ res hfs.symm (by rw [← hfs]; exact hload)⟩
  refine ⟨hiff, ?_⟩
  constructor
  · rintro ⟨f, hf⟩
    cases h₂ : GetCoveredClusters w₂ repoRoot diffs env selected subpathOverride with
    | error f₂ => exact ⟨f₂, rfl⟩
    | ok res =>
      rw [(hiff res).mpr h₂] at hf
      cases hf
  · rintro ⟨f, hf⟩
    cases h₁ : GetCoveredClusters w₁ repoRoot diffs env selected subpathOverride with
    | error f₁ => exact ⟨f₁, rfl⟩
    | ok res =>
      rw [(hiff res).mp h₁] at hf
      cases hf

/-- Witness of C19 on the example repository: with both maps visited in
reverse order the result is the same list, cluster A before cluster B. -/
theorem covered_order_independent_witness :
    GetCoveredClusters Example.worldReversed Example.repo [Example.diffW, Example.diffY]
        [] [] [] =
      .ok [{ Example.clusterA with Subpath := "x".toList },
           { Example.clusterB with Subpath := dot }] ∧
    (∀ res,
      GetCoveredClusters Example.world Example.repo [Example.diffW, Example.diffY]
        [] [] [] = .ok res ↔
      GetCoveredClusters Example.worldReversed Example.repo [Example.diffW, Example.diffY]
        [] [] [] = .ok res) ∧
    ((∃ f, GetCoveredClusters Example.world Example.repo [Example.diffW, Example.diffY]
        [] [] [] = .error f) ↔
      (∃ f, GetCoveredClusters Example.worldReversed Example.repo
        [Example.diffW, Example.diffY] [] [] [] = .error f)) :=
  ⟨by decide,
   covered_order_independent Example.world Example.worldReversed Example.repo
    [Example.diffW, Example.diffY] [] [] [] rfl Example.loaderContract⟩

/-! ## `AddHeaders` -/

theorem HasPrefix_append (b : Str) : HasPrefix (headerComment ++ b) headerComment = true := by
  unfold HasPrefix
  exact List.isPrefixOf_iff_prefix.mpr (List.prefix_append _ _)

theorem stamp_with_header (b : Str) (h : HasPrefix b headerComment = true) : stamp b = b := by
  unfold stamp
  rw [if_pos h]

theorem stamp_without_header (b : Str) (h : ¬ HasPrefix b headerComment = true) :
    stamp b = headerComment ++ b := by
  unfold stamp
  rw [if_neg h]

theorem HasPrefix_stamp (b : Str) : HasPrefix (stamp b) headerComment = true := by
  by_cases h : HasPrefix b headerComment = true
  · rw [stamp_with_header b h]; exact h
  · rw [stamp_without_header b h]; exact HasPrefix_append b

theorem stamp_stamp (b : Str) : stamp (stamp b) = stamp b :=
  stamp_with_header _ (HasPrefix_stamp b)

theorem stampInv_refl (disk : Disk) : StampInv disk disk :=
  ⟨rfl, rfl, rfl, rfl, fun _ => Or.inl rfl⟩

/-- A read that succeeds gives the bytes of the file the path leads to. -/
theorem readFile_ok (disk : Disk) (path bytes : Str) (h : disk.ReadFile path = .ok bytes) :
    disk.readError path = none ∧ bytes = disk.content (disk.file path) := by
  unfold Disk.ReadFile at h
  cases he : disk.readError path with
  | some e => rw [he] at h; cases h
  | none =>
    rw [he] at h
    simp only [Except.ok.injEq] at h
    exact ⟨rfl, h.symm⟩

theorem readFile_of_readable (disk : Disk) (path : Str) (h : disk.readError path = none) :
    disk.ReadFile path = .ok (disk.content (disk.file path)) := by
  unfold Disk.ReadFile
  rw [h]

/-- Two file systems with the same links, read errors and contents read alike. -/
theorem readFile_congr (disk cur : Disk) (path : Str) (hfile : cur.file = disk.file)
    (herr : cur.readError = disk.readError)
    (hc : cur.content (disk.file path) = disk.content (disk.file path)) :
    cur.ReadFile path = disk.ReadFile path := by
  unfold Disk.ReadFile
  rw [hfile, herr, hc]

/-- One call of the callback of `AddHeaders` that returns nil: the visit has no
error and a file info; the invariant is kept, stamped files stay stamped, the
file that a visited `*.yaml` entry leads to could be read and is stamped, and
no file changes but the one that a visited `*.yaml` entry leads to. -/
theorem addHeadersFn_step (disk cur cur' : Disk) (v : Visit) (inv : StampInv disk cur)
    (h : addHeadersFn cur v = .ok cur') :
    StampInv disk cur' ∧ (∀ f, Stamped disk cur f → Stamped disk cur' f) ∧
      (IsYamlFile v → disk.readError v.path = none ∧ Stamped disk cur' (disk.file v.path)) ∧
      (∀ f, cur'.content f = cur.content f ∨ (IsYamlFile v ∧ disk.file v.path = f)) ∧
      v.err = none ∧ v.info ≠ none := by
  unfold addHeadersFn at h
  cases herr : v.err with
  | some e => rw [herr] at h; cases h
  | none =>
    rw [herr] at h
    simp only at h
    cases hinfo : v.info with
    | none => rw [hinfo] at h; cases h
    | some info =>
      rw [hinfo] at h
      simp only at h
      by_cases hskip : info.IsDir = true ∨ ¬ HasSuffix v.path yamlSuffix = true
      · rw [if_pos hskip] at h
        cases h
        refine ⟨inv, fun f hf => hf, ?_, fun f => Or.inl rfl, rfl, by simp⟩
        rintro ⟨⟨info', hinfo', hfile⟩, hyaml⟩
        rw [hinfo] at hinfo'
        cases hinfo'
        rcases hskip with h1 | h1
        · rw [hfile] at h1; cases h1
        · exact absurd hyaml h1
      · rw [if_neg hskip] at h
        have hy : IsYamlFile v := by
          refine ⟨⟨info, hinfo, ?_⟩, ?_⟩
          · cases hd : info.IsDir with
            | false => rfl
            | true => exact absurd (Or.inl hd) hskip
          · by_contra hn
            exact hskip (Or.inr hn)
        cases hread : cur.ReadFile v.path with
        | error e => rw [hread] at h; cases h
        | ok bytes =>
          rw [hread] at h
          simp only at h
          obtain ⟨hre, hbytes⟩ := readFile_ok cur v.path bytes hread
          rw [inv.readError] at hre
          rw [inv.file] at hbytes
          by_cases hpre : HasPrefix bytes headerComment = true
          · rw [if_pos hpre] at h
            cases h
            refine ⟨inv, fun f hf => hf, fun _ => ⟨hre, ?_⟩, fun f => Or.inl rfl, rfl, by simp⟩
            rcases inv.content (disk.file v.path) with h1 | h1
            · unfold Stamped
              rw [h1, stamp_with_header _ (by rw [← h1, ← hbytes]; exact hpre)]
            · exact h1
          · rw [if_neg hpre] at h
            unfold writeFile at h
            cases hw : cur.WriteFile v.path (headerComment ++ bytes) (Perm info.Mode) with
            | some e => rw [hw] at h; cases h
            | none =>
              rw [hw] at h
              simp only [Except.ok.injEq] at h
              have hold : cur.content (disk.file v.path) = disk.content (disk.file v.path) := by
                rcases inv.content (disk.file v.path) with h1 | h1
                · exact h1
                · unfold Stamped at h1
                  rw [hbytes, h1] at hpre
                  exact absurd (HasPrefix_stamp _) hpre
              have hcont : ∀ f, cur'.content f =
                  if f = disk.file v.path then headerComment ++ bytes else cur.content f := by
                intro f
                rw [← h, inv.file]
              have hnew : Stamped disk cur' (disk.file v.path) := by
                unfold Stamped
                rw [hcont, if_pos rfl, hbytes, hold, stamp_without_header]
                rw [← hold, ← hbytes]
                exact hpre
              have hother : ∀ f, f ≠ disk.file v.path → cur'.content f = cur.content f := by
                intro f hf
                rw [hcont, if_neg hf]
              have hkeep : ∀ f, Stamped disk cur f → Stamped disk cur' f := by
                intro f hf
                by_cases hfv : f = disk.file v.path
                · rw [hfv]; exact hnew
                · unfold Stamped at hf ⊢
                  rw [hother f hfv, hf]
              refine ⟨⟨?_, ?_, ?_, ?_, ?_⟩, hkeep, fun _ => ⟨hre, hnew⟩, ?_, rfl, by simp⟩
              · rw [← h]; exact inv.walk
              · rw [← h]; exact inv.file
              · rw [← h]; exact inv.readError
              · rw [← h]; exact inv.write
              · intro f
                by_cases hfv : f = disk.file v.path
                · right
                  rw [hfv]
                  exact hnew
                · rcases inv.content f with h1 | h1
                  · left; rw [hother f hfv, h1]
                  · exact Or.inr (hkeep f h1)
              · intro f
                by_cases hfv : f = disk.file v.path
                · exact Or.inr ⟨hy, hfv.symm⟩
                · exact Or.inl (hother f hfv)

/-- A walk of `AddHeaders` that succeeds: no visit has an error, the invariant
holds at the end, the file that a visited `*.yaml` entry leads to could be read
and is stamped, and every file that changed is one that a visited `*.yaml`
entry leads to. -/
theorem addHeaders_walk (disk : Disk) (visits : List Visit) (cur final : Disk)
    (inv : StampInv disk cur) (h : walkVisits addHeadersFn visits cur = .ok final) :
    StampInv disk final ∧ (∀ f, Stamped disk cur f → Stamped disk final f) ∧
      (∀ v ∈ visits, IsYamlFile v →
        disk.readError v.path = none ∧ Stamped disk final (disk.file v.path)) ∧
      (∀ f, final.content f = cur.content f ∨
        ∃ v ∈ visits, IsYamlFile v ∧ disk.file v.path = f) ∧
      (∀ v ∈ visits, v.err = none ∧ v.info ≠ none) := by
  induction visits generalizing cur with
  | nil =>
    simp only [walkVisits, Except.ok.injEq] at h
    subst h
    exact ⟨inv, fun f hf => hf, fun v hv => by simp at hv, fun f => Or.inl rfl,
      fun v hv => by simp at hv⟩
  | cons v rest ih =>
    simp only [walkVisits] at h
    cases hv : addHeadersFn cur v with
    | error e => rw [hv] at h; cases h
    | ok cur' =>
      rw [hv] at h
      obtain ⟨inv', hkeep, hnew, hframe, herr⟩ := addHeadersFn_step disk cur cur' v inv hv
      obtain ⟨invf, hkeepf, hallf, hframef, herrf⟩ := ih cur' inv' h
      refine ⟨invf, fun f hf => hkeepf f (hkeep f hf), ?_, ?_, ?_⟩
      · intro x hx hy
        rcases List.mem_cons.mp hx with h1 | h1
        · rw [h1]
          exact ⟨(hnew (h1 ▸ hy)).1, hkeepf _ (hnew (h1 ▸ hy)).2⟩
        · exact hallf x h1 hy
      · intro f
        rcases hframef f with h1 | ⟨x, hx, hy, hf⟩
        · rcases hframe f with h2 | ⟨hy, hf⟩
          · exact Or.inl (h1.trans h2)
          · exact Or.inr ⟨v, List.mem_cons_self _ _, hy, hf⟩
        · exact Or.inr ⟨x, List.mem_cons_of_mem _ hx, hy, hf⟩
      · intro x hx
        rcases List.mem_cons.mp hx with h1 | h1
        · rw [h1]; exact herr
        · exact herrf x h1

theorem walkVisits_const {σ : Type} (fn : σ → Visit → Except Fault σ) (visits : List Visit)
    (st : σ) (h : ∀ v ∈ visits, fn st v = .ok st) : walkVisits fn visits st = .ok st := by
  induction visits with
  | nil => rfl
  | cons v rest ih =>
    rw [walkVisits, h v (List.mem_cons_self _ _)]
    exact ih (fun x hx => h x (List.mem_cons_of_mem _ hx))

/-- After a successful `AddHeaders`, the callback changes nothing at any visit
of the same walk. -/
theorem addHeadersFn_of_stamped (disk final : Disk) (v : Visit) (inv : StampInv disk final)
    (herr : v.err = none ∧ v.info ≠ none)
    (hst : IsYamlFile v →
      disk.readError v.path = none ∧ Stamped disk final (disk.file v.path)) :
    addHeadersFn final v = .ok final := by
  unfold addHeadersFn
  rw [herr.1]
  simp only
  cases hinfo : v.info with
  | none => exact absurd hinfo herr.2
  | some info =>
    simp only
    by_cases hskip : info.IsDir = true ∨ ¬ HasSuffix v.path yamlSuffix = true
    · rw [if_pos hskip]
    · rw [if_neg hskip]
      have hy : IsYamlFile v := by
        refine ⟨⟨info, hinfo, ?_⟩, ?_⟩
        · cases hd : info.IsDir with
          | false => rfl
          | true => exact absurd (Or.inl hd) hskip
        · by_contra hn
          exact hskip (Or.inr hn)
      obtain ⟨hre, hs⟩ := hst hy
      unfold Stamped at hs
      rw [readFile_of_readable final v.path (by rw [inv.readError]; exact hre), inv.file, hs]
      simp only
      rw [if_pos (HasPrefix_stamp _)]

/-- C16: header stamping is idempotent. After a successful `AddHeaders`, a
second `AddHeaders` on the same root succeeds and leaves the file system as the
first one left it, so every file keeps exactly the content it has after the
first run; and for every content `b`, stamping the stamped `b` gives the
stamped `b`. -/
theorem addHeaders_idempotent (disk : Disk) (root : Str) (disk' : Disk)
    (h : AddHeaders disk root = .ok disk') :
    AddHeaders disk' root = .ok disk' ∧
    (∀ disk'', AddHeaders disk' root = .ok disk'' →
      ∀ p, disk''.ReadFile p = disk'.ReadFile p) ∧
    ∀ b, stamp (stamp b) = stamp b := by
  obtain ⟨inv, -, hall, -, herr⟩ := addHeaders_walk disk (disk.Walk root) disk disk'
    (stampInv_refl disk) h
  have hsecond : AddHeaders disk' root = .ok disk' := by
    unfold AddHeaders
    rw [inv.walk]
    exact walkVisits_const _ _ _
      (fun v hv => addHeadersFn_of_stamped disk disk' v inv (herr v hv) (hall v hv))
  refine ⟨hsecond, ?_, stamp_stamp⟩
  intro disk'' h2 p
  rw [hsecond] at h2
  cases h2
  rfl

/-- Witness of C16 on the example tree: the second run leaves the stamped tree
as it is. -/
theorem addHeaders_idempotent_witness :
    AddHeaders Example.disk "/repo/clusters/a/expanded".toList = .ok Example.diskStamped ∧
    AddHeaders Example.diskStamped "/repo/clusters/a/expanded".toList =
      .ok Example.diskStamped ∧
    (∀ disk'', AddHeaders Example.diskStamped "/repo/clusters/a/expanded".toList =
        .ok disk'' →
      ∀ p, disk''.ReadFile p = Example.diskStamped.ReadFile p) ∧
    ∀ b, stamp (stamp b) = stamp b :=
  ⟨by rfl,
   addHeaders_idempotent Example.disk "/repo/clusters/a/expanded".toList Example.diskStamped
    (by rfl)⟩

/-- The effect of a successful `AddHeaders` on the contents of the files: every
file holds what it held or is stamped, the file that a visited `*.yaml` entry
leads to could be read and is stamped, and every file that changed is one that
a visited `*.yaml` entry leads to. -/
theorem addHeaders_contents (disk : Disk) (root : Str) (disk' : Disk)
    (h : AddHeaders disk root = .ok disk') :
    StampInv disk disk' ∧
    (∀ v ∈ disk.Walk root, IsYamlFile v →
      disk.readError v.path = none ∧ Stamped disk disk' (disk.file v.path)) ∧
    (∀ f, disk'.content f = disk.content f ∨
      ∃ v ∈ disk.Walk root, IsYamlFile v ∧ disk.file v.path = f) := by
  obtain ⟨inv, -, hall, hframe, -⟩ := addHeaders_walk disk (disk.Walk root) disk disk'
    (stampInv_refl disk) h
  exact ⟨inv, hall, hframe⟩

/-- C17, as amended: after a successful `AddHeaders`, every entry that the walk
visits, that is not a directory and whose path ends in `.yaml` reads as a
content that starts with the header comment: the header followed by the old
content if the old content did not start with the header, and the old content
otherwise. The links are as before. Every file that no such entry leads to,
directly or through a link, holds what it held, and every path that leads to
such a file reads as before, whatever the path ends in. A path that leads to
the file of such an entry reads as the stamped old content, also when the path
does not end in `.yaml`. -/
theorem addHeaders_effect (disk : Disk) (root : Str) (disk' : Disk)
    (h : AddHeaders disk root = .ok disk') :
    (∀ v ∈ disk.Walk root, IsYamlFile v →
      ∃ old, disk.ReadFile v.path = .ok old ∧
        disk'.ReadFile v.path =
          .ok (if HasPrefix old headerComment then old else headerComment ++ old) ∧
        ∃ new, disk'.ReadFile v.path = .ok new ∧ HasPrefix new headerComment = true) ∧
    disk'.file = disk.file ∧
    (∀ f, (∀ v ∈ disk.Walk root, IsYamlFile v → disk.file v.path ≠ f) →
      disk'.content f = disk.content f) ∧
    (∀ p, (∀ v ∈ disk.Walk root, IsYamlFile v → disk.file v.path ≠ disk.file p) →
      disk'.ReadFile p = disk.ReadFile p) ∧
    (∀ p, (∃ v ∈ disk.Walk root, IsYamlFile v ∧ disk.file v.path = disk.file p) →
      ∀ old, disk.ReadFile p = .ok old →
        disk'.ReadFile p =
          .ok (if HasPrefix old headerComment then old else headerComment ++ old)) := by
  obtain ⟨inv, hall, hframe⟩ := addHeaders_contents disk root disk' h
  have hunchanged : ∀ f, (∀ v ∈ disk.Walk root, IsYamlFile v → disk.file v.path ≠ f) →
      disk'.content f = disk.content f := by
    intro f hf
    rcases hframe f with h1 | ⟨v, hv, hy, hvf⟩
    · exact h1
    · exact absurd hvf (hf v hv hy)
  have hstamped : ∀ p, (∃ v ∈ disk.Walk root, IsYamlFile v ∧ disk.file v.path = disk.file p) →
      ∀ old, disk.ReadFile p = .ok old → disk'.ReadFile p = .ok (stamp old) := by
    rintro p ⟨v, hv, hy, hvp⟩ old hold
    obtain ⟨hre, hbytes⟩ := readFile_ok disk p old hold
    have hs := (hall v hv hy).2
    unfold Stamped at hs
    rw [readFile_of_readable disk' p (by rw [inv.readError]; exact hre), inv.file, ← hvp, hs,
      hvp, ← hbytes]
  refine ⟨?_, inv.file, hunchanged, ?_, hstamped⟩
  · intro v hv hy
    have hold := readFile_of_readable disk v.path (hall v hv hy).1
    have hnew := hstamped v.path ⟨v, hv, hy, rfl⟩ _ hold
    exact ⟨_, hold, hnew, _, hnew, HasPrefix_stamp _⟩
  · intro p hp
    exact readFile_congr disk disk' p inv.file inv.readError (hunchanged _ hp)

/-- Witness of C17 as amended, on the example tree with the link: `x/z.yaml`
gets the header and `x/y.yaml`, which has it, keeps its content; `x/link.yaml`
reads with the header, and so does `x/notes.txt`, the file it leads to;
`x/plain.txt`, to which no `*.yaml` entry leads, keeps its content. -/
theorem addHeaders_effect_witness :
    (AddHeaders Example.diskLinked "/repo/clusters/a/expanded".toList =
        .ok Example.diskLinkedStamped ∧
      Example.diskLinkedStamped.ReadFile "/repo/clusters/a/expanded/x/z.yaml".toList =
        .ok (headerComment ++ "kind: Service\n".toList) ∧
      Example.diskLinkedStamped.ReadFile "/repo/clusters/a/expanded/x/y.yaml".toList =
        .ok (headerComment ++ "kind: ConfigMap\n".toList) ∧
      Example.diskLinkedStamped.ReadFile "/repo/clusters/a/expanded/x/link.yaml".toList =
        .ok (headerComment ++ "notes\n".toList) ∧
      Example.diskLinkedStamped.ReadFile "/repo/clusters/a/expanded/x/plain.txt".toList =
        .ok "plain\n".toList) ∧
    (∀ v ∈ Example.diskLinked.Walk "/repo/clusters/a/expanded".toList, IsYamlFile v →
      ∃ old, Example.diskLinked.ReadFile v.path = .ok old ∧
        Example.diskLinkedStamped.ReadFile v.path =
          .ok (if HasPrefix old headerComment then old else headerComment ++ old) ∧
        ∃ new, Example.diskLinkedStamped.ReadFile v.path = .ok new ∧
          HasPrefix new headerComment = true) ∧
    Example.diskLinkedStamped.file = Example.diskLinked.file ∧
    (∀ f, (∀ v ∈ Example.diskLinked.Walk "/repo/clusters/a/expanded".toList, IsYamlFile v →
        Example.diskLinked.file v.path ≠ f) →
      Example.diskLinkedStamped.content f = Example.diskLinked.content f) ∧
    (∀ p, (∀ v ∈ Example.diskLinked.Walk "/repo/clusters/a/expanded".toList, IsYamlFile v →
        Example.diskLinked.file v.path ≠ Example.diskLinked.file p) →
      Example.diskLinkedStamped.ReadFile p = Example.diskLinked.ReadFile p) ∧
    (∀ p, (∃ v ∈ Example.diskLinked.Walk "/repo/clusters/a/expanded".toList,
        IsYamlFile v ∧ Example.diskLinked.file v.path = Example.diskLinked.file p) →
      ∀ old, Example.diskLinked.ReadFile p = .ok old →
        Example.diskLinkedStamped.ReadFile p =
          .ok (if HasPrefix old headerComment then old else headerComment ++ old)) :=
  ⟨⟨by rfl, by decide, by decide, by decide, by decide⟩,
   addHeaders_effect Example.diskLinked "/repo/clusters/a/expanded".toList
    Example.diskLinkedStamped (by rfl)⟩

/-- Counterexample to C17 as stated: in the example tree the entry
`x/link.yaml` is a symbolic link to `x/notes.txt`. `AddHeaders` succeeds; the
path `x/notes.txt` does not end in `.yaml` and read `notes` before, and it reads
as the header followed by `notes` afterwards, because the write to `x/link.yaml`
goes to the file the link leads to. So it is not the case that every path that
does not end in `.yaml` reads as before. -/
theorem addHeaders_effect_counterexample :
    HasSuffix "/repo/clusters/a/expanded/x/notes.txt".toList yamlSuffix = false ∧
    AddHeaders Example.diskLinked "/repo/clusters/a/expanded".toList =
      .ok Example.diskLinkedStamped ∧
    Example.diskLinked.ReadFile "/repo/clusters/a/expanded/x/notes.txt".toList =
      .ok "notes\n".toList ∧
    Example.diskLinkedStamped.ReadFile "/repo/clusters/a/expanded/x/notes.txt".toList =
      .ok (headerComment ++ "notes\n".toList) ∧
    ¬ (∀ (disk : Disk) (root : Str) (disk' : Disk), AddHeaders disk root = .ok disk' →
        ∀ p, HasSuffix p yamlSuffix = false → disk'.ReadFile p = disk.ReadFile p) := by
  refine ⟨by decide, by rfl, by decide, by decide, fun hall => ?_⟩
  have h := hall Example.diskLinked "/repo/clusters/a/expanded".toList
    Example.diskLinkedStamped (by rfl) "/repo/clusters/a/expanded/x/notes.txt".toList
    (by decide)
  revert h
  decide

end Kubeapply
